import Mathlib

/-!
# Cloud trading back end: order engine and risk hub

A shallow embedding of `Cloud_System/tradeserver.cpp` (class `TradeServer`, the
pricing and order engine), `Cloud_System/accountserver.cpp` (class
`AccountServer`, the account / risk / session hub),
`Cloud_System/alphacalculator.cpp` (class `AlphaCalculator`) and the order
validation of the dashboard (`DisplayManager::inputTrade`).

Modelling conventions

* In the two servers and in the calculator `double` is modelled by `ℚ` (exact
  arithmetic).  In the two servers a division by zero is outside the model:
  where a divisor is zero (an open price of 0, a `benchOpen` that was never
  set) the quotient is written as such and its value carries no information.
  The division by the benchmark variance in `AlphaCalculator::computeAlpha`
  goes through `AlphaCalculator.fdiv`, whose result `none` stands for the
  non-finite value of a division by zero.
* The order validation of the dashboard is embedded on binary64 values, with
  rounding, infinities and NaN (`Binary64.inputTrade`); `DisplayManager.inputTrade`
  is the same function read over exact numbers, for the orders whose
  arithmetic is exact.
* Both objects live in the main thread, so every Qt signal is delivered by a
  direct call: `emit sig(args)` runs the connected slot to completion before
  the emitting function continues.  The whole process is therefore one state
  record that the handlers transform, and a call of `closeTrade` includes the
  work of the slots behind `tradeClosed` (`onCloseTrade`, and through
  `accountLocked` and `closeAllTrades` possibly `onCloseAllTrades`).
* `QMap<int, V>` is an association list in ascending key order, `operator[]`
  inserts a default value for an absent key.
* `QMap<Trade*, double>` is the list of its entries in key (address) order.  The
  address handed out by `new Trade` is an input of the handler (the slot at
  which the fresh key falls among the existing ones).  A range-for over
  `keys()` iterates over a copy of the keys taken before the loop.  When a
  nested lock cascade has closed and deleted the positions that the copy still
  lists, the loop reads through pointers to deleted objects: the C++ program
  has undefined behaviour from there on.  The model records such a read in the
  field `dangling` and goes on with the record as it was when the copy was
  taken (the map of the user is empty then, so the calls of `closeTrade` made
  through the remaining keys find no position); what it says about a state
  with `dangling = true` is a statement about the model only.
* A `QWebSocket*` is a socket number.  The call `deleteLater()` of the
  disconnect handlers is not modelled: the state keeps the registrations of the
  sockets and no record of their lifetime, and a write to a socket is a log
  entry whether or not the socket is still connected.
* SQL statements on the `"Account"` table act on a map from user id to row
  (`user_id` is the key: a statement on an absent row changes nothing and
  `q.next()` fails).  Statements on `"Trade_History"` (whose rows are recovered
  from the log by `historyTable`), calls into the two
  `AlphaCalculator` objects, signals and socket writes are appended to an
  output log in the order in which they happen.  In the process model the
  calculators are sinks: the observations they receive are logged, and the
  slots behind their signal `alphaUpdated`, which write the `alpha` column
  only, are left out.  What a calculator does with its observations is
  embedded on its own, in the namespace `AlphaCalculator`.
* `QDate::currentDate()` and `QTime::currentTime()` read the clock field of the
  state, which is set from the input when a handler starts.
-/

namespace TradingPlatform

/-! ## Data model -/

/-- The tradable assets (`enum Asset` of `asset.h`, in declaration order). -/
inductive Asset where
  | BTCUSDT
  | ETHUSDT
  | SOLUSDT
  | XRPUSDT
deriving DecidableEq, Repr

/-- Fields of `class Trade` (`trade.h`). -/
structure Trade where
  tradeID : String
  stopLoss : ℚ
  takeProfit : ℚ
  size : ℚ
  asset : Asset
  openPrice : ℚ
  type : String
  position : String
deriving DecidableEq

/-- One `QMap<Trade*, double>`: the open positions of one user with their
stored P&L, in key order. -/
abbrev TradeMap := List (Trade × ℚ)

/-- Columns of a row of the `"Account"` table that the risk path reads or
writes. -/
structure AccountRow where
  balance : ℚ
  max_loss : ℚ
  status : Bool
deriving DecidableEq

/-- The reading of the system clock. -/
structure Clock where
  date : Int
  hour : Nat
  minute : Nat
deriving DecidableEq

/-- JSON objects written to dashboard sockets. -/
inductive Payload where
  | equity (equityUpdate : ℚ)
  | tradeClosed
  | accountLocked
  | openSnapshot (userID : Int) (t : Trade) (pnl : ℚ)
  | closed (userID : Int) (tradeID : String) (pnl : ℚ)
deriving DecidableEq

/-- Observable effects, in the order in which they happen. -/
inductive Event where
  | tradeClosed (userID : Int) (pnl : ℚ)
  | equityUpdate (userID : Int) (totalPnL : ℚ)
  | closeAllTrades (userID : Int)
  | addTrade (userID : Int) (day : Int) (rp : ℚ) (w : ℚ)
  | addBenchmark (userID : Int) (day : Int) (rb : ℚ) (w : ℚ)
  | hubAddTrade (userID : Int) (day : Int) (rp : ℚ) (w : ℚ)
  | historyInsert (tradeID : String) (userID : Int) (size : ℚ) (asset : Asset)
      (openPrice : ℚ) (date : Clock)
  | historyUpdate (tradeID : String) (closingPrice : ℚ) (pnl : ℚ) (date : Clock)
  | tradeSend (socket : Nat) (msg : Payload)
  | hubSend (socket : Nat) (msg : Payload)
deriving DecidableEq

/-! ## `QMap<int, V>` -/

namespace QMap

/-- The value stored under `k`, `d` when the key is absent
(`QMap::value(key, defaultValue)`). -/
def value {V : Type} : List (Int × V) → Int → V → V
  | [], _, d => d
  | (k0, v) :: rest, k, d => if k0 = k then v else value rest k d

/-- Membership test on keys: `QMap::contains`. -/
def contains {V : Type} : List (Int × V) → Int → Bool
  | [], _ => false
  | (k0, _) :: rest, k => if k0 = k then true else contains rest k

/-- Store `v` under `k`, keeping the keys in ascending order: `QMap::insert`. -/
def insert {V : Type} : List (Int × V) → Int → V → List (Int × V)
  | [], k, v => [(k, v)]
  | (k0, v0) :: rest, k, v =>
      if k0 = k then (k, v) :: rest
      else if k < k0 then (k, v) :: (k0, v0) :: rest
      else (k0, v0) :: insert rest k v

/-- Delete the key: `QMap::remove`. -/
def remove {V : Type} (m : List (Int × V)) (k : Int) : List (Int × V) :=
  m.filter (fun e => decide (e.1 ≠ k))

/-- The keys in ascending order: `QMap::keys`. -/
def keys {V : Type} (m : List (Int × V)) : List Int :=
  m.map Prod.fst

/-- The effect of `operator[]` on the key set: an absent key is inserted with
the default value. -/
def touch {V : Type} (m : List (Int × V)) (k : Int) (d : V) : List (Int × V) :=
  if contains m k then m else insert m k d

end QMap

/-! ## Process state -/

/-- The members of `TradeServer` and `AccountServer` together with the
`"Account"` table, the clock and the output log. -/
structure State where
  /-- Member `TradeServer::livePrices`; an absent key reads as `0.0`. -/
  livePrices : Asset → ℚ
  /-- Member `TradeServer::usersTradeMap`. -/
  usersTradeMap : List (Int × TradeMap)
  /-- Member `TradeServer::userSessions`. -/
  userSessions : List (Int × List Nat)
  /-- Member `TradeServer::socketUserMap`. -/
  socketUserMap : Nat → Option Int
  /-- Member `TradeServer::currentDay`. -/
  currentDay : Int
  /-- Member `TradeServer::benchOpen`. -/
  benchOpen : ℚ
  /-- Member `AccountServer::userSessions`. -/
  hubSessions : List (Int × List Nat)
  /-- Member `AccountServer::socketUserMap`. -/
  hubSocketUser : Nat → Option Int
  /-- The `"Account"` table. -/
  account : Int → Option AccountRow
  /-- The system clock. -/
  now : Clock
  /-- The output log. -/
  out : List Event
  /-- Whether a handler has read through a `Trade*` whose object `closeTrade`
  had deleted before (undefined behaviour in the C++ program). -/
  dangling : Bool

/-- Read `usersTradeMap[uid]` (value only). -/
def trades (s : State) (uid : Int) : TradeMap :=
  QMap.value s.usersTradeMap uid []

/-- The key-set effect of evaluating `usersTradeMap[uid]`. -/
def touchUser (s : State) (uid : Int) : State :=
  { s with usersTradeMap := QMap.touch s.usersTradeMap uid [] }

/-- Replace the map stored at `usersTradeMap[uid]`. -/
def setTrades (s : State) (uid : Int) (m : TradeMap) : State :=
  { s with usersTradeMap := QMap.insert s.usersTradeMap uid m }

/-- Append one entry to the output log. -/
def emit (s : State) (e : Event) : State :=
  { s with out := s.out ++ [e] }

/-- Append entries to the output log. -/
def emitAll (s : State) (es : List Event) : State :=
  { s with out := s.out ++ es }

/-- The statement `UPDATE "Account" SET … WHERE user_id = uid`: the row of
`uid`, if there is one, is rewritten by `f`. -/
def updateAccount (s : State) (uid : Int) (f : AccountRow → AccountRow) : State :=
  { s with account := Function.update s.account uid ((s.account uid).map f) }

/-- A handler starts at clock reading `clock`. -/
def setClock (s : State) (clock : Clock) : State :=
  { s with now := clock }

/-- The assignment `livePrices[asset] = px`. -/
def setPrice (s : State) (asset : Asset) (px : ℚ) : State :=
  { s with livePrices := Function.update s.livePrices asset px }

/-- Insert `x` at position `slot` (at the end when the list is shorter). -/
def insertAt {α : Type} : Nat → α → List α → List α
  | 0, x, l => x :: l
  | _ + 1, x, [] => [x]
  | n + 1, x, y :: l => y :: insertAt n x l

/-- The expression `diff * size` with
`diff = (position == "long") ? (live - openPrice) : (openPrice - live)`, which
the engine evaluates when it opens, marks and closes a position. -/
def pnlAt (live : ℚ) (t : Trade) : ℚ :=
  (if t.position = "long" then live - t.openPrice else t.openPrice - live) * t.size

/-- The `hit` flag of `TradeServer::checkLimits`. -/
def limitHit (px : ℚ) (t : Trade) : Bool :=
  if t.position = "long" then decide (px ≥ t.takeProfit ∨ px ≤ t.stopLoss)
  else decide (px ≤ t.takeProfit ∨ px ≥ t.stopLoss)

/-- The loop header of `TradeServer::closeTrade`: the first key, in key order,
whose trade id is `tid`, together with the map without that key. -/
def findTrade (tid : String) : TradeMap → Option (Trade × TradeMap)
  | [] => none
  | (t, p) :: rest =>
      if t.tradeID = tid then some (t, rest)
      else (findTrade tid rest).map (fun r => (r.1, (t, p) :: r.2))

/-- The dereference of a key `t` taken from a copy of the keys of
`usersTradeMap[uid]` (`t->getTradeID()`, `t->getAsset()`, …).  The object is
alive as long as the key is in the map, because `closeTrade` deletes a `Trade`
right after it has removed its key; a read through a key that has left the map
is a read of a deleted object, which is recorded in `dangling`.  Inside the
loops over a key copy a key leaves the map before it is read only through a
lock cascade, which leaves the map of the user empty, so that the test on the
value of the key is a test on the pointer. -/
def readKey (s : State) (uid : Int) (t : Trade) : State :=
  if (trades s uid).any (fun e => decide (e.1 = t)) then s else { s with dangling := true }

/-! ## `AccountServer` -/

namespace AccountServer

/-- Send `obj` to every socket registered for `uid`:
`AccountServer::broadcastJson`. -/
def broadcastJson (s : State) (uid : Int) (obj : Payload) : State :=
  if QMap.contains s.hubSessions uid then
    emitAll s ((QMap.value s.hubSessions uid []).map (fun ws => Event.hubSend ws obj))
  else s

/-- Lock handling: `AccountServer::accountLocked`.  The argument
`closeAllTrades` is the slot connected to the signal of that name. -/
def accountLocked (closeAllTrades : State → Int → State) (s : State) (userID : Int) :
    State :=
  let s1 := updateAccount s userID (fun r => { r with status := false })
  let s2 := emit s1 (Event.closeAllTrades userID)
  let s3 := closeAllTrades s2 userID
  broadcastJson s3 userID Payload.accountLocked

/-- Slot for the signal `equityUpdate`: `AccountServer::onEquityUpdate`. -/
def onEquityUpdate (closeAllTrades : State → Int → State) (s : State) (userID : Int)
    (totalPnL : ℚ) : State :=
  match s.account userID with
  | none => s
  | some row =>
    let bal := row.balance
    let mLoss := row.max_loss
    let equity := bal + totalPnL
    if equity ≤ mLoss then
      let s1 := updateAccount s userID (fun r => { r with balance := equity })
      accountLocked closeAllTrades s1 userID
    else
      broadcastJson s userID (Payload.equity equity)

/-- The second step of `AccountServer::onCloseTrade`: feed the realised trade
into the alpha calculator of the hub. -/
def feedTrade (s : State) (userID : Int) (pnl : ℚ) : State :=
  let w := |pnl|
  if w > 0 then emit s (Event.hubAddTrade userID s.now.date (pnl / w) w) else s

/-- Slot for the signal `tradeClosed`: `AccountServer::onCloseTrade`. -/
def onCloseTrade (closeAllTrades : State → Int → State) (s : State) (userID : Int)
    (pnl : ℚ) : State :=
  match s.account userID with
  | none => s
  | some row =>
    let newBal := row.balance + pnl
    let maxL := row.max_loss
    let s1 := updateAccount s userID (fun r => { r with balance := r.balance + pnl })
    let s2 :=
      if newBal ≤ maxL then accountLocked closeAllTrades s1 userID
      else broadcastJson s1 userID Payload.tradeClosed
    feedTrade s2 userID pnl

/-- The decoded handshake of a dashboard on the hub socket. -/
structure Msg where
  isObject : Bool
  connection : String
  userID : Int

/-- Text message on a hub socket: `AccountServer::onTextMessageReceived`. -/
def onTextMessageReceived (s : State) (sock : Nat) (obj : Msg) : State :=
  if ¬ obj.isObject then s
  else if obj.connection = "account" then
    let uid := obj.userID
    { s with
      hubSessions :=
        QMap.insert s.hubSessions uid (QMap.value s.hubSessions uid [] ++ [sock])
      hubSocketUser := Function.update s.hubSocketUser sock (some uid) }
  else s

/-- Disconnect of a hub socket: `AccountServer::onSocketDisconnected`. -/
def onSocketDisconnected (s : State) (sock : Nat) : State :=
  let uid := (s.hubSocketUser sock).getD 0
  let s1 : State := { s with hubSocketUser := Function.update s.hubSocketUser sock none }
  if uid ≠ 0 then
    let l := (QMap.value s1.hubSessions uid []).erase sock
    if l.isEmpty then { s1 with hubSessions := QMap.remove s1.hubSessions uid }
    else { s1 with hubSessions := QMap.insert s1.hubSessions uid l }
  else s1

end AccountServer

/-! ## `TradeServer` -/

namespace TradeServer

/-- The loop of `TradeServer::onCloseAllTrades` over a copy of the keys, with
`close` standing for `closeTrade`. -/
def closeAllLoop (close : State → Int → String → State) (s : State) (uid : Int) :
    State :=
  let s0 := touchUser s uid
  ((trades s0 uid).map Prod.fst).foldl (fun st t => close (readKey st uid t) uid t.tradeID) s0

/-- The body of the loop of `TradeServer::closeTrade` for the matching key `t`,
from the computation of the P&L to the signal `tradeClosed`: persist closing
price and P&L, feed the realised trade into the alpha model, remove the key. -/
def closeRecord (s : State) (uid : Int) (tid : String) (t : Trade) (rest : TradeMap) :
    State :=
  let live := s.livePrices t.asset
  let pnl := pnlAt live t
  let s1 := emit s (Event.historyUpdate tid live pnl s.now)
  let rp := (live - t.openPrice) / t.openPrice
  let w := |t.size * t.openPrice|
  let s2 := emit s1 (Event.addTrade uid s1.now.date rp w)
  let s3 := setTrades s2 uid rest
  emit s3 (Event.tradeClosed uid pnl)

/-- The end of the loop body of `TradeServer::closeTrade`: tell the dashboards
of the user that the trade is gone. -/
def notifyClosed (s : State) (uid : Int) (tid : String) (pnl : ℚ) : State :=
  if QMap.contains s.userSessions uid then
    emitAll s ((QMap.value s.userSessions uid []).map
      (fun sock => Event.tradeSend sock (Payload.closed uid tid pnl)))
  else s

/-- The function `TradeServer::closeTrade`, including the slots that run inside
`emit tradeClosed`.  The first argument bounds the nesting depth of the
lock cascade (`closeTrade → onCloseTrade → accountLocked → onCloseAllTrades →
closeTrade`). -/
def closeTradeFuel : Nat → State → Int → String → State
  | 0, s, _, _ => s
  | fuel + 1, s, uid, tid =>
    let s0 := touchUser s uid
    match findTrade tid (trades s0 uid) with
    | none => s0
    | some (t, rest) =>
      let pnl := pnlAt (s0.livePrices t.asset) t
      let s4 := closeRecord s0 uid tid t rest
      let s5 := AccountServer.onCloseTrade (closeAllLoop (closeTradeFuel fuel)) s4 uid pnl
      notifyClosed s5 uid tid pnl

/-- The function `TradeServer::closeTrade`: every call nests at most once per
open position of the user. -/
def closeTrade (s : State) (uid : Int) (tid : String) : State :=
  closeTradeFuel ((trades s uid).length + 1) s uid tid

/-- Slot for the signal `closeAllTrades`: `TradeServer::onCloseAllTrades`. -/
def onCloseAllTrades (s : State) (uid : Int) : State :=
  closeAllLoop closeTrade s uid

/-- The function `TradeServer::getTotalPnL` (value). -/
def getTotalPnL (s : State) (uid : Int) : ℚ :=
  ((trades s uid).map Prod.snd).foldl (fun tot p => tot + p) 0

/-- The function `TradeServer::updateAssetPnL`. -/
def updateAssetPnL (s : State) (uid : Int) (asset : Asset) : State :=
  let s0 := touchUser s uid
  setTrades s0 uid ((trades s0 uid).map (fun e =>
    if e.1.asset ≠ asset then e else (e.1, pnlAt (s0.livePrices asset) e.1)))

/-- The function `TradeServer::checkLimits`. -/
def checkLimits (s : State) (uid : Int) (asset : Asset) : State :=
  let s0 := touchUser s uid
  ((trades s0 uid).map Prod.fst).foldl (fun st t =>
    if t.asset ≠ asset then readKey st uid t
    else if limitHit (st.livePrices asset) t then closeTrade (readKey st uid t) uid t.tradeID
    else readKey st uid t) s0

/-- The function `TradeServer::tradeDashboardUpdate`. -/
def tradeDashboardUpdate (s : State) (uid : Int) (asset : Asset) : State :=
  let s0 := touchUser s uid
  (trades s0 uid).foldl (fun st e =>
    if e.1.asset ≠ asset then st
    else
      let st1 : State := { st with userSessions := QMap.touch st.userSessions uid [] }
      emitAll st1 ((QMap.value st1.userSessions uid []).map
        (fun sock => Event.tradeSend sock (Payload.openSnapshot uid e.1 e.2)))) s0

/-- The decoded JSON object of a dashboard message: the value of
`"connection"`, whether the keys `"newTrade"` and `"closeTrade"` are present,
and the values of the order fields. -/
structure Msg where
  isObject : Bool
  connection : String
  newTrade : Bool
  closeTrade : Bool
  userID : Int
  tradeID : String
  asset : Asset
  position : String
  size : ℚ
  stopLoss : ℚ
  takeProfit : ℚ
  type : String

/-- Text message on a dashboard socket: `TradeServer::onTextMessageReceived`.
The argument `slot` is the place of the address of the new `Trade` among the
keys of the user. -/
def onTextMessageReceived (s : State) (sock : Nat) (o : Msg) (slot : Nat) : State :=
  if ¬ o.isObject then s
  else if o.connection = "tradeDashboard" then
    let uid := o.userID
    { s with
      socketUserMap := Function.update s.socketUserMap sock (some uid)
      userSessions :=
        QMap.insert s.userSessions uid (QMap.value s.userSessions uid [] ++ [sock]) }
  else if o.newTrade then
    let uid := o.userID
    let openPx := s.livePrices o.asset
    let t : Trade :=
      { tradeID := o.tradeID, stopLoss := o.stopLoss, takeProfit := o.takeProfit,
        size := o.size, asset := o.asset, openPrice := openPx, type := o.type,
        position := o.position }
    let s1 := setTrades s uid (insertAt slot (t, pnlAt (s.livePrices o.asset) t) (trades s uid))
    emit s1 (Event.historyInsert o.tradeID uid o.size o.asset openPx s1.now)
  else if o.closeTrade then closeTrade s o.userID o.tradeID
  else s

/-- Disconnect of a dashboard socket: `TradeServer::onSocketDisconnected`. -/
def onSocketDisconnected (s : State) (sock : Nat) : State :=
  let uid := (s.socketUserMap sock).getD 0
  let s1 : State := { s with socketUserMap := Function.update s.socketUserMap sock none }
  if uid ≠ -1 then
    { s1 with
      userSessions :=
        QMap.insert s1.userSessions uid
          ((QMap.value s1.userSessions uid []).filter (fun x => decide (x ≠ sock))) }
  else s1

/-- A k-line message of the price feed: the number carried at `k.c`, if the
message is a JSON object that carries one. -/
structure TickMsg where
  close : Option ℚ

/-- The helper `extractClose`: `0.0` when the conversion fails. -/
def extractClose (msg : TickMsg) : ℚ :=
  msg.close.getD 0

/-- The benchmark branch of `HANDLE_TICK`. -/
def benchmarkTick (s : State) (px : ℚ) : State :=
  let today := s.now.date
  let s1 : State :=
    if today ≠ s.currentDay then { s with currentDay := today, benchOpen := px } else s
  if s1.now.hour = 23 ∧ s1.now.minute ≥ 59 then
    emit s1 (Event.addBenchmark 0 s1.currentDay ((px - s1.benchOpen) / s1.benchOpen) 1)
  else s1

/-- The first loop of `HANDLE_TICK` (risk and P&L updates). -/
def riskLoop (s : State) (asset : Asset) : State :=
  (QMap.keys s.usersTradeMap).foldl
    (fun st uid => updateAssetPnL (checkLimits st uid asset) uid asset) s

/-- One round of the second loop of `HANDLE_TICK`. -/
def equityRound (asset : Asset) (st : State) (uid : Int) : State :=
  let st0 := touchUser st uid
  let totalPnL := getTotalPnL st0 uid
  let st1 := emit st0 (Event.equityUpdate uid totalPnL)
  let st2 := AccountServer.onEquityUpdate onCloseAllTrades st1 uid totalPnL
  tradeDashboardUpdate st2 uid asset

/-- The macro `HANDLE_TICK(N, ENUM)` up to the end of its first loop, with
`asset` for `ENUM`. -/
def riskPhase (s : State) (asset : Asset) (msg : TickMsg) : State :=
  let px := extractClose msg
  let s1 := setPrice s asset px
  let s2 := if asset = Asset.BTCUSDT then benchmarkTick s1 px else s1
  riskLoop s2 asset

/-- The tick handlers `onAsset0Tick` … `onAsset3Tick` generated by
`HANDLE_TICK(N, ENUM)`, with `asset` for `ENUM`. -/
def onAssetTick (s : State) (asset : Asset) (msg : TickMsg) : State :=
  let s3 := riskPhase s asset msg
  (QMap.keys s3.hubSessions).foldl (equityRound asset) s3

end TradeServer

/-! ## The process as a transition system -/

/-- What the event loop can deliver to the process. -/
inductive Input where
  | dashboardText (sock : Nat) (o : TradeServer.Msg) (slot : Nat)
  | dashboardDisconnected (sock : Nat)
  | accountText (sock : Nat) (obj : AccountServer.Msg)
  | accountDisconnected (sock : Nat)
  | assetTick (asset : Asset) (msg : TradeServer.TickMsg)

/-- Run the handler for one input at clock reading `clock`. -/
def step (s : State) (i : Clock × Input) : State :=
  let s0 := setClock s i.1
  match i.2 with
  | Input.dashboardText sock o slot => TradeServer.onTextMessageReceived s0 sock o slot
  | Input.dashboardDisconnected sock => TradeServer.onSocketDisconnected s0 sock
  | Input.accountText sock obj => AccountServer.onTextMessageReceived s0 sock obj
  | Input.accountDisconnected sock => AccountServer.onSocketDisconnected s0 sock
  | Input.assetTick asset msg => TradeServer.onAssetTick s0 asset msg

/-- Run the handlers for a sequence of inputs. -/
def run (s : State) (is : List (Clock × Input)) : State :=
  is.foldl step s

/-- The state after `main` has constructed and wired both servers: no price
seen, no position, no session, `currentDay` the start day, the `"Account"`
table as stored. -/
def init (accounts : Int → Option AccountRow) (start : Clock) : State :=
  { livePrices := fun _ => 0
    usersTradeMap := []
    userSessions := []
    socketUserMap := fun _ => none
    currentDay := start.date
    benchOpen := 0
    hubSessions := []
    hubSocketUser := fun _ => none
    account := accounts
    now := start
    out := []
    dangling := false }

/-! ## `DisplayManager` (dashboard side)

The order validation of the dashboard, `DisplayManager::inputTrade` in
`trading_system_qt/Trading_System/application/displaymanager.cpp`. -/

namespace DisplayManager

/-- The signals that `DisplayManager::inputTrade` emits. -/
inductive Signal where
  | placeTrade (stopLoss : ℚ) (takeProfit : ℚ) (size : ℚ) (asset : Int) (openPrice : ℚ)
      (type : String) (position : String)
  | orderSuccesful (ok : Bool)
deriving DecidableEq

/-- The function `DisplayManager::inputTrade` read over exact numbers: the
signals it emits, in order, when no arithmetic result is rounded and no
argument is a NaN or an infinity.  The arguments `equity` and `maxLoss` are the
values of `account->getEquity()` and `account->getMaxLoss()`.  The function on
binary64 values is `Binary64.inputTrade`. -/
def inputTrade (equity maxLoss : ℚ) (stopLoss takeProfit size : ℚ) (asset : Int)
    (openPrice : ℚ) (type position : String) : List Signal :=
  let costToOpen := size * openPrice
  let potentialLoss : Option ℚ :=
    if position = "long" then
      if stopLoss ≥ openPrice ∨ takeProfit ≤ openPrice then none
      else some ((openPrice - stopLoss) * size)
    else if position = "short" then
      if stopLoss ≤ openPrice ∨ takeProfit ≥ openPrice then none
      else some ((stopLoss - openPrice) * size)
    else none
  match potentialLoss with
  | none => [Signal.orderSuccesful false]
  | some loss =>
    let maxAllowedRisk := equity - maxLoss
    if costToOpen > equity ∨ loss > maxAllowedRisk then [Signal.orderSuccesful false]
    else
      [Signal.placeTrade stopLoss takeProfit size asset openPrice type position,
        Signal.orderSuccesful true]

end DisplayManager

/-! ## `DisplayManager::inputTrade` on binary64 values

The arguments of `inputTrade`, the equity and the floor are of type `double`,
and its two products and two differences are rounded.  This section embeds the
function on binary64 values (IEEE 754, round to nearest, ties to even, as the
compilers for x86-64 and ARM64 evaluate `double` expressions): a value is a
finite rational, an infinity or NaN, an arithmetic result on finite operands is
the exact result rounded, and a comparison with a NaN operand is false.  The
two zeros are one value here: `inputTrade` does not divide, so no result of it
depends on the sign of a zero.  The values that occur in the program are those
with a representable rational; the operations are defined on every rational. -/

namespace Binary64

/-- A value of type `double`. -/
inductive Double where
  | finite (q : ℚ)
  | posInf
  | negInf
  | nan
deriving DecidableEq

/-- The power `2 ^ e` for an integer exponent. -/
def pow2 (e : Int) : ℚ :=
  if 0 ≤ e then ((2 ^ e.toNat : Nat) : ℚ) else 1 / ((2 ^ (-e).toNat : Nat) : ℚ)

/-- The number of binary digits of `n`; `fuel` bounds the number of halvings,
and `n` itself is enough fuel. -/
def bitLength : Nat → Nat → Nat
  | 0, _ => 0
  | fuel + 1, n => if n = 0 then 0 else bitLength fuel (n / 2) + 1

/-- The binary exponent of a positive rational: the `e` with
`2 ^ e ≤ q < 2 ^ (e + 1)`. -/
def ilog2 (q : ℚ) : Int :=
  let e : Int := (bitLength q.num.natAbs q.num.natAbs : Int) - (bitLength q.den q.den : Int)
  if pow2 e ≤ q then e else e - 1

/-- The integer nearest to a rational `n ≥ 0`, a tie going to the even one. -/
def roundHalfEven (n : ℚ) : Nat :=
  let f := n.num.toNat / n.den
  let twice := 2 * (n.num.toNat % n.den)
  if twice < n.den then f
  else if n.den < twice then f + 1
  else if f % 2 = 0 then f else f + 1

/-- The binary64 magnitude nearest to a positive rational: a multiple of the
spacing `2 ^ (e - 52)` of the binade of `q`, where `e` is at least the exponent
-1022 of the subnormal numbers; `none` when the rounded magnitude reaches
`2 ^ 1024`, beyond the largest finite value. -/
def roundMagnitude (q : ℚ) : Option ℚ :=
  let e := max (ilog2 q) (-1022)
  let quantum := pow2 (e - 52)
  let m := (roundHalfEven (q / quantum) : ℚ) * quantum
  if m < pow2 1024 then some m else none

/-- The binary64 value of an exact result: rounding to nearest, ties to even,
with overflow to an infinity. -/
def round (q : ℚ) : Double :=
  if q = 0 then Double.finite 0
  else if 0 < q then
    match roundMagnitude q with
    | some m => Double.finite m
    | none => Double.posInf
  else
    match roundMagnitude (-q) with
    | some m => Double.finite (-m)
    | none => Double.negInf

/-- The product `a * b` of two `double` values. -/
def mul : Double → Double → Double
  | Double.finite a, Double.finite b => round (a * b)
  | Double.nan, _ => Double.nan
  | _, Double.nan => Double.nan
  | Double.finite a, Double.posInf =>
      if a = 0 then Double.nan else if 0 < a then Double.posInf else Double.negInf
  | Double.finite a, Double.negInf =>
      if a = 0 then Double.nan else if 0 < a then Double.negInf else Double.posInf
  | Double.posInf, Double.finite b =>
      if b = 0 then Double.nan else if 0 < b then Double.posInf else Double.negInf
  | Double.negInf, Double.finite b =>
      if b = 0 then Double.nan else if 0 < b then Double.negInf else Double.posInf
  | Double.posInf, Double.posInf => Double.posInf
  | Double.negInf, Double.negInf => Double.posInf
  | Double.posInf, Double.negInf => Double.negInf
  | Double.negInf, Double.posInf => Double.negInf

/-- The difference `a - b` of two `double` values. -/
def sub : Double → Double → Double
  | Double.finite a, Double.finite b => round (a - b)
  | Double.nan, _ => Double.nan
  | _, Double.nan => Double.nan
  | Double.posInf, Double.posInf => Double.nan
  | Double.negInf, Double.negInf => Double.nan
  | Double.posInf, _ => Double.posInf
  | Double.negInf, _ => Double.negInf
  | Double.finite _, Double.posInf => Double.negInf
  | Double.finite _, Double.negInf => Double.posInf

/-- The comparison `a < b` of two `double` values. -/
def lt : Double → Double → Bool
  | Double.finite a, Double.finite b => decide (a < b)
  | Double.finite _, Double.posInf => true
  | Double.negInf, Double.finite _ => true
  | Double.negInf, Double.posInf => true
  | _, _ => false

/-- The comparison `a <= b` of two `double` values. -/
def le : Double → Double → Bool
  | Double.finite a, Double.finite b => decide (a ≤ b)
  | Double.finite _, Double.posInf => true
  | Double.negInf, Double.finite _ => true
  | Double.negInf, Double.posInf => true
  | Double.posInf, Double.posInf => true
  | Double.negInf, Double.negInf => true
  | _, _ => false

/-- The comparison `a > b` of two `double` values. -/
def gt (a b : Double) : Bool := lt b a

/-- The comparison `a >= b` of two `double` values. -/
def ge (a b : Double) : Bool := le b a

/-- The signals that `DisplayManager::inputTrade` emits, with their `double`
arguments. -/
inductive Signal where
  | placeTrade (stopLoss : Double) (takeProfit : Double) (size : Double) (asset : Int)
      (openPrice : Double) (type : String) (position : String)
  | orderSuccesful (ok : Bool)
deriving DecidableEq

/-- The function `DisplayManager::inputTrade` on binary64 values: the signals
it emits, in order.  The arguments `equity` and `maxLoss` are the values of
`account->getEquity()` and `account->getMaxLoss()`. -/
def inputTrade (equity maxLoss : Double) (stopLoss takeProfit size : Double) (asset : Int)
    (openPrice : Double) (type position : String) : List Signal :=
  let costToOpen := mul size openPrice
  let potentialLoss : Option Double :=
    if position = "long" then
      if ge stopLoss openPrice || le takeProfit openPrice then none
      else some (mul (sub openPrice stopLoss) size)
    else if position = "short" then
      if le stopLoss openPrice || ge takeProfit openPrice then none
      else some (mul (sub stopLoss openPrice) size)
    else none
  match potentialLoss with
  | none => [Signal.orderSuccesful false]
  | some loss =>
    let maxAllowedRisk := sub equity maxLoss
    if gt costToOpen equity || gt loss maxAllowedRisk then [Signal.orderSuccesful false]
    else
      [Signal.placeTrade stopLoss takeProfit size asset openPrice type position,
        Signal.orderSuccesful true]

end Binary64

/-! ## `AlphaCalculator`

The class of `Cloud_System/alphacalculator.cpp`, embedded on its own: a
calculator object with its two maps and the list of the signals `alphaUpdated`
it has emitted.  Dates are day numbers.  The value of a `double` expression
that may involve a division by zero is an `Option ℚ`, where `none` stands for a
non-finite value (an infinity or NaN). -/

namespace AlphaCalculator

/-- The constant `BUCKET_WINDOW`. -/
def BUCKET_WINDOW : Nat := 30

/-- The running sums of one day: `struct Bucket`. -/
structure Bucket where
  wRp : ℚ
  wRb : ℚ
  w : ℚ
deriving DecidableEq

/-- One point of the sliding window: `struct Pair`. -/
structure Pair where
  rp : ℚ
  rb : ℚ
deriving DecidableEq

/-- The members `buckets` and `sliding` of an `AlphaCalculator`, and the
signals `alphaUpdated(userID, alpha)` emitted so far. -/
structure Calc where
  buckets : List (Int × List (Int × Bucket))
  sliding : List (Int × List Pair)
  alphaUpdated : List (Int × Option ℚ)
deriving DecidableEq

/-- A freshly constructed calculator. -/
def empty : Calc :=
  { buckets := [], sliding := [], alphaUpdated := [] }

/-- A division of two doubles: a zero divisor gives a non-finite value. -/
def fdiv (x y : ℚ) : Option ℚ :=
  if y = 0 then none else some (x / y)

/-- The helper `mean`: `std::accumulate(v.begin(), v.end(), 0.0) / v.size()`. -/
def mean (v : List ℚ) : ℚ :=
  v.foldl (fun s x => s + x) 0 / (v.length : ℚ)

/-- The helper `variance`, with `x.size() - 1` as divisor (it is called on at
least three values). -/
def variance (x : List ℚ) (mx : ℚ) : ℚ :=
  x.foldl (fun s v => s + (v - mx) * (v - mx)) 0 / ((x.length - 1 : Nat) : ℚ)

/-- The helper `covariance`: the loop over the indices of `x`, on two
sequences of the same length. -/
def covariance (x y : List ℚ) (mx my : ℚ) : ℚ :=
  (x.zip y).foldl (fun s p => s + (p.1 - mx) * (p.2 - my)) 0 / ((x.length - 1 : Nat) : ℚ)

/-- The bucket `buckets[u][d]` (value only; a new bucket is all zero). -/
def bucketAt (c : Calc) (u d : Int) : Bucket :=
  QMap.value (QMap.value c.buckets u []) d { wRp := 0, wRb := 0, w := 0 }

/-- Store `b` at `buckets[u][d]`. -/
def setBucket (c : Calc) (u d : Int) (b : Bucket) : Calc :=
  { c with buckets := QMap.insert c.buckets u (QMap.insert (QMap.value c.buckets u []) d b) }

/-- The function `AlphaCalculator::addTrade`. -/
def addTrade (c : Calc) (u d : Int) (rp w : ℚ) : Calc :=
  let bucket := bucketAt c u d
  setBucket c u d { bucket with wRp := bucket.wRp + w * rp, w := bucket.w + w }

/-- The first loop of `AlphaCalculator::computeAlpha`: the window built from
the day map of a user, scanned in ascending order of the dates while the
window holds fewer than `BUCKET_WINDOW` points; each point is pushed to the
front. -/
def window (dayMap : List (Int × Bucket)) : List Pair :=
  dayMap.foldl (fun dq e =>
    if dq.length < BUCKET_WINDOW then
      if e.2.w = 0 then dq
      else { rp := e.2.wRp / e.2.w, rb := e.2.wRb / e.2.w } :: dq
    else dq) []

/-- The function `AlphaCalculator::computeAlpha`. -/
def computeAlpha (c : Calc) (u : Int) : Calc :=
  let dq := window (QMap.value c.buckets u [])
  let c1 : Calc :=
    { c with
      buckets := QMap.touch c.buckets u []
      sliding := QMap.insert c.sliding u dq }
  if dq.length < 3 then c1
  else
    let Rp := dq.map Pair.rp
    let Rb := dq.map Pair.rb
    let mp := mean Rp
    let mb := mean Rb
    let beta := fdiv (covariance Rp Rb mp mb) (variance Rb mb)
    let alpha := beta.map (fun b => mp - b * mb)
    { c1 with alphaUpdated := c1.alphaUpdated ++ [(u, alpha)] }

/-- The function `AlphaCalculator::addBenchmark`. -/
def addBenchmark (c : Calc) (u d : Int) (rb w : ℚ) : Calc :=
  let bucket := bucketAt c u d
  let bucket1 : Bucket := { bucket with wRb := bucket.wRb + w * rb, w := bucket.w + w }
  let c1 := setBucket c u d bucket1
  if bucket1.wRp ≠ 0 then computeAlpha c1 u else c1

/-- One row of the result of the query of `rebuildBucketFromDb`:
`SELECT size, openPrice, closingPrice FROM "Trade_History" …`. -/
structure HistoryRow where
  size : ℚ
  openPrice : ℚ
  closingPrice : ℚ
deriving DecidableEq

/-- The function `AlphaCalculator::rebuildBucketFromDb`.  The argument `result`
is what the query for the rows of user `u` dated on day `d` yields: `none` when
`q.exec()` fails, otherwise the rows in the order in which `q.next()` delivers
them. -/
def rebuildBucketFromDb (c : Calc) (u d : Int) (result : Option (List HistoryRow)) : Calc :=
  let c0 : Calc := { c with buckets := QMap.touch c.buckets u [] }
  if QMap.contains (QMap.value c0.buckets u []) d then c0
  else
    match result with
    | none => c0
    | some rows =>
      rows.foldl (fun st row =>
        let rp := (row.closingPrice - row.openPrice) / row.openPrice
        let w := |row.size * row.openPrice|
        addTrade st u d rp w) c0

end AlphaCalculator

/-! ## Relations and projections used to state the results -/

/-- What a handler that closes positions of user `uid` may change: positions of
`uid` are only removed, the log only grows, only the account row of `uid` is
written; prices, sessions and the clock stay as they are. -/
structure Frame (uid : Int) (s s1 : State) : Prop where
  livePrices : s1.livePrices = s.livePrices
  userSessions : s1.userSessions = s.userSessions
  socketUserMap : s1.socketUserMap = s.socketUserMap
  currentDay : s1.currentDay = s.currentDay
  benchOpen : s1.benchOpen = s.benchOpen
  hubSessions : s1.hubSessions = s.hubSessions
  hubSocketUser : s1.hubSocketUser = s.hubSocketUser
  now : s1.now = s.now
  tradesOther : ∀ u, u ≠ uid → trades s1 u = trades s u
  tradesSub : (trades s1 uid).Sublist (trades s uid)
  accountOther : ∀ u, u ≠ uid → s1.account u = s.account u
  out : ∃ new, s1.out = s.out ++ new

/-- The P&L values carried by the signals `tradeClosed` for `uid` in a log, in
the order of emission. -/
def closedPnls (uid : Int) (log : List Event) : List ℚ :=
  log.filterMap (fun e =>
    match e with
    | Event.tradeClosed u p => if u = uid then some p else none
    | _ => none)

/-- The number of signals `closeAllTrades` for `uid` in a log, that is the
number of runs of `accountLocked` for `uid`. -/
def lockCount (uid : Int) (log : List Event) : Nat :=
  log.count (Event.closeAllTrades uid)

/-- The P&L at the live prices of the open positions of `uid`, in key order. -/
def livePnls (s : State) (uid : Int) : List ℚ :=
  (trades s uid).map (fun e => pnlAt (s.livePrices e.1.asset) e.1)

/-- The row of an account after the hub has handled one `tradeClosed` with
P&L `p`: the balance grows by `p`, and the status is cleared when the new
balance is at or below `max_loss`. -/
def hubClose (row : AccountRow) (p : ℚ) : AccountRow :=
  { balance := row.balance + p
    max_loss := row.max_loss
    status := if row.balance + p ≤ row.max_loss then false else row.status }

/-- The number of closes, in a sequence of closes with the given P&L values,
after which the new balance is at or below `maxL`. -/
def relocks (bal maxL : ℚ) : List ℚ → Nat
  | [] => 0
  | p :: ps => (if bal + p ≤ maxL then 1 else 0) + relocks (bal + p) maxL ps

/-- A handler that leaves prices, positions and accounts alone and emits
neither `tradeClosed` nor `closeAllTrades`. -/
structure Silent (s s1 : State) : Prop where
  livePrices : s1.livePrices = s.livePrices
  trades : ∀ u, trades s1 u = trades s u
  account : s1.account = s.account
  closed : ∀ u, closedPnls u s1.out = closedPnls u s.out
  locks : ∀ u, lockCount u s1.out = lockCount u s.out

/-- The net effect of closing every open position of `uid`, one after the
other, each close followed by the hub's handling of `tradeClosed`. -/
structure Cascade (uid : Int) (s s1 : State) : Prop where
  trades : trades s1 uid = []
  closed : closedPnls uid s1.out = closedPnls uid s.out ++ livePnls s uid
  account : s1.account uid = (s.account uid).map (fun row => (livePnls s uid).foldl hubClose row)
  locks : lockCount uid s1.out = lockCount uid s.out +
    match s.account uid with
    | none => 0
    | some row => relocks row.balance row.max_loss (livePnls s uid)

/-- The touch condition in the words of the specification: a LONG position
triggers when the price is at or above its take-profit or at or below its
stop-loss, a SHORT position when the price is at or below its take-profit or at
or above its stop-loss. -/
def touchTriggered (p : ℚ) (t : Trade) : Prop :=
  if t.position = "long" then p ≥ t.takeProfit ∨ p ≤ t.stopLoss
  else p ≤ t.takeProfit ∨ p ≥ t.stopLoss

/-- The touch condition is decidable. -/
instance touchTriggered.decidable (p : ℚ) (t : Trade) : Decidable (touchTriggered p t) :=
  inferInstanceAs (Decidable (if t.position = "long" then p ≥ t.takeProfit ∨ p ≤ t.stopLoss
    else p ≤ t.takeProfit ∨ p ≥ t.stopLoss))

/-- The body of the loop of `TradeServer::checkLimits` for one key of the copy. -/
def limitStep (uid : Int) (asset : Asset) (st : State) (t : Trade) : State :=
  if t.asset ≠ asset then readKey st uid t
  else if limitHit (st.livePrices asset) t then
    TradeServer.closeTrade (readKey st uid t) uid t.tradeID
  else readKey st uid t

/-- The unrealised P&L of the open positions of `uid` in the words of the
specification: the sum of `(LivePrice[asset] − openPrice)·size` over the
`"long"` positions and of `(openPrice − LivePrice[asset])·size` over the others. -/
def unrealizedPnL (s : State) (uid : Int) : ℚ :=
  ((trades s uid).map (fun e =>
    if e.1.position = "long" then (s.livePrices e.1.asset - e.1.openPrice) * e.1.size
    else (e.1.openPrice - s.livePrices e.1.asset) * e.1.size)).sum

/-- Every stored P&L is the P&L of its position at the live price. -/
def Synced (s : State) : Prop :=
  ∀ uid, ∀ e ∈ trades s uid, e.2 = pnlAt (s.livePrices e.1.asset) e.1

/-- The stored P&L values inside the first loop of a tick handler for `asset`:
only positions in `asset` of the users in `R`, which the loop has yet to reach,
may be out of date. -/
def PartSync (asset : Asset) (R : List Int) (s : State) : Prop :=
  ∀ uid, ∀ e ∈ trades s uid,
    e.2 = pnlAt (s.livePrices e.1.asset) e.1 ∨ (e.1.asset = asset ∧ uid ∈ R)

/-- Prices are kept and positions are at most removed. -/
structure Shrink (s s1 : State) : Prop where
  livePrices : s1.livePrices = s.livePrices
  sub : ∀ u, (trades s1 u).Sublist (trades s u)

/-- The acceptance condition of an order in the words of the specification:
the limits are on the right side of the entry price for the direction, the
notional cost is covered by the equity, and the potential loss fits into the
equity headroom `equity − maxLoss`. -/
def orderAcceptable (equity maxLoss stopLoss takeProfit size openPrice : ℚ)
    (position : String) : Prop :=
  ((position = "long" ∧ stopLoss < openPrice ∧ openPrice < takeProfit) ∨
    (position = "short" ∧ takeProfit < openPrice ∧ openPrice < stopLoss)) ∧
  size * openPrice ≤ equity ∧
  |openPrice - stopLoss| * size ≤ equity - maxLoss

/-- The users named by the signals `equityUpdate` in a log, in the order of
emission. -/
def equityUpdates (log : List Event) : List Int :=
  log.filterMap (fun e =>
    match e with
    | Event.equityUpdate u _ => some u
    | _ => none)

/-- The equity messages (`"type":"equity"`) written to hub sockets in a log:
socket and value, in the order of emission. -/
def equitySends (log : List Event) : List (Nat × ℚ) :=
  log.filterMap (fun e =>
    match e with
    | Event.hubSend ws (Payload.equity x) => some (ws, x)
    | _ => none)

/-- The fan-out set of an account at the hub: the sockets stored in
`AccountServer::userSessions` under `uid`, in the order of registration. -/
def fanOut (s : State) (uid : Int) : List Nat :=
  QMap.value s.hubSessions uid []

/-- The log entries that closing positions can produce: the two statements of
`closeTrade`, its signal and its dashboard message, and what the hub does on
`tradeClosed` (lock signal, the messages `tradeClosed` and `accountLocked`,
the observation for its alpha model). -/
def closeEvent : Event → Bool
  | Event.historyUpdate _ _ _ _ => true
  | Event.addTrade _ _ _ _ => true
  | Event.tradeClosed _ _ => true
  | Event.closeAllTrades _ => true
  | Event.hubAddTrade _ _ _ _ => true
  | Event.hubSend _ Payload.tradeClosed => true
  | Event.hubSend _ Payload.accountLocked => true
  | Event.tradeSend _ (Payload.closed _ _ _) => true
  | _ => false

/-- The log of `s1` is the log of `s` followed by entries that all satisfy `P`. -/
def Appends (P : Event → Bool) (s s1 : State) : Prop :=
  ∃ new, s1.out = s.out ++ new ∧ ∀ e ∈ new, P e = true

/-- The arithmetic mean in the words of the specification. -/
def sampleMean (x : List ℚ) : ℚ :=
  x.sum / (x.length : ℚ)

/-- The sample covariance with the `N − 1` denominator:
`Σ (x_i − mean x)(y_i − mean y) / (N − 1)`. -/
def sampleCovariance (x y : List ℚ) : ℚ :=
  ((x.zip y).map (fun p => (p.1 - sampleMean x) * (p.2 - sampleMean y))).sum /
    ((x.length : ℚ) - 1)

/-- The sample variance with the `N − 1` denominator: `Σ (x_i − mean x)² / (N − 1)`. -/
def sampleVariance (x : List ℚ) : ℚ :=
  (x.map (fun v => (v - sampleMean x) ^ 2)).sum / ((x.length : ℚ) - 1)

/-- The least-squares slope of the portfolio returns on the benchmark returns
of a window of daily points. -/
def olsBeta (pts : List AlphaCalculator.Pair) : ℚ :=
  sampleCovariance (pts.map AlphaCalculator.Pair.rp) (pts.map AlphaCalculator.Pair.rb) /
    sampleVariance (pts.map AlphaCalculator.Pair.rb)

/-- Jensen's alpha of a window of daily points: `mean(rp) − beta · mean(rb)`. -/
def olsAlpha (pts : List AlphaCalculator.Pair) : ℚ :=
  sampleMean (pts.map AlphaCalculator.Pair.rp) -
    olsBeta pts * sampleMean (pts.map AlphaCalculator.Pair.rb)

/-- The hub handles a well-formed handshake of socket `sock` that names account
`uid`. -/
def registerSocket (s : State) (sock : Nat) (uid : Int) : State :=
  AccountServer.onTextMessageReceived s sock
    { isObject := true, connection := "account", userID := uid }

/-- The value that `computeAlpha` emits for a window `dq` of at least three
points: the second half of the function, from the two sequences `Rp` and `Rb`
to the argument of `alphaUpdated`. -/
def windowAlpha (dq : List AlphaCalculator.Pair) : Option ℚ :=
  let Rp := dq.map AlphaCalculator.Pair.rp
  let Rb := dq.map AlphaCalculator.Pair.rb
  let mp := AlphaCalculator.mean Rp
  let mb := AlphaCalculator.mean Rb
  (AlphaCalculator.fdiv (AlphaCalculator.covariance Rp Rb mp mb)
    (AlphaCalculator.variance Rb mb)).map (fun b => mp - b * mb)

/-- The slope that `computeAlpha` computes for a window `dq`: its local
variable `beta`. -/
def windowBeta (dq : List AlphaCalculator.Pair) : Option ℚ :=
  let Rp := dq.map AlphaCalculator.Pair.rp
  let Rb := dq.map AlphaCalculator.Pair.rb
  AlphaCalculator.fdiv
    (AlphaCalculator.covariance Rp Rb (AlphaCalculator.mean Rp) (AlphaCalculator.mean Rb))
    (AlphaCalculator.variance Rb (AlphaCalculator.mean Rb))

/-- The calls that one log entry stands for on the calculator of the engine
(`TradeServer::alphaCalc`): `addTrade` in `closeTrade`, `addBenchmark` in the
tick handler of the benchmark feed. -/
def engineFeed (c : AlphaCalculator.Calc) : Event → AlphaCalculator.Calc
  | Event.addTrade u d rp w => AlphaCalculator.addTrade c u d rp w
  | Event.addBenchmark u d rb w => AlphaCalculator.addBenchmark c u d rb w
  | _ => c

/-- The calculator of the engine after the calls recorded in a log. -/
def engineAlpha (log : List Event) : AlphaCalculator.Calc :=
  log.foldl engineFeed AlphaCalculator.empty

/-- The call that one log entry stands for on the calculator of the hub
(`AccountServer::alphaCalc`): `addTrade` in `onCloseTrade`. -/
def hubFeed (c : AlphaCalculator.Calc) : Event → AlphaCalculator.Calc
  | Event.hubAddTrade u d rp w => AlphaCalculator.addTrade c u d rp w
  | _ => c

/-- The calculator of the hub after the calls recorded in a log. -/
def hubAlpha (log : List Event) : AlphaCalculator.Calc :=
  log.foldl hubFeed AlphaCalculator.empty

/-- The benchmark observations in a log: account, day, return and weight of
every call of `addBenchmark`, in the order of the calls. -/
def benchmarkCalls (log : List Event) : List (Int × Int × ℚ × ℚ) :=
  log.filterMap (fun e =>
    match e with
    | Event.addBenchmark u d rb w => some (u, d, rb, w)
    | _ => none)

/-- The row of `"Trade_History"` of a position closed at price `live`: `size`
and `openPrice` as the new-order branch inserts them, `closingPrice` as
`closeTrade` updates it. -/
def closedRow (t : Trade) (live : ℚ) : AlphaCalculator.HistoryRow :=
  { size := t.size, openPrice := t.openPrice, closingPrice := live }

/-- The call of `addTrade` that `closeTrade` makes when it closes position
`x.1` of user `u` at price `x.2` on day `d`. -/
def liveObservation (u d : Int) (c : AlphaCalculator.Calc) (x : Trade × ℚ) :
    AlphaCalculator.Calc :=
  AlphaCalculator.addTrade c u d ((x.2 - x.1.openPrice) / x.1.openPrice)
    |x.1.size * x.1.openPrice|

/-- The weighted mean of a list of observations (return, weight) in the words
of the specification: `Σ(weight·return) / Σ(weight)`. -/
def weightedMean (obs : List (ℚ × ℚ)) : ℚ :=
  (obs.map (fun o => o.2 * o.1)).sum / (obs.map (fun o => o.2)).sum

/-- The side ordering of the limits of a position relative to its recorded
open price, in the words of the specification. -/
def sideOrdered (t : Trade) : Prop :=
  (t.position = "long" ∧ t.stopLoss < t.openPrice ∧ t.openPrice < t.takeProfit) ∨
  (t.position = "short" ∧ t.takeProfit < t.openPrice ∧ t.openPrice < t.stopLoss)

/-- The side ordering is decidable. -/
instance sideOrdered.decidable (t : Trade) : Decidable (sideOrdered t) :=
  inferInstanceAs (Decidable
    ((t.position = "long" ∧ t.stopLoss < t.openPrice ∧ t.openPrice < t.takeProfit) ∨
      (t.position = "short" ∧ t.takeProfit < t.openPrice ∧ t.openPrice < t.stopLoss)))

/-- The window point of a day with bucket `b`: the two quotients that
`computeAlpha` pushes to the front of the window. -/
def dayPoint (b : AlphaCalculator.Bucket) : AlphaCalculator.Pair :=
  { rp := b.wRp / b.w, rb := b.wRb / b.w }

/-- One call into a calculator: `addTrade` (recordTrade) or `addBenchmark`
(recordBenchmark), with its arguments. -/
inductive Observation where
  | trade (u d : Int) (rp w : ℚ)
  | benchmark (u d : Int) (rb w : ℚ)
deriving DecidableEq

/-- The account that a call names. -/
def Observation.account : Observation → Int
  | Observation.trade u _ _ _ => u
  | Observation.benchmark u _ _ _ => u

/-- Make one call on a calculator. -/
def record (c : AlphaCalculator.Calc) : Observation → AlphaCalculator.Calc
  | Observation.trade u d rp w => AlphaCalculator.addTrade c u d rp w
  | Observation.benchmark u d rb w => AlphaCalculator.addBenchmark c u d rb w

/-- The position that the new-order branch of
`TradeServer::onTextMessageReceived` creates for message `o` in state `s`:
`new Trade(tid, sl, tp, size, asset, open, type, pos)` with `open` the live
price of the asset. -/
def openedTrade (s : State) (o : TradeServer.Msg) : Trade :=
  { tradeID := o.tradeID, stopLoss := o.stopLoss, takeProfit := o.takeProfit, size := o.size,
    asset := o.asset, openPrice := s.livePrices o.asset, type := o.type, position := o.position }

/-- A log entry other than a benchmark observation for an account different
from 0. -/
def marketBenchmark : Event → Bool
  | Event.addBenchmark u _ _ _ => decide (u = 0)
  | _ => true

/-- The log entries of an equity round in which the hub does not lock: the
signal `equityUpdate` and the messages written to sockets. -/
def roundEvent : Event → Bool
  | Event.equityUpdate _ _ => true
  | Event.tradeSend _ _ => true
  | Event.hubSend _ _ => true
  | _ => false

/-- The complete daily pairs of account `u` in a sequence of calls, in the words
of the specification: the days for which the sequence holds both a trade
observation and a benchmark observation of the account, in the order of their
first trade observation. -/
def completePairs (calls : List Observation) (u : Int) : List Int :=
  ((calls.filterMap (fun o =>
      match o with
      | Observation.trade v d _ _ => if v = u then some d else none
      | Observation.benchmark _ _ _ _ => none)).dedup).filter
    (fun d => calls.any (fun o =>
      match o with
      | Observation.trade _ _ _ _ => false
      | Observation.benchmark v e _ _ => decide (v = u ∧ e = d)))

/-- One row of the table `"Trade_History"`, with the columns that the
statements of the engine name. -/
structure TradeHistoryRow where
  trade_id : String
  user_id : Int
  size : ℚ
  asset : Asset
  openPrice : ℚ
  closingPrice : ℚ
  pnl : ℚ
  date : Clock
deriving DecidableEq

/-- The effect of one log entry on the table `"Trade_History"`: the `INSERT` of
the new-order branch adds the skeleton row of an open position
(`closingPrice` 0, `pnl` 0, dated at the opening), the `UPDATE` of `closeTrade`
sets `closingPrice`, `pnl` and `date` in the rows `WHERE trade_id=:id`. -/
def historyStatement (table : List TradeHistoryRow) : Event → List TradeHistoryRow
  | Event.historyInsert tid uid size asset openPrice date =>
      table ++
        [{ trade_id := tid, user_id := uid, size := size, asset := asset,
           openPrice := openPrice, closingPrice := 0, pnl := 0, date := date }]
  | Event.historyUpdate tid closingPrice pnl date =>
      table.map (fun r =>
        if r.trade_id = tid then { r with closingPrice := closingPrice, pnl := pnl, date := date }
        else r)
  | _ => table

/-- The table `"Trade_History"` after the statements recorded in a log, from an
empty table. -/
def historyTable (log : List Event) : List TradeHistoryRow :=
  log.foldl historyStatement []

/-- The query of `rebuildBucketFromDb` for user `u` and day `d` on a table:
`SELECT size, openPrice, closingPrice FROM "Trade_History" WHERE user_id = :uid
AND date >= :s AND date < :e`, the rows in the order of the table. -/
def historyQuery (table : List TradeHistoryRow) (u d : Int) : List AlphaCalculator.HistoryRow :=
  (table.filter (fun r => decide (r.user_id = u ∧ r.date.date = d))).map
    (fun r => { size := r.size, openPrice := r.openPrice, closingPrice := r.closingPrice })

/-- The keys of an association list are strictly ascending, as the keys of a
`QMap` are. -/
def QMap.Ascending {V : Type} (m : List (Int × V)) : Prop :=
  m.Pairwise (fun a b => a.1 < b.1)

/-- Every day map of a calculator has strictly ascending dates. -/
def AscendingDays (c : AlphaCalculator.Calc) : Prop :=
  ∀ u, QMap.Ascending (QMap.value c.buckets u [])

/-- The trade observations (return, weight) of account `u` for day `d` in a
sequence of calls, in the order of the calls. -/
def tradeLeg (calls : List Observation) (u d : Int) : List (ℚ × ℚ) :=
  calls.filterMap (fun o =>
    match o with
    | Observation.trade v e rp w => if v = u ∧ e = d then some (rp, w) else none
    | Observation.benchmark _ _ _ _ => none)

/-- The benchmark observations (return, weight) of account `u` for day `d` in a
sequence of calls, in the order of the calls. -/
def benchmarkLeg (calls : List Observation) (u d : Int) : List (ℚ × ℚ) :=
  calls.filterMap (fun o =>
    match o with
    | Observation.trade _ _ _ _ => none
    | Observation.benchmark v e rb w => if v = u ∧ e = d then some (rb, w) else none)

/-- The point of a day over the combined weight: for trade observations
`(r_i, w_i)` and benchmark observations `(b_j, v_j)` the pair
`Σ(w_i·r_i)/W`, `Σ(v_j·b_j)/W` with `W = Σ(w_i) + Σ(v_j)`. -/
def combinedWeightPoint (tr be : List (ℚ × ℚ)) : AlphaCalculator.Pair :=
  { rp := (tr.map (fun o => o.2 * o.1)).sum /
      ((tr.map (fun o => o.2)).sum + (be.map (fun o => o.2)).sum),
    rb := (be.map (fun o => o.2 * o.1)).sum /
      ((tr.map (fun o => o.2)).sum + (be.map (fun o => o.2)).sum) }

/-- The absolute value of a `double` value. -/
def Binary64.abs : Binary64.Double → Binary64.Double
  | Binary64.Double.finite q => Binary64.Double.finite |q|
  | Binary64.Double.posInf => Binary64.Double.posInf
  | Binary64.Double.negInf => Binary64.Double.posInf
  | Binary64.Double.nan => Binary64.Double.nan

/-- Whether a `double` value is a binary64 number: an infinity, NaN, or a
finite value that rounding leaves as it is. -/
def Binary64.representable : Binary64.Double → Bool
  | Binary64.Double.finite q => decide (Binary64.round q = Binary64.Double.finite q)
  | _ => true

/-- The acceptance condition of an order on binary64 values: none of the
rejecting comparisons of the side test holds, the rounded notional cost is not
greater than the equity, and the rounded potential loss
`fl(fl(|openPrice − stopLoss|)·size)` is not greater than the rounded headroom
`fl(equity − maxLoss)`. -/
def orderAcceptableRounded (equity maxLoss stopLoss takeProfit size openPrice : Binary64.Double)
    (position : String) : Prop :=
  ((position = "long" ∧ Binary64.ge stopLoss openPrice = false ∧
      Binary64.le takeProfit openPrice = false) ∨
    (position = "short" ∧ Binary64.le stopLoss openPrice = false ∧
      Binary64.ge takeProfit openPrice = false)) ∧
  Binary64.gt (Binary64.mul size openPrice) equity = false ∧
  Binary64.gt (Binary64.mul (Binary64.abs (Binary64.sub openPrice stopLoss)) size)
    (Binary64.sub equity maxLoss) = false

/-! ## Concrete runs -/

/-- An `"Account"` table with the single row of user 1. -/
def oneAccount (balance maxLoss : ℚ) : Int → Option AccountRow :=
  fun u => if u = 1 then some { balance := balance, max_loss := maxLoss, status := true } else none

/-- A clock reading at midday. -/
def noon : Clock := { date := 20000, hour := 12, minute := 0 }

/-- A tick of the feed of `asset` with close price `px`, at midday. -/
def tickAt (asset : Asset) (px : ℚ) : Clock × Input :=
  (noon, Input.assetTick asset { close := some px })

/-- A new-order message of user 1 on dashboard socket 5; the new key falls
behind the existing ones. -/
def orderMsg (tid : String) (asset : Asset) (position : String) (size stopLoss takeProfit : ℚ) :
    Clock × Input :=
  (noon, Input.dashboardText 5
    { isObject := true, connection := "", newTrade := true, closeTrade := false, userID := 1,
      tradeID := tid, asset := asset, position := position, size := size,
      stopLoss := stopLoss, takeProfit := takeProfit, type := "market" } 9)

/-- A close-order message of user 1 on dashboard socket 5. -/
def closeMsg (tid : String) : Clock × Input :=
  (noon, Input.dashboardText 5
    { isObject := true, connection := "", newTrade := false, closeTrade := true, userID := 1,
      tradeID := tid, asset := Asset.BTCUSDT, position := "", size := 0,
      stopLoss := 0, takeProfit := 0, type := "" } 0)

/-- The handshake of the account dashboard of user 1 on hub socket 7. -/
def accountHandshake : Clock × Input :=
  (noon, Input.accountText 7 { isObject := true, connection := "account", userID := 1 })

/-- The position of the stop-loss scenario: LONG BTCUSDT, size 1, opened at
50000, stop-loss 49000, take-profit 52000. -/
def scenarioTrade : Trade :=
  { tradeID := "T1", stopLoss := 49000, takeProfit := 52000, size := 1,
    asset := Asset.BTCUSDT, openPrice := 50000, type := "market", position := "long" }

/-- The stop-loss scenario up to the open position: balance 10000, floor 9000,
BTCUSDT at 50000, then the order.  With `dash = true` the account dashboard of
the user is connected to the hub. -/
def scenarioOpened (dash : Bool) : State :=
  run (init (oneAccount 10000 9000) noon)
    ((if dash then [accountHandshake] else []) ++
      [tickAt Asset.BTCUSDT 50000, orderMsg "T1" Asset.BTCUSDT "long" 1 49000 52000])

/-- The stop-loss scenario after the tick at 49000. -/
def scenarioTicked (dash : Bool) : State :=
  step (scenarioOpened dash) (tickAt Asset.BTCUSDT 49000)

/-- Two open LONG positions of user 1, `"A"` in BTCUSDT opened at 50000 and
`"B"` in ETHUSDT opened at 3000, both of size 1 with limits far away; no account
dashboard is connected to the hub. -/
def twoPositions (balance maxLoss : ℚ) : State :=
  run (init (oneAccount balance maxLoss) noon)
    [tickAt Asset.BTCUSDT 50000, tickAt Asset.ETHUSDT 3000,
      orderMsg "A" Asset.BTCUSDT "long" 1 40000 60000,
      orderMsg "B" Asset.ETHUSDT "long" 1 500 5000]

/-- Balance 10000, floor 9000; ETHUSDT falls to 1000, so position `"B"` carries
an unrealised loss of 2000 while `"A"` is flat. -/
def lossOpen : State :=
  step (twoPositions 10000 9000) (tickAt Asset.ETHUSDT 1000)

/-- Balance 9500, floor 9000; BTCUSDT falls to 49000 and ETHUSDT rises to 4000,
so `"A"` carries an unrealised loss of 1000 and `"B"` an unrealised gain of 1000. -/
def gainOpen : State :=
  run (twoPositions 9500 9000) [tickAt Asset.BTCUSDT 49000, tickAt Asset.ETHUSDT 4000]

/-- One open LONG BTCUSDT position of user 1 (size 1, opened at 50000, limits
far away) with the account dashboard of the user connected to the hub; balance
10000, floor 9000. -/
def watchedPosition : State :=
  run (init (oneAccount 10000 9000) noon)
    [accountHandshake, tickAt Asset.BTCUSDT 50000,
      orderMsg "A" Asset.BTCUSDT "long" 1 40000 60000]

/-- One open SHORT BTCUSDT position of user 1 (size 1, opened at 50000, limits
far away), BTCUSDT then falls to 49000. -/
def shortOpen : State :=
  run (init (oneAccount 10000 9000) noon)
    [tickAt Asset.BTCUSDT 50000, orderMsg "S" Asset.BTCUSDT "short" 1 60000 40000,
      tickAt Asset.BTCUSDT 49000]

/-- The BTCUSDT position of `twoPositions`. -/
def positionA : Trade :=
  { tradeID := "A", stopLoss := 40000, takeProfit := 60000, size := 1,
    asset := Asset.BTCUSDT, openPrice := 50000, type := "market", position := "long" }

/-- The ETHUSDT position of `twoPositions`. -/
def positionB : Trade :=
  { tradeID := "B", stopLoss := 500, takeProfit := 5000, size := 1,
    asset := Asset.ETHUSDT, openPrice := 3000, type := "market", position := "long" }

/-- The open SHORT position of `shortOpen`. -/
def positionS : Trade :=
  { tradeID := "S", stopLoss := 60000, takeProfit := 40000, size := 1,
    asset := Asset.BTCUSDT, openPrice := 50000, type := "market", position := "short" }

/-- A handshake on hub socket `sock` that names account `uid`. -/
def hubHandshake (sock : Nat) (uid : Int) : Clock × Input :=
  (noon, Input.accountText sock { isObject := true, connection := "account", userID := uid })

/-- The disconnect of hub socket `sock`. -/
def hubDisconnect (sock : Nat) : Clock × Input :=
  (noon, Input.accountDisconnected sock)

/-- A message on the feed of `asset` that is not a k-line object with a numeric
close price. -/
def badTick (asset : Asset) : Clock × Input :=
  (noon, Input.assetTick asset { close := none })

/-- A hub without sessions and the account of user 1. -/
def hubIdle : State :=
  init (oneAccount 10000 9000) noon

/-- User 1 (balance 9500, floor 9000, account dashboard on hub socket 7) holds
`"A"` in BTCUSDT and `"B"` in ETHUSDT; ETHUSDT rises to 4000, BTCUSDT falls to
49000, and the user closes `"A"`: the realised loss of 1000 locks the account,
the cascade closes `"B"` with a gain of 1000. -/
def lockedWithGain : State :=
  run (init (oneAccount 9500 9000) noon)
    [accountHandshake, tickAt Asset.BTCUSDT 50000, tickAt Asset.ETHUSDT 3000,
      orderMsg "A" Asset.BTCUSDT "long" 1 40000 60000,
      orderMsg "B" Asset.ETHUSDT "long" 1 500 5000,
      tickAt Asset.ETHUSDT 4000, tickAt Asset.BTCUSDT 49000, closeMsg "A"]

/-- One complete day of observations for user 1: a realised trade with return
`rp` and a benchmark return `rb`, both with weight 100. -/
def alphaDay (c : AlphaCalculator.Calc) (d : Int) (rp rb : ℚ) : AlphaCalculator.Calc :=
  AlphaCalculator.addBenchmark (AlphaCalculator.addTrade c 1 d rp 100) 1 d rb 100

/-- Three consecutive complete days (1, 2, 3) of user 1 with portfolio returns
3, 1, 5 and the given benchmark returns. -/
def threeDays (rb1 rb2 rb3 : ℚ) : AlphaCalculator.Calc :=
  alphaDay (alphaDay (alphaDay AlphaCalculator.empty 1 3 rb1) 2 1 rb2) 3 5 rb3

/-- The input `i` delivered at midday of day `d`. -/
def onDay (d : Int) (i : Clock × Input) : Clock × Input :=
  ({ date := d, hour := 12, minute := 0 }, i.2)

/-- A tick of the benchmark feed (BTCUSDT) with close price `px` at 23:59 of
day `d`. -/
def cutoverTick (d : Int) (px : ℚ) : Clock × Input :=
  ({ date := d, hour := 23, minute := 59 }, Input.assetTick Asset.BTCUSDT { close := some px })

/-- One trading day of user 1: the benchmark feed opens the day at 50000, the
user opens a LONG BTCUSDT position of size 1 (limits far away), the price moves
to `px`, the user closes the position, and the feed ticks at `close` at 23:59. -/
def tradingDay (d : Int) (tid : String) (px close : ℚ) : List (Clock × Input) :=
  [onDay d (tickAt Asset.BTCUSDT 50000),
    onDay d (orderMsg tid Asset.BTCUSDT "long" 1 40000 60000),
    onDay d (tickAt Asset.BTCUSDT px),
    onDay d (closeMsg tid),
    cutoverTick d close]

/-- Three trading days of user 1 (balance 100000, floor 9000) after a start on
day 20000: realised returns 2 %, 4 % and −2 %, benchmark returns 1 %, 2 % and
3 %. -/
def threeTradingDays : State :=
  run (init (oneAccount 100000 9000) noon)
    (tradingDay 20001 "A1" 51000 50500 ++ tradingDay 20002 "A2" 52000 51000 ++
      tradingDay 20003 "A3" 49000 51500)

/-- The engine on its first day: started at midday of day 20000, the benchmark
feed ticks at 50000 at midday and at 51000 at 23:59. -/
def firstDay : State :=
  run (init (oneAccount 10000 9000) noon) [tickAt Asset.BTCUSDT 50000, cutoverTick 20000 51000]

/-- The day after `firstDay`: the benchmark feed ticks at 50000 at midday and
at 51000 at 23:59 of day 20001. -/
def secondDay : State :=
  run firstDay [onDay 20001 (tickAt Asset.BTCUSDT 50000), cutoverTick 20001 51000]

/-- The complete days `1 … n` of user 1, day `d` with portfolio return `d` and
benchmark return `d * d`, both legs with weight 100. -/
def completeDays : Nat → AlphaCalculator.Calc
  | 0 => AlphaCalculator.empty
  | n + 1 => alphaDay (completeDays n) (n + 1) (n + 1) ((n + 1) * (n + 1))

/-- Day 1 with a trade only (return 3, weight 100), then the complete days 2
and 3 (portfolio returns 1 and 5, benchmark returns 2 and 4). -/
def tradeOnlyDay : AlphaCalculator.Calc :=
  alphaDay (alphaDay (AlphaCalculator.addTrade AlphaCalculator.empty 1 1 3 100) 2 1 2) 3 5 4

/-- The engine of the stop-loss scenario when the price has moved to 48000
before the order arrives: BTCUSDT at 50000, then at 48000, then the order that
the dashboard validated against 50000. -/
def staleOrder : State :=
  run (init (oneAccount 100000 9000) noon)
    [tickAt Asset.BTCUSDT 50000, tickAt Asset.BTCUSDT 48000,
      orderMsg "T1" Asset.BTCUSDT "long" 1 49000 52000]

/-- The position that the order of `staleOrder` opens. -/
def stalePosition : Trade :=
  { tradeID := "T1", stopLoss := 49000, takeProfit := 52000, size := 1,
    asset := Asset.BTCUSDT, openPrice := 48000, type := "market", position := "long" }

/-- The new-order message of the stop-loss scenario: LONG BTCUSDT, size 1,
stop-loss 49000, take-profit 52000. -/
def scenarioOrder : TradeServer.Msg :=
  { isObject := true, connection := "", newTrade := true, closeTrade := false, userID := 1,
    tradeID := "T1", asset := Asset.BTCUSDT, position := "long", size := 1,
    stopLoss := 49000, takeProfit := 52000, type := "market" }

/-- Two open LONG positions of user 1 as in `twoPositions` (balance 10000,
floor 9000), with the account dashboard of the user connected to the hub on
socket 7. -/
def watchedPair : State :=
  run (init (oneAccount 10000 9000) noon)
    [accountHandshake, tickAt Asset.BTCUSDT 50000, tickAt Asset.ETHUSDT 3000,
      orderMsg "A" Asset.BTCUSDT "long" 1 40000 60000,
      orderMsg "B" Asset.ETHUSDT "long" 1 500 5000]

/-- The run `watchedPair` when the allocator hands out for `"B"` an address
below that of `"A"`: the key of `"B"` is the first in the map of the user. -/
def watchedPairSwapped : State :=
  run (init (oneAccount 10000 9000) noon)
    [accountHandshake, tickAt Asset.BTCUSDT 50000, tickAt Asset.ETHUSDT 3000,
      orderMsg "A" Asset.BTCUSDT "long" 1 40000 60000,
      (noon, Input.dashboardText 5
        { isObject := true, connection := "", newTrade := true, closeTrade := false, userID := 1,
          tradeID := "B", asset := Asset.ETHUSDT, position := "long", size := 1,
          stopLoss := 500, takeProfit := 5000, type := "market" } 0)]

/-- The handler of the BTCUSDT tick at 48000 in `watchedPair`, after its first
loop (limit checks and P&L refresh) and before its equity rounds. -/
def watchedPairMarked : State :=
  TradeServer.riskPhase (setClock watchedPair noon) Asset.BTCUSDT { close := some 48000 }

/-- Balance 9500, floor 9000, no account dashboard connected; BTCUSDT falls to
49000, so `"A"` carries an unrealised loss of 1000 while `"B"` is flat: the
equity of the account is 8500. -/
def floorBreached : State :=
  step (twoPositions 9500 9000) (tickAt Asset.BTCUSDT 49000)

/-- The calls that lead to `tradeOnlyDay`: for user 1 a trade observation on
day 1 without benchmark observation, then the complete days 2 and 3. -/
def twoPairCalls : List Observation :=
  [Observation.trade 1 1 3 100,
    Observation.trade 1 2 1 100, Observation.benchmark 1 2 2 100,
    Observation.trade 1 3 5 100, Observation.benchmark 1 3 4 100]

/-- User 1 (balance 100000, floor 9000) holds `"A"` and `"B"` as in
`twoPositions`; BTCUSDT rises to 51000 and the user closes `"A"`, all on day
20000.  Position `"B"` stays open. -/
def oneClosedOneOpen : State :=
  run (twoPositions 100000 9000) [tickAt Asset.BTCUSDT 51000, closeMsg "A"]

/-- The binary64 number next above 1: `1 + 2^-52`. -/
def nextAboveOne : ℚ := 1 + 1 / 2 ^ 52

/-- The second binary64 number above 1: `1 + 2^-51`. -/
def secondAboveOne : ℚ := 1 + 1 / 2 ^ 51

/-! ## Association lists -/

theorem QMap.value_insert {V : Type} (m : List (Int × V)) (k k1 : Int) (v d : V) :
    QMap.value (QMap.insert m k v) k1 d = if k = k1 then v else QMap.value m k1 d := by
  induction m with
  | nil => simp [QMap.insert, QMap.value]
  | cons hd tl ih =>
    obtain ⟨k0, v0⟩ := hd
    simp only [QMap.insert]
    by_cases h0 : k0 = k
    · subst h0
      by_cases h1 : k0 = k1 <;> simp [QMap.value, h1]
    · simp only [h0, if_false]
      by_cases h2 : k < k0
      · simp only [h2, if_true]
        by_cases h1 : k = k1
        · simp [QMap.value, h1]
        · simp [QMap.value, h1]
      · simp only [h2, if_false, QMap.value, ih]
        by_cases h3 : k0 = k1
        · have : k ≠ k1 := fun h => h0 (h3.trans h.symm)
          simp [h3, this]
        · simp [h3]

theorem QMap.value_of_not_contains {V : Type} (m : List (Int × V)) (k : Int) (d : V)
    (h : QMap.contains m k = false) : QMap.value m k d = d := by
  induction m with
  | nil => rfl
  | cons hd tl ih =>
    obtain ⟨k0, v0⟩ := hd
    simp only [QMap.contains] at h
    by_cases h0 : k0 = k
    · simp [h0] at h
    · simp only [h0, if_false] at h
      simp [QMap.value, h0, ih h]

theorem QMap.value_touch {V : Type} (m : List (Int × V)) (k k1 : Int) (d : V) :
    QMap.value (QMap.touch m k d) k1 d = QMap.value m k1 d := by
  unfold QMap.touch
  by_cases h : QMap.contains m k = true
  · simp [h]
  · have h1 : QMap.contains m k = false := by simpa using h
    simp only [h1, Bool.false_eq_true, if_false, QMap.value_insert]
    by_cases h2 : k = k1
    · subst h2
      simp [QMap.value_of_not_contains m k d h1]
    · simp [h2]

theorem QMap.mem_keys_of_value_ne {V : Type} (m : List (Int × V)) (k : Int) (d : V)
    (h : QMap.value m k d ≠ d) : k ∈ QMap.keys m := by
  induction m with
  | nil => exact absurd rfl h
  | cons hd tl ih =>
    obtain ⟨k0, v0⟩ := hd
    by_cases h0 : k0 = k
    · simp [QMap.keys, h0]
    · simp only [QMap.value, h0, if_false] at h
      have := ih h
      simp only [QMap.keys, List.map_cons, List.mem_cons] at this ⊢
      exact Or.inr this

/-! ## Elementary state updates -/

@[simp] theorem trades_touchUser (s : State) (uid u : Int) :
    trades (touchUser s uid) u = trades s u := by
  simp [trades, touchUser, QMap.value_touch]

@[simp] theorem trades_setTrades (s : State) (uid u : Int) (m : TradeMap) :
    trades (setTrades s uid m) u = if uid = u then m else trades s u := by
  simp [trades, setTrades, QMap.value_insert]

@[simp] theorem trades_emit (s : State) (e : Event) (u : Int) :
    trades (emit s e) u = trades s u := rfl

@[simp] theorem trades_emitAll (s : State) (es : List Event) (u : Int) :
    trades (emitAll s es) u = trades s u := rfl

@[simp] theorem trades_readKey (s : State) (uid : Int) (t : Trade) (u : Int) :
    trades (readKey s uid t) u = trades s u := by
  unfold readKey
  split <;> rfl

@[simp] theorem out_readKey (s : State) (uid : Int) (t : Trade) :
    (readKey s uid t).out = s.out := by
  unfold readKey
  split <;> rfl

@[simp] theorem account_readKey (s : State) (uid : Int) (t : Trade) :
    (readKey s uid t).account = s.account := by
  unfold readKey
  split <;> rfl

@[simp] theorem livePrices_readKey (s : State) (uid : Int) (t : Trade) :
    (readKey s uid t).livePrices = s.livePrices := by
  unfold readKey
  split <;> rfl

@[simp] theorem now_readKey (s : State) (uid : Int) (t : Trade) :
    (readKey s uid t).now = s.now := by
  unfold readKey
  split <;> rfl

/-- A key that is in the map is read from a live object. -/
theorem readKey_of_mem (s : State) (uid : Int) (t : Trade) (p : ℚ)
    (h : (t, p) ∈ trades s uid) : readKey s uid t = s := by
  unfold readKey
  rw [if_pos]
  exact List.any_eq_true.2 ⟨(t, p), h, by simp⟩

theorem readKey_of_head (s : State) (uid : Int) (t : Trade) (p : ℚ) (tl : TradeMap)
    (h : trades s uid = (t, p) :: tl) : readKey s uid t = s :=
  readKey_of_mem s uid t p (by rw [h]; exact List.mem_cons_self _ _)

/-! ## Frame of the close cascade -/

theorem Frame.same (uid : Int) (s : State) : Frame uid s s :=
  ⟨rfl, rfl, rfl, rfl, rfl, rfl, rfl, rfl, fun _ _ => rfl, List.Sublist.refl _,
    fun _ _ => rfl, ⟨[], by simp⟩⟩

theorem Frame.andThen {uid : Int} {s s1 s2 : State} (h1 : Frame uid s s1)
    (h2 : Frame uid s1 s2) : Frame uid s s2 where
  livePrices := h2.livePrices.trans h1.livePrices
  userSessions := h2.userSessions.trans h1.userSessions
  socketUserMap := h2.socketUserMap.trans h1.socketUserMap
  currentDay := h2.currentDay.trans h1.currentDay
  benchOpen := h2.benchOpen.trans h1.benchOpen
  hubSessions := h2.hubSessions.trans h1.hubSessions
  hubSocketUser := h2.hubSocketUser.trans h1.hubSocketUser
  now := h2.now.trans h1.now
  tradesOther := fun u hu => (h2.tradesOther u hu).trans (h1.tradesOther u hu)
  tradesSub := h2.tradesSub.trans h1.tradesSub
  accountOther := fun u hu => (h2.accountOther u hu).trans (h1.accountOther u hu)
  out := by
    obtain ⟨n1, e1⟩ := h1.out
    obtain ⟨n2, e2⟩ := h2.out
    exact ⟨n1 ++ n2, by rw [e2, e1, List.append_assoc]⟩

theorem frame_touchUser (uid u : Int) (s : State) : Frame uid s (touchUser s u) :=
  ⟨rfl, rfl, rfl, rfl, rfl, rfl, rfl, rfl, fun _ _ => by simp, by simp,
    fun _ _ => rfl, ⟨[], by simp [touchUser]⟩⟩

theorem frame_readKey (uid u : Int) (s : State) (t : Trade) : Frame uid s (readKey s u t) := by
  unfold readKey
  split
  · exact Frame.same _ _
  · exact ⟨rfl, rfl, rfl, rfl, rfl, rfl, rfl, rfl, fun _ _ => rfl, List.Sublist.refl _,
      fun _ _ => rfl, ⟨[], by simp⟩⟩

theorem frame_emit (uid : Int) (s : State) (e : Event) : Frame uid s (emit s e) :=
  ⟨rfl, rfl, rfl, rfl, rfl, rfl, rfl, rfl, fun _ _ => rfl, List.Sublist.refl _,
    fun _ _ => rfl, ⟨[e], rfl⟩⟩

theorem frame_emitAll (uid : Int) (s : State) (es : List Event) :
    Frame uid s (emitAll s es) :=
  ⟨rfl, rfl, rfl, rfl, rfl, rfl, rfl, rfl, fun _ _ => rfl, List.Sublist.refl _,
    fun _ _ => rfl, ⟨es, rfl⟩⟩

theorem frame_setTrades (uid : Int) (s : State) (m : TradeMap)
    (h : m.Sublist (trades s uid)) : Frame uid s (setTrades s uid m) :=
  ⟨rfl, rfl, rfl, rfl, rfl, rfl, rfl, rfl,
    fun u hu => by simp [Ne.symm hu], by simpa using h,
    fun _ _ => rfl, ⟨[], by simp [setTrades]⟩⟩

theorem frame_updateAccount (uid : Int) (s : State) (f : AccountRow → AccountRow) :
    Frame uid s (updateAccount s uid f) :=
  ⟨rfl, rfl, rfl, rfl, rfl, rfl, rfl, rfl, fun _ _ => rfl, List.Sublist.refl _,
    fun u hu => by simp [updateAccount, Function.update, hu], ⟨[], by simp [updateAccount]⟩⟩

theorem frame_broadcastJson (uid u : Int) (s : State) (obj : Payload) :
    Frame uid s (AccountServer.broadcastJson s u obj) := by
  unfold AccountServer.broadcastJson
  split
  · exact frame_emitAll _ _ _
  · exact Frame.same _ _

theorem frame_accountLocked (uid : Int) (ca : State → Int → State)
    (hca : ∀ st, Frame uid st (ca st uid)) (s : State) :
    Frame uid s (AccountServer.accountLocked ca s uid) := by
  unfold AccountServer.accountLocked
  exact (((frame_updateAccount uid s _).andThen (frame_emit _ _ _)).andThen (hca _)).andThen
    (frame_broadcastJson _ _ _ _)

theorem frame_feedTrade (uid u : Int) (s : State) (pnl : ℚ) :
    Frame uid s (AccountServer.feedTrade s u pnl) := by
  unfold AccountServer.feedTrade
  simp only
  split
  · exact frame_emit _ _ _
  · exact Frame.same _ _

theorem frame_onCloseTrade (uid : Int) (ca : State → Int → State)
    (hca : ∀ st, Frame uid st (ca st uid)) (s : State) (pnl : ℚ) :
    Frame uid s (AccountServer.onCloseTrade ca s uid pnl) := by
  unfold AccountServer.onCloseTrade
  cases hrow : s.account uid with
  | none => exact Frame.same _ _
  | some row =>
    simp only
    refine Frame.andThen ?_ (frame_feedTrade _ _ _ _)
    split
    · exact (frame_updateAccount uid s _).andThen (frame_accountLocked uid ca hca _)
    · exact (frame_updateAccount uid s _).andThen (frame_broadcastJson _ _ _ _)

theorem frame_onEquityUpdate (uid : Int) (ca : State → Int → State)
    (hca : ∀ st, Frame uid st (ca st uid)) (s : State) (totalPnL : ℚ) :
    Frame uid s (AccountServer.onEquityUpdate ca s uid totalPnL) := by
  unfold AccountServer.onEquityUpdate
  cases hrow : s.account uid with
  | none => exact Frame.same _ _
  | some row =>
    simp only
    split
    · exact (frame_updateAccount uid s _).andThen (frame_accountLocked uid ca hca _)
    · exact frame_broadcastJson _ _ _ _

theorem frame_foldl {α : Type} (uid : Int) (f : State → α → State)
    (hf : ∀ st a, Frame uid st (f st a)) (l : List α) (s : State) :
    Frame uid s (l.foldl f s) := by
  induction l generalizing s with
  | nil => exact Frame.same _ _
  | cons a l ih => exact (hf s a).andThen (ih _)

theorem frame_closeAllLoop (uid : Int) (c : State → Int → String → State)
    (hc : ∀ st tid, Frame uid st (c st uid tid)) (s : State) :
    Frame uid s (TradeServer.closeAllLoop c s uid) := by
  unfold TradeServer.closeAllLoop
  exact (frame_touchUser uid uid s).andThen
    (frame_foldl uid _ (fun st t => (frame_readKey uid uid st t).andThen (hc _ _)) _ _)

/-- Shape of a successful search in `findTrade`. -/
theorem findTrade_some {tid : String} {l : TradeMap} {t : Trade} {rest : TradeMap}
    (h : findTrade tid l = some (t, rest)) :
    ∃ pre p post, l = pre ++ (t, p) :: post ∧ rest = pre ++ post ∧ t.tradeID = tid ∧
      ∀ e ∈ pre, e.1.tradeID ≠ tid := by
  induction l generalizing rest with
  | nil => simp [findTrade] at h
  | cons hd tl ih =>
    obtain ⟨t0, p0⟩ := hd
    by_cases h0 : t0.tradeID = tid
    · simp only [findTrade, h0, if_true, Option.some.injEq, Prod.mk.injEq] at h
      obtain ⟨rfl, rfl⟩ := h
      exact ⟨[], p0, tl, rfl, rfl, h0, by simp⟩
    · simp only [findTrade, h0, if_false, Option.map_eq_some', Prod.mk.injEq] at h
      obtain ⟨⟨t1, r1⟩, hfind, rfl, rfl⟩ := h
      obtain ⟨pre, p, post, hl, hr, ht, hpre⟩ := ih hfind
      refine ⟨(t0, p0) :: pre, p, post, by simp [hl], by simp [hr], ht, ?_⟩
      intro e he
      rcases List.mem_cons.1 he with rfl | he
      · exact h0
      · exact hpre e he

theorem findTrade_sublist {tid : String} {l : TradeMap} {t : Trade} {rest : TradeMap}
    (h : findTrade tid l = some (t, rest)) : rest.Sublist l := by
  obtain ⟨pre, p, post, hl, hr, -, -⟩ := findTrade_some h
  subst hl hr
  exact List.Sublist.append (List.Sublist.refl _) (List.sublist_cons_self _ _)

theorem frame_closeRecord (uid : Int) (s : State) (tid : String) (t : Trade)
    (rest : TradeMap) (h : rest.Sublist (trades s uid)) :
    Frame uid s (TradeServer.closeRecord s uid tid t rest) := by
  unfold TradeServer.closeRecord
  exact (((frame_emit uid _ _).andThen (frame_emit uid _ _)).andThen
    (frame_setTrades uid _ rest (by simpa using h))).andThen (frame_emit uid _ _)

theorem frame_notifyClosed (uid u : Int) (s : State) (tid : String) (pnl : ℚ) :
    Frame uid s (TradeServer.notifyClosed s u tid pnl) := by
  unfold TradeServer.notifyClosed
  split
  · exact frame_emitAll _ _ _
  · exact Frame.same _ _

theorem frame_closeTradeFuel (n : Nat) (s : State) (uid : Int) (tid : String) :
    Frame uid s (TradeServer.closeTradeFuel n s uid tid) := by
  induction n generalizing s tid with
  | zero => exact Frame.same _ _
  | succ n ih =>
    unfold TradeServer.closeTradeFuel
    simp only
    cases hfind : findTrade tid (trades (touchUser s uid) uid) with
    | none => exact frame_touchUser _ _ _
    | some r =>
      obtain ⟨t, rest⟩ := r
      simp only
      have hsub : rest.Sublist (trades (touchUser s uid) uid) := findTrade_sublist hfind
      exact (((frame_touchUser uid uid s).andThen
        (frame_closeRecord uid _ tid t rest hsub)).andThen
        (frame_onCloseTrade uid _
          (fun st => frame_closeAllLoop uid _ (fun st1 tid1 => ih st1 tid1) st) _ _)).andThen
        (frame_notifyClosed _ _ _ _ _)

theorem frame_closeTrade (s : State) (uid : Int) (tid : String) :
    Frame uid s (TradeServer.closeTrade s uid tid) :=
  frame_closeTradeFuel _ s uid tid

/-! ## The nesting bound of `closeTrade` is adequate -/

@[simp] theorem trades_updateAccount (s : State) (uid u : Int) (f : AccountRow → AccountRow) :
    trades (updateAccount s uid f) u = trades s u := rfl

theorem findTrade_length {tid : String} {l : TradeMap} {t : Trade} {rest : TradeMap}
    (h : findTrade tid l = some (t, rest)) : rest.length + 1 = l.length := by
  obtain ⟨pre, p, post, hl, hr, -, -⟩ := findTrade_some h
  subst hl hr
  simp [Nat.add_assoc]

theorem foldl_close_congr (uid : Int) (L : Nat) (c1 c2 : State → Int → String → State)
    (hagree : ∀ st tid, (trades st uid).length ≤ L → c1 st uid tid = c2 st uid tid)
    (hframe : ∀ st tid, Frame uid st (c1 st uid tid)) (l : List Trade) (s : State)
    (hs : (trades s uid).length ≤ L) :
    l.foldl (fun st t => c1 (readKey st uid t) uid t.tradeID) s =
      l.foldl (fun st t => c2 (readKey st uid t) uid t.tradeID) s := by
  induction l generalizing s with
  | nil => rfl
  | cons a l ih =>
    simp only [List.foldl_cons]
    rw [← hagree (readKey s uid a) a.tradeID (by simpa using hs)]
    exact ih _ (le_trans (hframe (readKey s uid a) a.tradeID).tradesSub.length_le
      (by simpa using hs))

theorem closeAllLoop_congr (uid : Int) (L : Nat) (c1 c2 : State → Int → String → State)
    (hagree : ∀ st tid, (trades st uid).length ≤ L → c1 st uid tid = c2 st uid tid)
    (hframe : ∀ st tid, Frame uid st (c1 st uid tid)) (s : State)
    (hs : (trades s uid).length ≤ L) :
    TradeServer.closeAllLoop c1 s uid = TradeServer.closeAllLoop c2 s uid := by
  unfold TradeServer.closeAllLoop
  exact foldl_close_congr uid L c1 c2 hagree hframe _ _ (by simpa using hs)

theorem accountLocked_congr (uid : Int) (ca1 ca2 : State → Int → State) (s : State)
    (h : ∀ st, trades st uid = trades s uid → ca1 st uid = ca2 st uid) :
    AccountServer.accountLocked ca1 s uid = AccountServer.accountLocked ca2 s uid := by
  unfold AccountServer.accountLocked
  simp only
  rw [h _ (by simp)]

theorem onCloseTrade_congr (uid : Int) (ca1 ca2 : State → Int → State) (s : State) (pnl : ℚ)
    (h : ∀ st, trades st uid = trades s uid → ca1 st uid = ca2 st uid) :
    AccountServer.onCloseTrade ca1 s uid pnl = AccountServer.onCloseTrade ca2 s uid pnl := by
  unfold AccountServer.onCloseTrade
  cases s.account uid with
  | none => rfl
  | some row =>
    simp only
    rw [accountLocked_congr uid ca1 ca2 _ (fun st hst => h st (by simpa using hst))]

@[simp] theorem trades_closeRecord (s : State) (uid : Int) (tid : String) (t : Trade)
    (rest : TradeMap) (u : Int) :
    trades (TradeServer.closeRecord s uid tid t rest) u = if uid = u then rest else trades s u := by
  simp [TradeServer.closeRecord]

theorem closeTradeFuel_stable (n m : Nat) (s : State) (uid : Int) (tid : String)
    (hn : (trades s uid).length < n) (hm : n ≤ m) :
    TradeServer.closeTradeFuel m s uid tid = TradeServer.closeTradeFuel n s uid tid := by
  induction n generalizing m s tid with
  | zero => exact absurd hn (Nat.not_lt_zero _)
  | succ n ih =>
    obtain ⟨m, rfl⟩ : ∃ k, m = k + 1 := ⟨m - 1, by omega⟩
    have hm1 : n ≤ m := by omega
    unfold TradeServer.closeTradeFuel
    simp only
    cases hfind : findTrade tid (trades (touchUser s uid) uid) with
    | none => rfl
    | some r =>
      obtain ⟨t, rest⟩ := r
      simp only
      have hlen : rest.length + 1 = (trades s uid).length := by
        simpa using findTrade_length hfind
      rw [onCloseTrade_congr uid (TradeServer.closeAllLoop (TradeServer.closeTradeFuel m))
        (TradeServer.closeAllLoop (TradeServer.closeTradeFuel n))]
      intro st hst
      refine closeAllLoop_congr uid rest.length _ _ ?_ (fun st1 tid1 => frame_closeTradeFuel m st1 uid tid1)
        st (by simp [hst])
      intro st1 tid1 hst1
      exact ih m st1 tid1 (by omega) hm1

/-- The recursive equation of `TradeServer::closeTrade`: the slot that the
signal `closeAllTrades` reaches inside `emit tradeClosed` is
`onCloseAllTrades` itself. -/
theorem closeTrade_eq (s : State) (uid : Int) (tid : String) :
    TradeServer.closeTrade s uid tid =
      match findTrade tid (trades s uid) with
      | none => touchUser s uid
      | some (t, rest) =>
        TradeServer.notifyClosed
          (AccountServer.onCloseTrade TradeServer.onCloseAllTrades
            (TradeServer.closeRecord (touchUser s uid) uid tid t rest) uid
            (pnlAt (s.livePrices t.asset) t))
          uid tid (pnlAt (s.livePrices t.asset) t) := by
  unfold TradeServer.closeTrade
  unfold TradeServer.closeTradeFuel
  simp only [trades_touchUser]
  cases hfind : findTrade tid (trades s uid) with
  | none => rfl
  | some r =>
    obtain ⟨t, rest⟩ := r
    simp only
    have hlen : rest.length + 1 = (trades s uid).length := findTrade_length hfind
    have hprice : (touchUser s uid).livePrices = s.livePrices := rfl
    rw [hprice, onCloseTrade_congr uid
      (TradeServer.closeAllLoop (TradeServer.closeTradeFuel (trades s uid).length))
      TradeServer.onCloseAllTrades]
    intro st hst
    unfold TradeServer.onCloseAllTrades
    refine closeAllLoop_congr uid rest.length _ _ ?_
      (fun st1 tid1 => frame_closeTradeFuel _ st1 uid tid1) st (by simp [hst])
    intro st1 tid1 hst1
    unfold TradeServer.closeTrade
    exact closeTradeFuel_stable _ _ st1 uid tid1 (by omega) (by omega)

/-- Every nesting bound above the number of open positions gives the same result. -/
theorem closeTradeFuel_eq_closeTrade (n : Nat) (s : State) (uid : Int) (tid : String)
    (hn : (trades s uid).length < n) :
    TradeServer.closeTradeFuel n s uid tid = TradeServer.closeTrade s uid tid := by
  unfold TradeServer.closeTrade
  exact closeTradeFuel_stable _ _ s uid tid (by omega) (by omega)

/-! ## Projections of the log -/

@[simp] theorem closedPnls_append (uid : Int) (l1 l2 : List Event) :
    closedPnls uid (l1 ++ l2) = closedPnls uid l1 ++ closedPnls uid l2 := by
  simp [closedPnls, List.filterMap_append]

@[simp] theorem lockCount_append (uid : Int) (l1 l2 : List Event) :
    lockCount uid (l1 ++ l2) = lockCount uid l1 + lockCount uid l2 := by
  simp [lockCount, List.count_append]

@[simp] theorem closedPnls_map_hubSend (uid : Int) (l : List Nat) (obj : Payload) :
    closedPnls uid (l.map (fun ws => Event.hubSend ws obj)) = [] := by
  induction l with
  | nil => rfl
  | cons a l ih => simp [closedPnls]

@[simp] theorem closedPnls_map_tradeSend (uid : Int) (l : List Nat) (obj : Payload) :
    closedPnls uid (l.map (fun ws => Event.tradeSend ws obj)) = [] := by
  induction l with
  | nil => rfl
  | cons a l ih => simp [closedPnls]

@[simp] theorem lockCount_map_hubSend (uid : Int) (l : List Nat) (obj : Payload) :
    lockCount uid (l.map (fun ws => Event.hubSend ws obj)) = 0 := by
  induction l with
  | nil => rfl
  | cons a l ih => simpa [lockCount, List.count_cons] using ih

@[simp] theorem lockCount_map_tradeSend (uid : Int) (l : List Nat) (obj : Payload) :
    lockCount uid (l.map (fun ws => Event.tradeSend ws obj)) = 0 := by
  induction l with
  | nil => rfl
  | cons a l ih => simpa [lockCount, List.count_cons] using ih

/-! ## Silent handlers -/

theorem Silent.idle (s : State) : Silent s s :=
  ⟨rfl, fun _ => rfl, rfl, fun _ => rfl, fun _ => rfl⟩

theorem Silent.next {s s1 s2 : State} (h1 : Silent s s1) (h2 : Silent s1 s2) :
    Silent s s2 :=
  ⟨h2.livePrices.trans h1.livePrices, fun u => (h2.trades u).trans (h1.trades u),
    h2.account.trans h1.account, fun u => (h2.closed u).trans (h1.closed u),
    fun u => (h2.locks u).trans (h1.locks u)⟩

theorem silent_touchUser (s : State) (uid : Int) : Silent s (touchUser s uid) :=
  ⟨rfl, fun _ => by simp, rfl, fun _ => rfl, fun _ => rfl⟩

theorem silent_readKey (s : State) (uid : Int) (t : Trade) : Silent s (readKey s uid t) :=
  ⟨by simp, fun _ => by simp, by simp, fun _ => by simp, fun _ => by simp⟩

theorem silent_broadcastJson (s : State) (uid : Int) (obj : Payload) :
    Silent s (AccountServer.broadcastJson s uid obj) := by
  unfold AccountServer.broadcastJson
  split
  · exact ⟨rfl, fun _ => rfl, rfl, fun u => by simp [emitAll], fun u => by simp [emitAll]⟩
  · exact Silent.idle s

theorem silent_feedTrade (s : State) (uid : Int) (pnl : ℚ) :
    Silent s (AccountServer.feedTrade s uid pnl) := by
  unfold AccountServer.feedTrade
  simp only
  split
  · exact ⟨rfl, fun _ => rfl, rfl, fun u => by simp [emit, closedPnls],
      fun u => by simp [emit, lockCount]⟩
  · exact Silent.idle s

theorem silent_notifyClosed (s : State) (uid : Int) (tid : String) (pnl : ℚ) :
    Silent s (TradeServer.notifyClosed s uid tid pnl) := by
  unfold TradeServer.notifyClosed
  split
  · exact ⟨rfl, fun _ => rfl, rfl, fun u => by simp [emitAll], fun u => by simp [emitAll]⟩
  · exact Silent.idle s

theorem livePnls_silent {s s1 : State} (h : Silent s s1) (uid : Int) :
    livePnls s1 uid = livePnls s uid := by
  simp [livePnls, h.trades uid, h.livePrices]

theorem Cascade.of_silent_left {uid : Int} {s a b : State} (h : Silent s a)
    (hc : Cascade uid a b) : Cascade uid s b where
  trades := hc.trades
  closed := by rw [hc.closed, h.closed, livePnls_silent h]
  account := by rw [hc.account, h.account, livePnls_silent h]
  locks := by rw [hc.locks, h.locks, h.account, livePnls_silent h]

theorem Cascade.silent_right {uid : Int} {s a b : State} (hc : Cascade uid s a)
    (h : Silent a b) : Cascade uid s b where
  trades := by rw [h.trades, hc.trades]
  closed := by rw [h.closed, hc.closed]
  account := by rw [h.account, hc.account]
  locks := by rw [h.locks, hc.locks]

/-- A call of `closeTrade` for a user without open positions only touches the
key of the user. -/
theorem closeTrade_flat (s : State) (uid : Int) (tid : String) (h : trades s uid = []) :
    TradeServer.closeTrade s uid tid = touchUser s uid := by
  rw [closeTrade_eq, h]
  rfl

theorem foldl_closeTrade_flat (uid : Int) (l : List Trade) (s : State)
    (h : trades s uid = []) :
    Silent s (l.foldl (fun st t => TradeServer.closeTrade (readKey st uid t) uid t.tradeID) s) := by
  induction l generalizing s with
  | nil => exact Silent.idle s
  | cons a l ih =>
    simp only [List.foldl_cons]
    rw [closeTrade_flat (readKey s uid a) uid _ (by simpa using h)]
    exact ((silent_readKey s uid a).next (silent_touchUser _ uid)).next
      (ih _ (by simpa using h))

/-! ## The close cascade -/

@[simp] theorem out_emit (s : State) (e : Event) : (emit s e).out = s.out ++ [e] := rfl
@[simp] theorem out_emitAll (s : State) (es : List Event) : (emitAll s es).out = s.out ++ es := rfl
@[simp] theorem out_touchUser (s : State) (u : Int) : (touchUser s u).out = s.out := rfl
@[simp] theorem out_setTrades (s : State) (u : Int) (m : TradeMap) : (setTrades s u m).out = s.out := rfl
@[simp] theorem out_updateAccount (s : State) (u : Int) (f : AccountRow → AccountRow) :
    (updateAccount s u f).out = s.out := rfl
@[simp] theorem account_emit (s : State) (e : Event) : (emit s e).account = s.account := rfl
@[simp] theorem account_emitAll (s : State) (es : List Event) : (emitAll s es).account = s.account := rfl
@[simp] theorem account_touchUser (s : State) (u : Int) : (touchUser s u).account = s.account := rfl
@[simp] theorem account_setTrades (s : State) (u : Int) (m : TradeMap) :
    (setTrades s u m).account = s.account := rfl
@[simp] theorem account_updateAccount_self (s : State) (u : Int) (f : AccountRow → AccountRow) :
    (updateAccount s u f).account u = (s.account u).map f := by
  simp [updateAccount]
@[simp] theorem livePrices_emit (s : State) (e : Event) : (emit s e).livePrices = s.livePrices := rfl
@[simp] theorem livePrices_emitAll (s : State) (es : List Event) :
    (emitAll s es).livePrices = s.livePrices := rfl
@[simp] theorem livePrices_touchUser (s : State) (u : Int) :
    (touchUser s u).livePrices = s.livePrices := rfl
@[simp] theorem livePrices_setTrades (s : State) (u : Int) (m : TradeMap) :
    (setTrades s u m).livePrices = s.livePrices := rfl
@[simp] theorem livePrices_updateAccount (s : State) (u : Int) (f : AccountRow → AccountRow) :
    (updateAccount s u f).livePrices = s.livePrices := rfl

@[simp] theorem now_touchUser (s : State) (u : Int) : (touchUser s u).now = s.now := rfl
@[simp] theorem now_emit (s : State) (e : Event) : (emit s e).now = s.now := rfl
@[simp] theorem now_emitAll (s : State) (es : List Event) : (emitAll s es).now = s.now := rfl
@[simp] theorem now_setTrades (s : State) (u : Int) (m : TradeMap) : (setTrades s u m).now = s.now := rfl
@[simp] theorem now_updateAccount (s : State) (u : Int) (f : AccountRow → AccountRow) :
    (updateAccount s u f).now = s.now := rfl

@[simp] theorem out_closeRecord (s : State) (uid : Int) (tid : String) (t : Trade)
    (rest : TradeMap) :
    (TradeServer.closeRecord s uid tid t rest).out =
      s.out ++ [Event.historyUpdate tid (s.livePrices t.asset) (pnlAt (s.livePrices t.asset) t) s.now,
        Event.addTrade uid s.now.date ((s.livePrices t.asset - t.openPrice) / t.openPrice)
          |t.size * t.openPrice|,
        Event.tradeClosed uid (pnlAt (s.livePrices t.asset) t)] := by
  simp [TradeServer.closeRecord, emit, setTrades]

@[simp] theorem account_closeRecord (s : State) (uid : Int) (tid : String) (t : Trade)
    (rest : TradeMap) : (TradeServer.closeRecord s uid tid t rest).account = s.account := rfl

@[simp] theorem livePrices_closeRecord (s : State) (uid : Int) (tid : String) (t : Trade)
    (rest : TradeMap) : (TradeServer.closeRecord s uid tid t rest).livePrices = s.livePrices := rfl

theorem findTrade_head (t : Trade) (p : ℚ) (tl : TradeMap) :
    findTrade t.tradeID ((t, p) :: tl) = some (t, tl) := by
  simp [findTrade]

theorem cascade_nil (uid : Int) (s : State) (h : trades s uid = []) : Cascade uid s s where
  trades := h
  closed := by simp [livePnls, h]
  account := by simp [livePnls, h]
  locks := by cases s.account uid <;> simp [livePnls, h, relocks]

theorem cascade_foldl (uid : Int) (l : TradeMap) (s : State) (h : trades s uid = l) :
    Cascade uid s
      ((l.map Prod.fst).foldl
        (fun st t => TradeServer.closeTrade (readKey st uid t) uid t.tradeID) s) := by
  induction l generalizing s with
  | nil => exact cascade_nil uid s h
  | cons e tl ih =>
    obtain ⟨t, p0⟩ := e
    simp only [List.map_cons, List.foldl_cons]
    rw [readKey_of_head s uid t p0 tl h]
    have hstep : TradeServer.closeTrade s uid t.tradeID =
        TradeServer.notifyClosed
          (AccountServer.onCloseTrade TradeServer.onCloseAllTrades
            (TradeServer.closeRecord (touchUser s uid) uid t.tradeID t tl) uid
            (pnlAt (s.livePrices t.asset) t))
          uid t.tradeID (pnlAt (s.livePrices t.asset) t) := by
      rw [closeTrade_eq, h, findTrade_head]
    rw [hstep]
    have hpnls : livePnls s uid =
        pnlAt (s.livePrices t.asset) t :: tl.map (fun e => pnlAt (s.livePrices e.1.asset) e.1) := by
      simp [livePnls, h]
    generalize hpnl : pnlAt (s.livePrices t.asset) t = pnl at hstep hpnls ⊢
    unfold AccountServer.onCloseTrade
    cases hrow : s.account uid with
    | none =>
      simp only [account_closeRecord, account_touchUser, hrow]
      have hA := ih (TradeServer.notifyClosed
        (TradeServer.closeRecord (touchUser s uid) uid t.tradeID t tl) uid t.tradeID pnl)
        (by rw [(silent_notifyClosed _ _ _ _).trades]; simp)
      refine ⟨hA.trades, ?_, ?_, ?_⟩
      · rw [hA.closed, (silent_notifyClosed _ _ _ _).closed, hpnls]
        simp [livePnls, (silent_notifyClosed _ _ _ _).trades, (silent_notifyClosed _ _ _ _).livePrices,
          closedPnls, hpnl]
      · rw [hA.account, (silent_notifyClosed _ _ _ _).account]
        simp [hrow]
      · rw [hA.locks, (silent_notifyClosed _ _ _ _).locks, (silent_notifyClosed _ _ _ _).account]
        simp [hrow, lockCount]
    | some row =>
      simp only [account_closeRecord, account_touchUser, hrow]
      by_cases hb : row.balance + pnl ≤ row.max_loss
      · simp only [hb, if_true]
        unfold AccountServer.accountLocked TradeServer.onCloseAllTrades TradeServer.closeAllLoop
        simp only
        generalize hs2 : touchUser (emit (updateAccount (updateAccount
          (TradeServer.closeRecord (touchUser s uid) uid t.tradeID t tl) uid
          (fun r => { r with balance := r.balance + pnl })) uid
          (fun r => { r with status := false })) (Event.closeAllTrades uid)) uid = s2
        have ht2 : trades s2 uid = tl := by subst hs2; simp
        have hp2 : s2.livePrices = s.livePrices := by subst hs2; rfl
        have ha2 : s2.account uid = some (hubClose row pnl) := by
          subst hs2
          simp [hrow, hubClose, hb]
        have ho2 : s2.out = s.out ++ [Event.historyUpdate t.tradeID (s.livePrices t.asset) pnl s.now,
            Event.addTrade uid s.now.date ((s.livePrices t.asset - t.openPrice) / t.openPrice)
              |t.size * t.openPrice|,
            Event.tradeClosed uid pnl, Event.closeAllTrades uid] := by
          subst hs2
          simp [hpnl]
        rw [ht2]
        have hN := ih s2 ht2
        generalize ((tl.map Prod.fst).foldl
          (fun st t => TradeServer.closeTrade (readKey st uid t) uid t.tradeID) s2) = N at hN ⊢
        have hA : Cascade uid s2 (TradeServer.notifyClosed (AccountServer.feedTrade
            (AccountServer.broadcastJson N uid Payload.accountLocked) uid pnl) uid t.tradeID pnl) :=
          hN.silent_right (((silent_broadcastJson _ _ _).next (silent_feedTrade _ _ _)).next
            (silent_notifyClosed _ _ _ _))
        have hF := hA.silent_right (foldl_closeTrade_flat uid (tl.map Prod.fst) _ hA.trades)
        have hl2 : livePnls s2 uid = tl.map (fun e => pnlAt (s.livePrices e.1.asset) e.1) := by
          simp [livePnls, ht2, hp2]
        refine ⟨hF.trades, ?_, ?_, ?_⟩
        · rw [hF.closed, ho2, hpnls, hl2]
          simp [closedPnls]
        · rw [hF.account, ha2, hpnls, hl2]
          simp [hrow]
        · rw [hF.locks, ha2, ho2, hpnls, hl2]
          simp [lockCount, relocks, hb, hubClose, List.count_cons, hrow]
          exact Nat.add_assoc _ _ _
      · simp only [hb, if_false]
        generalize hs1 : updateAccount (TradeServer.closeRecord (touchUser s uid) uid t.tradeID t tl)
          uid (fun r => { r with balance := r.balance + pnl }) = s1
        have ht1 : trades s1 uid = tl := by subst hs1; simp
        have hp1 : s1.livePrices = s.livePrices := by subst hs1; rfl
        have ha1 : s1.account uid = some (hubClose row pnl) := by
          subst hs1
          simp [hrow, hubClose, hb]
        have ho1 : s1.out = s.out ++ [Event.historyUpdate t.tradeID (s.livePrices t.asset) pnl s.now,
            Event.addTrade uid s.now.date ((s.livePrices t.asset - t.openPrice) / t.openPrice)
              |t.size * t.openPrice|,
            Event.tradeClosed uid pnl] := by
          subst hs1
          simp [hpnl]
        have hsil : Silent s1 (TradeServer.notifyClosed (AccountServer.feedTrade
            (AccountServer.broadcastJson s1 uid Payload.tradeClosed) uid pnl) uid t.tradeID pnl) :=
          ((silent_broadcastJson _ _ _).next (silent_feedTrade _ _ _)).next
            (silent_notifyClosed _ _ _ _)
        have hF := Cascade.of_silent_left hsil (ih _ (by rw [hsil.trades, ht1]))
        have hl1 : livePnls s1 uid = tl.map (fun e => pnlAt (s.livePrices e.1.asset) e.1) := by
          simp [livePnls, ht1, hp1]
        refine ⟨hF.trades, ?_, ?_, ?_⟩
        · rw [hF.closed, ho1, hpnls, hl1]
          simp [closedPnls]
        · rw [hF.account, ha1, hpnls, hl1]
          simp [hrow]
        · rw [hF.locks, ha1, ho1, hpnls, hl1]
          simp [lockCount, relocks, hb, hubClose, hrow]

/-! ## One call of `closeTrade` on an open position -/

theorem findTrade_append (tid : String) (pre : TradeMap) (t : Trade) (p : ℚ) (post : TradeMap)
    (hid : t.tradeID = tid) (hpre : ∀ e ∈ pre, e.1.tradeID ≠ tid) :
    findTrade tid (pre ++ (t, p) :: post) = some (t, pre ++ post) := by
  induction pre with
  | nil => simp [findTrade, hid]
  | cons e pre ih =>
    obtain ⟨t0, p0⟩ := e
    have h0 : t0.tradeID ≠ tid := hpre (t0, p0) (List.mem_cons_self _ _)
    have ih1 := ih (fun e he => hpre e (List.mem_cons_of_mem _ he))
    simp [findTrade, h0, ih1]

theorem closeTrade_found (s : State) (uid : Int) (tid : String) (pre : TradeMap) (t : Trade)
    (p : ℚ) (post : TradeMap) (h : trades s uid = pre ++ (t, p) :: post)
    (hid : t.tradeID = tid) (hpre : ∀ e ∈ pre, e.1.tradeID ≠ tid) :
    TradeServer.closeTrade s uid tid =
      TradeServer.notifyClosed
        (AccountServer.onCloseTrade TradeServer.onCloseAllTrades
          (TradeServer.closeRecord (touchUser s uid) uid tid t (pre ++ post)) uid
          (pnlAt (s.livePrices t.asset) t))
        uid tid (pnlAt (s.livePrices t.asset) t) := by
  rw [closeTrade_eq, h, findTrade_append tid pre t p post hid hpre]

/-- Closing an open position when the hub does not lock: the account has no
row, or the new balance stays above `max_loss`. -/
theorem closeTrade_open_free (s : State) (uid : Int) (tid : String) (pre : TradeMap)
    (t : Trade) (p : ℚ) (post : TradeMap) (h : trades s uid = pre ++ (t, p) :: post)
    (hid : t.tradeID = tid) (hpre : ∀ e ∈ pre, e.1.tradeID ≠ tid)
    (hfree : ∀ row, s.account uid = some row →
      ¬ row.balance + pnlAt (s.livePrices t.asset) t ≤ row.max_loss) :
    trades (TradeServer.closeTrade s uid tid) uid = pre ++ post ∧
    closedPnls uid (TradeServer.closeTrade s uid tid).out =
      closedPnls uid s.out ++ [pnlAt (s.livePrices t.asset) t] ∧
    lockCount uid (TradeServer.closeTrade s uid tid).out = lockCount uid s.out ∧
    (TradeServer.closeTrade s uid tid).account uid =
      (s.account uid).map (fun row => hubClose row (pnlAt (s.livePrices t.asset) t)) := by
  rw [closeTrade_found s uid tid pre t p post h hid hpre]
  generalize hpnl : pnlAt (s.livePrices t.asset) t = pnl at hfree ⊢
  unfold AccountServer.onCloseTrade
  cases hrow : s.account uid with
  | none =>
    simp only [account_closeRecord, account_touchUser, hrow]
    have hs := silent_notifyClosed
      (TradeServer.closeRecord (touchUser s uid) uid tid t (pre ++ post)) uid tid pnl
    refine ⟨by rw [hs.trades]; simp, by rw [hs.closed]; simp [closedPnls, hpnl],
      by rw [hs.locks]; simp [lockCount], by rw [hs.account]; simp [hrow]⟩
  | some row =>
    have hb := hfree row hrow
    simp only [account_closeRecord, account_touchUser, hrow, hb, if_false]
    have hs := ((silent_broadcastJson (updateAccount
      (TradeServer.closeRecord (touchUser s uid) uid tid t (pre ++ post)) uid
      (fun r => { r with balance := r.balance + pnl })) uid Payload.tradeClosed).next
      (silent_feedTrade _ uid pnl)).next (silent_notifyClosed _ uid tid pnl)
    refine ⟨by rw [hs.trades]; simp, by rw [hs.closed]; simp [closedPnls, hpnl],
      by rw [hs.locks]; simp [lockCount], by rw [hs.account]; simp [hrow, hubClose, hb]⟩

/-- Closing an open position when the new balance is at or below `max_loss`:
the hub locks the account and the cascade closes all other positions. -/
theorem closeTrade_open_locked (s : State) (uid : Int) (tid : String) (pre : TradeMap)
    (t : Trade) (p : ℚ) (post : TradeMap) (h : trades s uid = pre ++ (t, p) :: post)
    (hid : t.tradeID = tid) (hpre : ∀ e ∈ pre, e.1.tradeID ≠ tid)
    (row : AccountRow) (hrow : s.account uid = some row)
    (hb : row.balance + pnlAt (s.livePrices t.asset) t ≤ row.max_loss) :
    trades (TradeServer.closeTrade s uid tid) uid = [] ∧
    closedPnls uid (TradeServer.closeTrade s uid tid).out =
      closedPnls uid s.out ++ pnlAt (s.livePrices t.asset) t ::
        (pre ++ post).map (fun e => pnlAt (s.livePrices e.1.asset) e.1) ∧
    lockCount uid (TradeServer.closeTrade s uid tid).out = lockCount uid s.out + 1 +
      relocks (row.balance + pnlAt (s.livePrices t.asset) t) row.max_loss
        ((pre ++ post).map (fun e => pnlAt (s.livePrices e.1.asset) e.1)) ∧
    (TradeServer.closeTrade s uid tid).account uid =
      some (((pre ++ post).map (fun e => pnlAt (s.livePrices e.1.asset) e.1)).foldl hubClose
        (hubClose row (pnlAt (s.livePrices t.asset) t))) := by
  rw [closeTrade_found s uid tid pre t p post h hid hpre]
  generalize hpnl : pnlAt (s.livePrices t.asset) t = pnl at hb ⊢
  unfold AccountServer.onCloseTrade
  simp only [account_closeRecord, account_touchUser, hrow, hb, if_true]
  unfold AccountServer.accountLocked TradeServer.onCloseAllTrades TradeServer.closeAllLoop
  simp only
  generalize hs2 : touchUser (emit (updateAccount (updateAccount
    (TradeServer.closeRecord (touchUser s uid) uid tid t (pre ++ post)) uid
    (fun r => { r with balance := r.balance + pnl })) uid
    (fun r => { r with status := false })) (Event.closeAllTrades uid)) uid = s2
  have ht2 : trades s2 uid = pre ++ post := by subst hs2; simp
  have hp2 : s2.livePrices = s.livePrices := by subst hs2; rfl
  have ha2 : s2.account uid = some (hubClose row pnl) := by
    subst hs2
    simp [hrow, hubClose, hb]
  have hc2 : closedPnls uid s2.out = closedPnls uid s.out ++ [pnl] := by
    subst hs2
    simp [closedPnls, hpnl]
  have hk2 : lockCount uid s2.out = lockCount uid s.out + 1 := by
    subst hs2
    simp [lockCount, List.count_cons]
  have hN := cascade_foldl uid _ s2 rfl
  generalize (((trades s2 uid).map Prod.fst).foldl
    (fun st t => TradeServer.closeTrade (readKey st uid t) uid t.tradeID) s2) = N at hN ⊢
  have hA := hN.silent_right (((silent_broadcastJson N uid Payload.accountLocked).next
    (silent_feedTrade _ uid pnl)).next (silent_notifyClosed _ uid tid pnl))
  have hl2 : livePnls s2 uid = (pre ++ post).map (fun e => pnlAt (s.livePrices e.1.asset) e.1) := by
    simp only [livePnls, ht2, hp2]
  refine ⟨hA.trades, ?_, ?_, ?_⟩
  · rw [hA.closed, hc2, hl2]
    simp
  · rw [hA.locks, hk2, ha2, hl2]
    simp [hubClose]
  · rw [hA.account, ha2, hl2]
    simp

theorem closeTrade_out (s : State) (uid : Int) (tid : String) (pre : TradeMap) (t : Trade)
    (p : ℚ) (post : TradeMap) (h : trades s uid = pre ++ (t, p) :: post)
    (hid : t.tradeID = tid) (hpre : ∀ e ∈ pre, e.1.tradeID ≠ tid) :
    ∃ more, (TradeServer.closeTrade s uid tid).out =
      s.out ++ [Event.historyUpdate tid (s.livePrices t.asset) (pnlAt (s.livePrices t.asset) t) s.now,
        Event.addTrade uid s.now.date ((s.livePrices t.asset - t.openPrice) / t.openPrice)
          |t.size * t.openPrice|,
        Event.tradeClosed uid (pnlAt (s.livePrices t.asset) t)] ++ more := by
  rw [closeTrade_found s uid tid pre t p post h hid hpre]
  obtain ⟨more, hmore⟩ := ((frame_onCloseTrade uid TradeServer.onCloseAllTrades
    (fun st => frame_closeAllLoop uid _ (fun st1 tid1 => frame_closeTrade st1 uid tid1) st)
    (TradeServer.closeRecord (touchUser s uid) uid tid t (pre ++ post))
    (pnlAt (s.livePrices t.asset) t)).andThen
    (frame_notifyClosed uid uid _ tid (pnlAt (s.livePrices t.asset) t))).out
  exact ⟨more, by rw [hmore]; simp⟩

/-! ## The slot `onCloseAllTrades` and the lock handling -/

theorem cascade_onCloseAllTrades (s : State) (uid : Int) :
    Cascade uid s (TradeServer.onCloseAllTrades s uid) := by
  unfold TradeServer.onCloseAllTrades TradeServer.closeAllLoop
  exact Cascade.of_silent_left (silent_touchUser s uid) (cascade_foldl uid _ _ rfl)

theorem frame_onCloseAllTrades (s : State) (uid : Int) :
    Frame uid s (TradeServer.onCloseAllTrades s uid) :=
  frame_closeAllLoop uid _ (fun st tid => frame_closeTrade st uid tid) s

theorem onCloseAllTrades_flat (s : State) (uid : Int) (h : trades s uid = []) :
    TradeServer.onCloseAllTrades s uid = touchUser s uid := by
  unfold TradeServer.onCloseAllTrades TradeServer.closeAllLoop
  simp [h]

/-! ## The limit check -/

theorem limitHit_iff (p : ℚ) (t : Trade) : limitHit p t = true ↔ touchTriggered p t := by
  unfold limitHit touchTriggered
  split <;> simp

theorem checkLimits_eq (s : State) (uid : Int) (asset : Asset) :
    TradeServer.checkLimits s uid asset =
      ((trades s uid).map Prod.fst).foldl (limitStep uid asset) (touchUser s uid) := by
  unfold TradeServer.checkLimits
  simp only [trades_touchUser]
  rfl

theorem frame_limitStep (uid : Int) (asset : Asset) (st : State) (t : Trade) :
    Frame uid st (limitStep uid asset st t) := by
  unfold limitStep
  split
  · exact frame_readKey _ _ _ _
  · split
    · exact (frame_readKey uid uid st t).andThen (frame_closeTrade _ _ _)
    · exact frame_readKey _ _ _ _

theorem frame_checkLimits (s : State) (uid : Int) (asset : Asset) :
    Frame uid s (TradeServer.checkLimits s uid asset) := by
  rw [checkLimits_eq]
  exact (frame_touchUser uid uid s).andThen (frame_foldl uid _ (frame_limitStep uid asset) _ _)

/-- Once the account is flat, the rest of the copy of the keys has no effect. -/
theorem foldl_limitStep_flat (uid : Int) (asset : Asset) (l : List Trade) (st : State)
    (h : trades st uid = []) :
    Silent st (l.foldl (limitStep uid asset) st) := by
  induction l generalizing st with
  | nil => exact Silent.idle st
  | cons a l ih =>
    simp only [List.foldl_cons]
    unfold limitStep
    split
    · exact (silent_readKey st uid a).next (ih _ (by simpa using h))
    · split
      · rw [closeTrade_flat (readKey st uid a) uid _ (by simpa using h)]
        exact ((silent_readKey st uid a).next (silent_touchUser _ uid)).next
          (ih _ (by simpa using h))
      · exact (silent_readKey st uid a).next (ih _ (by simpa using h))

theorem foldl_limitStep (uid : Int) (asset : Asset) (P : Asset → ℚ) (c0 : Nat)
    (todo : TradeMap) :
    ∀ (kept : TradeMap) (st : State),
      ((kept ++ todo).map (fun e => e.1.tradeID)).Nodup →
      st.livePrices = P → lockCount uid st.out = c0 → trades st uid = kept ++ todo →
      (lockCount uid ((todo.map Prod.fst).foldl (limitStep uid asset) st).out = c0 ∧
        trades ((todo.map Prod.fst).foldl (limitStep uid asset) st) uid =
          kept ++ todo.filter
            (fun e => decide (¬ (e.1.asset = asset ∧ touchTriggered (P asset) e.1)))) ∨
      (c0 < lockCount uid ((todo.map Prod.fst).foldl (limitStep uid asset) st).out ∧
        trades ((todo.map Prod.fst).foldl (limitStep uid asset) st) uid = []) := by
  induction todo with
  | nil =>
    intro kept st _ _ hc ht
    exact Or.inl ⟨hc, by simpa using ht⟩
  | cons e tl ih =>
    intro kept st hnd hP hc ht
    obtain ⟨t, p⟩ := e
    simp only [List.map_cons, List.foldl_cons]
    have hnd1 : (((kept ++ [(t, p)]) ++ tl).map (fun e => e.1.tradeID)).Nodup := by
      simpa using hnd
    have ht1 : trades st uid = (kept ++ [(t, p)]) ++ tl := by simpa using ht
    have hread : readKey st uid t = st :=
      readKey_of_mem st uid t p (by rw [ht]; simp)
    by_cases hkeep : t.asset = asset ∧ touchTriggered (P asset) t
    · have hhit : limitHit (st.livePrices asset) t = true := by
        rw [hP]
        exact (limitHit_iff _ _).2 hkeep.2
      have hstep : limitStep uid asset st t = TradeServer.closeTrade st uid t.tradeID := by
        unfold limitStep
        simp [hkeep.1, hhit, hread]
      rw [hstep]
      have hpre : ∀ e ∈ kept, e.1.tradeID ≠ t.tradeID := by
        intro e he heq
        have h1 : (kept.map (fun e => e.1.tradeID) ++
            (t.tradeID :: tl.map (fun e => e.1.tradeID))).Nodup := by simpa using hnd
        exact (List.nodup_append.1 h1).2.2 (List.mem_map.2 ⟨e, he, heq⟩)
          (List.mem_cons_self _ _)
      have hfilter : ((t, p) :: tl).filter
          (fun e => decide (¬ (e.1.asset = asset ∧ touchTriggered (P asset) e.1))) =
          tl.filter (fun e => decide (¬ (e.1.asset = asset ∧ touchTriggered (P asset) e.1))) := by
        rw [List.filter_cons_of_neg]
        simp only [decide_eq_true_eq, not_not]
        exact hkeep
      rw [hfilter]
      have hndt : ((kept ++ tl).map (fun e => e.1.tradeID)).Nodup := by
        have h1 : (kept.map (fun e => e.1.tradeID) ++
            (t.tradeID :: tl.map (fun e => e.1.tradeID))).Nodup := by simpa using hnd
        have h2 := List.nodup_append.1 h1
        simp only [List.map_append]
        refine List.nodup_append.2 ⟨h2.1, (List.nodup_cons.1 h2.2.1).2, ?_⟩
        intro a ha hb
        exact h2.2.2 ha (List.mem_cons_of_mem _ hb)
      have hPc : (TradeServer.closeTrade st uid t.tradeID).livePrices = P :=
        (frame_closeTrade st uid t.tradeID).livePrices.trans hP
      by_cases hlock : ∃ row, st.account uid = some row ∧
          row.balance + pnlAt (st.livePrices t.asset) t ≤ row.max_loss
      · obtain ⟨row, hrow, hb⟩ := hlock
        have hl := closeTrade_open_locked st uid t.tradeID kept t p tl ht rfl hpre row hrow hb
        have hsil := foldl_limitStep_flat uid asset (tl.map Prod.fst) _ hl.1
        refine Or.inr ⟨?_, ?_⟩
        · rw [hsil.locks, hl.2.2.1, hc]
          omega
        · rw [hsil.trades, hl.1]
      · have hf := closeTrade_open_free st uid t.tradeID kept t p tl ht rfl hpre
          (fun row hrow hb => hlock ⟨row, hrow, hb⟩)
        exact ih kept _ hndt hPc (hf.2.2.1.trans hc) hf.1
    · have hstep : limitStep uid asset st t = st := by
        unfold limitStep
        by_cases ha : t.asset = asset
        · have hnt : ¬ touchTriggered (P asset) t := fun h => hkeep ⟨ha, h⟩
          have hhit : limitHit (st.livePrices asset) t = false := by
            rw [hP]
            cases hh : limitHit (P asset) t
            · rfl
            · exact absurd ((limitHit_iff _ _).1 hh) hnt
          simp [ha, hhit, hread]
        · simp [ha, hread]
      rw [hstep]
      have hfilter : ((t, p) :: tl).filter
          (fun e => decide (¬ (e.1.asset = asset ∧ touchTriggered (P asset) e.1))) =
          (t, p) :: tl.filter
            (fun e => decide (¬ (e.1.asset = asset ∧ touchTriggered (P asset) e.1))) := by
        rw [List.filter_cons_of_pos]
        exact decide_eq_true hkeep
      rw [hfilter]
      have := ih (kept ++ [(t, p)]) st hnd1 hP hc ht1
      simpa using this

/-! ## Mark-to-market invariant -/

theorem foldl_add_eq_sum (l : List ℚ) (a : ℚ) :
    l.foldl (fun tot p => tot + p) a = a + l.sum := by
  induction l generalizing a with
  | nil => simp
  | cons x l ih => simp [ih, add_assoc]

theorem getTotalPnL_of_synced (s : State) (uid : Int) (h : Synced s) :
    TradeServer.getTotalPnL s uid = unrealizedPnL s uid := by
  unfold TradeServer.getTotalPnL unrealizedPnL
  rw [foldl_add_eq_sum, zero_add]
  congr 1
  apply List.map_congr_left
  intro e he
  rw [h uid e he]
  unfold pnlAt
  split <;> rfl

theorem Shrink.keep (s : State) : Shrink s s :=
  ⟨rfl, fun _ => List.Sublist.refl _⟩

theorem Shrink.seq {s s1 s2 : State} (h1 : Shrink s s1) (h2 : Shrink s1 s2) :
    Shrink s s2 :=
  ⟨h2.livePrices.trans h1.livePrices, fun u => (h2.sub u).trans (h1.sub u)⟩

theorem Frame.toShrink {uid : Int} {s s1 : State} (h : Frame uid s s1) : Shrink s s1 :=
  ⟨h.livePrices, fun u => by
    by_cases hu : u = uid
    · subst hu
      exact h.tradesSub
    · rw [h.tradesOther u hu]⟩

theorem shrink_of_eq {s s1 : State} (hp : s1.livePrices = s.livePrices)
    (ht : ∀ u, trades s1 u = trades s u) : Shrink s s1 :=
  ⟨hp, fun u => by rw [ht u]⟩

theorem Synced.preserved {s s1 : State} (h : Synced s) (hs : Shrink s s1) : Synced s1 := by
  intro uid e he
  rw [hs.livePrices]
  exact h uid e ((hs.sub uid).subset he)

theorem PartSync.kept {asset : Asset} {R : List Int} {s s1 : State}
    (h : PartSync asset R s) (hs : Shrink s s1) : PartSync asset R s1 := by
  intro uid e he
  rw [hs.livePrices]
  exact h uid e ((hs.sub uid).subset he)

theorem shrink_foldl {α : Type} (f : State → α → State) (hf : ∀ st a, Shrink st (f st a))
    (l : List α) (s : State) : Shrink s (l.foldl f s) := by
  induction l generalizing s with
  | nil => exact Shrink.keep s
  | cons a l ih => exact (hf s a).seq (ih _)

theorem mem_insertAt {α : Type} (n : Nat) (x y : α) (l : List α) :
    y ∈ insertAt n x l ↔ y = x ∨ y ∈ l := by
  induction l generalizing n with
  | nil => cases n <;> simp [insertAt]
  | cons a l ih =>
    cases n with
    | zero => simp [insertAt]
    | succ n =>
      simp only [insertAt, List.mem_cons, ih]
      tauto

theorem synced_onTextMessageReceived (s : State) (sock : Nat) (o : TradeServer.Msg)
    (slot : Nat) (h : Synced s) : Synced (TradeServer.onTextMessageReceived s sock o slot) := by
  unfold TradeServer.onTextMessageReceived
  split
  · exact h
  · split
    · exact h
    · split
      · intro uid e he
        simp only [trades_emit, trades_setTrades] at he
        simp only [livePrices_emit, livePrices_setTrades]
        by_cases hu : o.userID = uid
        · simp only [hu, if_true] at he
          rcases (mem_insertAt _ _ _ _).1 he with rfl | he
          · rfl
          · subst hu
            exact h _ e he
        · simp only [hu, if_false] at he
          exact h uid e he
      · split
        · exact h.preserved (frame_closeTrade _ _ _).toShrink
        · exact h

theorem shrink_tradeDashboardUpdate (s : State) (uid : Int) (asset : Asset) :
    Shrink s (TradeServer.tradeDashboardUpdate s uid asset) := by
  unfold TradeServer.tradeDashboardUpdate
  refine (Frame.toShrink (frame_touchUser uid uid s)).seq (shrink_foldl _ ?_ _ _)
  intro st e
  split
  · exact Shrink.keep st
  · exact shrink_of_eq rfl (fun _ => rfl)

theorem shrink_equityRound (asset : Asset) (st : State) (uid : Int) :
    Shrink st (TradeServer.equityRound asset st uid) := by
  unfold TradeServer.equityRound
  exact (((Frame.toShrink (frame_touchUser uid uid st)).seq
    (Frame.toShrink (frame_emit uid _ _))).seq
    (Frame.toShrink (frame_onEquityUpdate uid _ (fun s1 => frame_onCloseAllTrades s1 uid) _ _))).seq
    (shrink_tradeDashboardUpdate _ _ _)

theorem partSync_updateAssetPnL (asset : Asset) (uid : Int) (R : List Int) (s : State)
    (h : PartSync asset (uid :: R) s) :
    PartSync asset R (TradeServer.updateAssetPnL s uid asset) := by
  intro u e he
  unfold TradeServer.updateAssetPnL at he ⊢
  simp only [trades_setTrades, trades_touchUser, livePrices_setTrades,
    livePrices_touchUser] at he ⊢
  by_cases hu : uid = u
  · subst hu
    simp only [if_true] at he
    obtain ⟨e0, he0, rfl⟩ := List.mem_map.1 he
    by_cases ha : e0.1.asset = asset
    · left
      simp [ha]
    · have h0 := h uid e0 he0
      simp only [ne_eq, ha, not_false_eq_true, if_true]
      rcases h0 with h0 | ⟨h0, -⟩
      · exact Or.inl h0
      · exact absurd h0 ha
  · simp only [hu, if_false] at he
    rcases h u e he with h0 | ⟨h0, h1⟩
    · exact Or.inl h0
    · right
      refine ⟨h0, ?_⟩
      rcases List.mem_cons.1 h1 with h2 | h2
      · exact absurd h2.symm hu
      · exact h2

theorem partSync_riskLoop (asset : Asset) (R : List Int) (s : State)
    (h : PartSync asset R s) :
    Synced (R.foldl
      (fun st uid => TradeServer.updateAssetPnL (TradeServer.checkLimits st uid asset) uid asset)
      s) := by
  induction R generalizing s with
  | nil =>
    intro uid e he
    rcases h uid e he with h0 | ⟨-, h1⟩
    · exact h0
    · exact absurd h1 (List.not_mem_nil _)
  | cons uid R ih =>
    simp only [List.foldl_cons]
    exact ih _ (partSync_updateAssetPnL asset uid R _
      (h.kept (frame_checkLimits s uid asset).toShrink))

theorem pnlAt_setPrice_other (s : State) (asset : Asset) (px : ℚ) (t : Trade)
    (h : t.asset ≠ asset) :
    pnlAt ((setPrice s asset px).livePrices t.asset) t = pnlAt (s.livePrices t.asset) t := by
  simp [setPrice, Function.update, h]

theorem synced_riskPhase (s : State) (asset : Asset) (msg : TradeServer.TickMsg)
    (h : Synced s) : Synced (TradeServer.riskPhase s asset msg) := by
  unfold TradeServer.riskPhase TradeServer.riskLoop
  simp only
  apply partSync_riskLoop
  have h1 : PartSync asset (QMap.keys s.usersTradeMap)
      (setPrice s asset (TradeServer.extractClose msg)) := by
    intro uid e he
    have he0 : e ∈ trades s uid := he
    by_cases ha : e.1.asset = asset
    · right
      refine ⟨ha, QMap.mem_keys_of_value_ne s.usersTradeMap uid [] ?_⟩
      intro hnil
      unfold trades at he0
      rw [hnil] at he0
      exact absurd he0 (List.not_mem_nil _)
    · left
      rw [pnlAt_setPrice_other s asset _ e.1 ha]
      exact h uid e he0
  split
  · unfold TradeServer.benchmarkTick
    simp only
    split <;> split <;> exact h1
  · exact h1

theorem synced_step (s : State) (i : Clock × Input) (h : Synced s) : Synced (step s i) := by
  have h0 : Synced (setClock s i.1) := h
  unfold step
  simp only
  cases i.2 with
  | dashboardText sock o slot => exact synced_onTextMessageReceived _ sock o slot h0
  | dashboardDisconnected sock =>
    simp only
    unfold TradeServer.onSocketDisconnected
    simp only
    split <;> exact h0
  | accountText sock obj =>
    simp only
    unfold AccountServer.onTextMessageReceived
    split
    · exact h0
    · split <;> exact h0
  | accountDisconnected sock =>
    simp only
    unfold AccountServer.onSocketDisconnected
    simp only
    split
    · split <;> exact h0
    · exact h0
  | assetTick asset msg =>
    simp only
    unfold TradeServer.onAssetTick
    exact (synced_riskPhase _ asset msg h0).preserved
      (shrink_foldl _ (shrink_equityRound asset) _ _)

theorem synced_run (s : State) (is : List (Clock × Input)) (h : Synced s) :
    Synced (run s is) := by
  unfold run
  induction is generalizing s with
  | nil => exact h
  | cons i is ih => exact ih _ (synced_step s i h)

theorem synced_init (accounts : Int → Option AccountRow) (start : Clock) :
    Synced (init accounts start) := by
  intro uid e he
  exact absurd he (List.not_mem_nil _)

theorem synced_equity_rounds (asset : Asset) (l : List Int) (s : State) (h : Synced s) :
    Synced (l.foldl (TradeServer.equityRound asset) s) :=
  h.preserved (shrink_foldl _ (shrink_equityRound asset) l s)

theorem getTotalPnL_touchUser (s : State) (uid u : Int) :
    TradeServer.getTotalPnL (touchUser s u) uid = TradeServer.getTotalPnL s uid := by
  simp [TradeServer.getTotalPnL]

/-- The new-order branch of `TradeServer::onTextMessageReceived` does not
consult the account: a JSON object that is not a dashboard handshake and
carries the key `"newTrade"` opens a position for its user at the live price of
the asset, with stored P&L 0, whatever the row of the account says. -/
theorem newTrade_opens (s : State) (sock : Nat) (o : TradeServer.Msg)
    (slot : Nat) (hobj : o.isObject = true) (hconn : o.connection ≠ "tradeDashboard")
    (hnew : o.newTrade = true) :
    trades (TradeServer.onTextMessageReceived s sock o slot) o.userID =
      insertAt slot
        ({ tradeID := o.tradeID, stopLoss := o.stopLoss, takeProfit := o.takeProfit,
           size := o.size, asset := o.asset, openPrice := s.livePrices o.asset,
           type := o.type, position := o.position }, 0)
        (trades s o.userID) ∧
    (TradeServer.onTextMessageReceived s sock o slot).account = s.account := by
  unfold TradeServer.onTextMessageReceived
  simp [hobj, hconn, hnew, pnlAt]

/-! ## What the handlers append to the log -/

theorem Appends.nothing (P : Event → Bool) (s : State) : Appends P s s :=
  ⟨[], by simp, by simp⟩

theorem Appends.chain {P : Event → Bool} {s s1 s2 : State} (h1 : Appends P s s1)
    (h2 : Appends P s1 s2) : Appends P s s2 := by
  obtain ⟨n1, e1, p1⟩ := h1
  obtain ⟨n2, e2, p2⟩ := h2
  refine ⟨n1 ++ n2, by rw [e2, e1, List.append_assoc], ?_⟩
  intro e he
  rcases List.mem_append.1 he with h | h
  · exact p1 e h
  · exact p2 e h

theorem Appends.weaken {P Q : Event → Bool} {s s1 : State} (h : Appends P s s1)
    (hPQ : ∀ e, P e = true → Q e = true) : Appends Q s s1 := by
  obtain ⟨n, e, p⟩ := h
  exact ⟨n, e, fun x hx => hPQ x (p x hx)⟩

theorem appends_of_out_eq (P : Event → Bool) {s s1 : State} (h : s1.out = s.out) :
    Appends P s s1 :=
  ⟨[], by simp [h], by simp⟩

theorem appends_touchUser (P : Event → Bool) (s : State) (u : Int) :
    Appends P s (touchUser s u) :=
  appends_of_out_eq P rfl

theorem appends_setTrades (P : Event → Bool) (s : State) (u : Int) (m : TradeMap) :
    Appends P s (setTrades s u m) :=
  appends_of_out_eq P rfl

theorem appends_updateAccount (P : Event → Bool) (s : State) (u : Int)
    (f : AccountRow → AccountRow) : Appends P s (updateAccount s u f) :=
  appends_of_out_eq P rfl

theorem appends_readKey (P : Event → Bool) (s : State) (u : Int) (t : Trade) :
    Appends P s (readKey s u t) :=
  appends_of_out_eq P (out_readKey s u t)

theorem appends_emit (P : Event → Bool) (s : State) (e : Event) (h : P e = true) :
    Appends P s (emit s e) :=
  ⟨[e], rfl, by simpa using h⟩

theorem appends_emitAll (P : Event → Bool) (s : State) (es : List Event)
    (h : ∀ e ∈ es, P e = true) : Appends P s (emitAll s es) :=
  ⟨es, rfl, h⟩

theorem appends_foldl {α : Type} (P : Event → Bool) (f : State → α → State)
    (hf : ∀ st a, Appends P st (f st a)) (l : List α) (s : State) :
    Appends P s (l.foldl f s) := by
  induction l generalizing s with
  | nil => exact Appends.nothing _ _
  | cons a l ih => exact (hf s a).chain (ih _)

theorem appends_broadcastJson (P : Event → Bool) (s : State) (uid : Int) (obj : Payload)
    (h : ∀ ws, P (Event.hubSend ws obj) = true) :
    Appends P s (AccountServer.broadcastJson s uid obj) := by
  unfold AccountServer.broadcastJson
  split
  · refine appends_emitAll _ _ _ ?_
    intro e he
    obtain ⟨ws, -, rfl⟩ := List.mem_map.1 he
    exact h ws
  · exact Appends.nothing _ _

theorem appends_accountLocked (ca : State → Int → State) (uid : Int)
    (hca : ∀ st, Appends closeEvent st (ca st uid)) (s : State) :
    Appends closeEvent s (AccountServer.accountLocked ca s uid) := by
  unfold AccountServer.accountLocked
  exact (((appends_updateAccount _ s uid _).chain (appends_emit _ _ _ rfl)).chain (hca _)).chain
    (appends_broadcastJson _ _ uid Payload.accountLocked (fun _ => rfl))

theorem appends_feedTrade (s : State) (uid : Int) (pnl : ℚ) :
    Appends closeEvent s (AccountServer.feedTrade s uid pnl) := by
  unfold AccountServer.feedTrade
  simp only
  split
  · exact appends_emit _ _ _ rfl
  · exact Appends.nothing _ _

theorem appends_onCloseTrade (ca : State → Int → State) (uid : Int)
    (hca : ∀ st, Appends closeEvent st (ca st uid)) (s : State) (pnl : ℚ) :
    Appends closeEvent s (AccountServer.onCloseTrade ca s uid pnl) := by
  unfold AccountServer.onCloseTrade
  cases hrow : s.account uid with
  | none => exact Appends.nothing _ _
  | some row =>
    simp only
    refine Appends.chain ?_ (appends_feedTrade _ _ _)
    split
    · exact (appends_updateAccount _ s uid _).chain (appends_accountLocked ca uid hca _)
    · exact (appends_updateAccount _ s uid _).chain
        (appends_broadcastJson _ _ uid Payload.tradeClosed (fun _ => rfl))

theorem appends_closeAllLoop (c : State → Int → String → State) (uid : Int)
    (hc : ∀ st tid, Appends closeEvent st (c st uid tid)) (s : State) :
    Appends closeEvent s (TradeServer.closeAllLoop c s uid) := by
  unfold TradeServer.closeAllLoop
  exact (appends_touchUser _ s uid).chain
    (appends_foldl _ _ (fun st t => (appends_readKey _ st uid t).chain (hc _ _)) _ _)

theorem appends_closeRecord (s : State) (uid : Int) (tid : String) (t : Trade)
    (rest : TradeMap) : Appends closeEvent s (TradeServer.closeRecord s uid tid t rest) := by
  unfold TradeServer.closeRecord
  exact (((appends_emit _ _ _ rfl).chain (appends_emit _ _ _ rfl)).chain
    (appends_setTrades _ _ uid rest)).chain (appends_emit _ _ _ rfl)

theorem appends_notifyClosed (s : State) (uid : Int) (tid : String) (pnl : ℚ) :
    Appends closeEvent s (TradeServer.notifyClosed s uid tid pnl) := by
  unfold TradeServer.notifyClosed
  split
  · refine appends_emitAll _ _ _ ?_
    intro e he
    obtain ⟨ws, -, rfl⟩ := List.mem_map.1 he
    rfl
  · exact Appends.nothing _ _

theorem appends_closeTradeFuel (n : Nat) (s : State) (uid : Int) (tid : String) :
    Appends closeEvent s (TradeServer.closeTradeFuel n s uid tid) := by
  induction n generalizing s tid with
  | zero => exact Appends.nothing _ _
  | succ n ih =>
    unfold TradeServer.closeTradeFuel
    simp only
    cases hfind : findTrade tid (trades (touchUser s uid) uid) with
    | none => exact appends_touchUser _ _ _
    | some r =>
      obtain ⟨t, rest⟩ := r
      simp only
      exact (((appends_touchUser _ s uid).chain (appends_closeRecord _ uid tid t rest)).chain
        (appends_onCloseTrade _ uid
          (fun st => appends_closeAllLoop _ uid (fun st1 tid1 => ih st1 tid1) st) _ _)).chain
        (appends_notifyClosed _ _ _ _)

theorem appends_closeTrade (s : State) (uid : Int) (tid : String) :
    Appends closeEvent s (TradeServer.closeTrade s uid tid) :=
  appends_closeTradeFuel _ s uid tid

theorem appends_onCloseAllTrades (s : State) (uid : Int) :
    Appends closeEvent s (TradeServer.onCloseAllTrades s uid) :=
  appends_closeAllLoop _ uid (fun st tid => appends_closeTrade st uid tid) s

theorem appends_checkLimits (s : State) (uid : Int) (asset : Asset) :
    Appends closeEvent s (TradeServer.checkLimits s uid asset) := by
  rw [checkLimits_eq]
  refine (appends_touchUser _ s uid).chain (appends_foldl _ _ ?_ _ _)
  intro st t
  unfold limitStep
  split
  · exact appends_readKey _ _ _ _
  · split
    · exact (appends_readKey _ st uid t).chain (appends_closeTrade _ _ _)
    · exact appends_readKey _ _ _ _

theorem appends_riskLoop (s : State) (asset : Asset) :
    Appends closeEvent s (TradeServer.riskLoop s asset) := by
  unfold TradeServer.riskLoop
  refine appends_foldl _ _ ?_ _ _
  intro st uid
  exact (appends_checkLimits st uid asset).chain (appends_of_out_eq _ rfl)

/-! ## Equity updates and equity messages in the log -/

@[simp] theorem equityUpdates_append (l1 l2 : List Event) :
    equityUpdates (l1 ++ l2) = equityUpdates l1 ++ equityUpdates l2 := by
  simp [equityUpdates, List.filterMap_append]

@[simp] theorem equitySends_append (l1 l2 : List Event) :
    equitySends (l1 ++ l2) = equitySends l1 ++ equitySends l2 := by
  simp [equitySends, List.filterMap_append]

theorem equityUpdates_closeEvents (l : List Event) (h : ∀ e ∈ l, closeEvent e = true) :
    equityUpdates l = [] := by
  induction l with
  | nil => rfl
  | cons a l ih =>
    have ha : closeEvent a = true := h a (List.mem_cons_self _ _)
    have hl : equityUpdates l = [] := ih (fun e he => h e (List.mem_cons_of_mem _ he))
    have hsplit : equityUpdates (a :: l) = equityUpdates [a] ++ equityUpdates l :=
      equityUpdates_append [a] l
    rw [hsplit, hl]
    cases a <;> first | rfl | simp [closeEvent] at ha

theorem equitySends_closeEvents (l : List Event) (h : ∀ e ∈ l, closeEvent e = true) :
    equitySends l = [] := by
  induction l with
  | nil => rfl
  | cons a l ih =>
    have ha : closeEvent a = true := h a (List.mem_cons_self _ _)
    have hl : equitySends l = [] := ih (fun e he => h e (List.mem_cons_of_mem _ he))
    have hsplit : equitySends (a :: l) = equitySends [a] ++ equitySends l :=
      equitySends_append [a] l
    rw [hsplit, hl]
    cases a with
    | hubSend ws p => cases p <;> first | rfl | simp [closeEvent] at ha
    | _ => rfl

theorem equityUpdates_of_appends {s s1 : State} (h : Appends closeEvent s s1) :
    equityUpdates s1.out = equityUpdates s.out := by
  obtain ⟨new, e, p⟩ := h
  rw [e, equityUpdates_append, equityUpdates_closeEvents new p, List.append_nil]

theorem equitySends_of_appends {s s1 : State} (h : Appends closeEvent s s1) :
    equitySends s1.out = equitySends s.out := by
  obtain ⟨new, e, p⟩ := h
  rw [e, equitySends_append, equitySends_closeEvents new p, List.append_nil]

theorem mem_out_of_appends {P : Event → Bool} {s s1 : State} (h : Appends P s s1) {e : Event}
    (he : e ∈ s.out) : e ∈ s1.out := by
  obtain ⟨new, hout, -⟩ := h
  rw [hout]
  exact List.mem_append_left _ he

@[simp] theorem equityUpdates_map_hubSend (l : List Nat) (obj : Payload) :
    equityUpdates (l.map (fun ws => Event.hubSend ws obj)) = [] := by
  induction l with
  | nil => rfl
  | cons a l ih => simp [equityUpdates]

@[simp] theorem equityUpdates_map_tradeSend (l : List Nat) (obj : Payload) :
    equityUpdates (l.map (fun ws => Event.tradeSend ws obj)) = [] := by
  induction l with
  | nil => rfl
  | cons a l ih => simp [equityUpdates]

theorem equitySends_map_equity (l : List Nat) (x : ℚ) :
    equitySends (l.map (fun ws => Event.hubSend ws (Payload.equity x))) =
      l.map (fun ws => (ws, x)) := by
  induction l with
  | nil => rfl
  | cons a l ih => simpa [equitySends] using ih

theorem equityUpdates_broadcastJson (s : State) (uid : Int) (obj : Payload) :
    equityUpdates (AccountServer.broadcastJson s uid obj).out = equityUpdates s.out := by
  unfold AccountServer.broadcastJson
  split
  · simp
  · rfl

theorem equitySends_broadcast_equity (s : State) (uid : Int) (x : ℚ) :
    equitySends (AccountServer.broadcastJson s uid (Payload.equity x)).out =
      equitySends s.out ++ (fanOut s uid).map (fun ws => (ws, x)) := by
  unfold AccountServer.broadcastJson fanOut
  by_cases h : QMap.contains s.hubSessions uid = true
  · simp [h, equitySends_map_equity]
  · have h1 : QMap.contains s.hubSessions uid = false := by simpa using h
    simp [h1, QMap.value_of_not_contains _ _ _ h1]

theorem equityUpdates_onEquityUpdate (s : State) (uid : Int) (totalPnL : ℚ) :
    equityUpdates (AccountServer.onEquityUpdate TradeServer.onCloseAllTrades s uid totalPnL).out =
      equityUpdates s.out := by
  unfold AccountServer.onEquityUpdate
  cases hrow : s.account uid with
  | none => rfl
  | some row =>
    simp only
    split
    · exact equityUpdates_of_appends ((appends_updateAccount _ s uid _).chain
        (appends_accountLocked _ uid (fun st => appends_onCloseAllTrades st uid) _))
    · exact equityUpdates_broadcastJson _ _ _

theorem equityUpdates_foldl_keep {α : Type} (f : State → α → State)
    (hf : ∀ st a, equityUpdates (f st a).out = equityUpdates st.out) (l : List α) (s : State) :
    equityUpdates (l.foldl f s).out = equityUpdates s.out := by
  induction l generalizing s with
  | nil => rfl
  | cons a l ih => exact (ih _).trans (hf s a)

theorem equityUpdates_tradeDashboardUpdate (s : State) (uid : Int) (asset : Asset) :
    equityUpdates (TradeServer.tradeDashboardUpdate s uid asset).out = equityUpdates s.out := by
  unfold TradeServer.tradeDashboardUpdate
  refine (equityUpdates_foldl_keep _ ?_ _ _).trans rfl
  intro st e
  split
  · rfl
  · simp

theorem equityUpdates_equityRound (asset : Asset) (st : State) (uid : Int) :
    equityUpdates (TradeServer.equityRound asset st uid).out = equityUpdates st.out ++ [uid] := by
  unfold TradeServer.equityRound
  simp only
  rw [equityUpdates_tradeDashboardUpdate, equityUpdates_onEquityUpdate]
  simp [equityUpdates]

theorem equityUpdates_rounds (asset : Asset) (l : List Int) (s : State) :
    equityUpdates (l.foldl (TradeServer.equityRound asset) s).out = equityUpdates s.out ++ l := by
  induction l generalizing s with
  | nil => simp
  | cons u l ih => rw [List.foldl_cons, ih, equityUpdates_equityRound, List.append_assoc]; rfl

theorem hubSessions_riskLoop (s : State) (asset : Asset) :
    (TradeServer.riskLoop s asset).hubSessions = s.hubSessions := by
  unfold TradeServer.riskLoop
  generalize QMap.keys s.usersTradeMap = l
  induction l generalizing s with
  | nil => rfl
  | cons u l ih =>
    rw [List.foldl_cons, ih]
    exact (frame_checkLimits s u asset).hubSessions

theorem hubSessions_riskPhase (s : State) (asset : Asset) (msg : TradeServer.TickMsg) :
    (TradeServer.riskPhase s asset msg).hubSessions = s.hubSessions := by
  unfold TradeServer.riskPhase
  simp only
  rw [hubSessions_riskLoop]
  split
  · unfold TradeServer.benchmarkTick
    simp only
    split <;> split <;> rfl
  · rfl

theorem equityUpdates_riskPhase (s : State) (asset : Asset) (msg : TradeServer.TickMsg) :
    equityUpdates (TradeServer.riskPhase s asset msg).out = equityUpdates s.out := by
  unfold TradeServer.riskPhase
  simp only
  rw [equityUpdates_of_appends (appends_riskLoop _ asset)]
  split
  · unfold TradeServer.benchmarkTick
    simp only
    split <;> split <;> simp [emit, setPrice, equityUpdates]
  · rfl

theorem lockCount_accountLocked (ca : State → Int → State) (uid : Int)
    (hca : ∀ st, Appends closeEvent st (ca st uid)) (s : State) :
    lockCount uid s.out < lockCount uid (AccountServer.accountLocked ca s uid).out := by
  have h : Appends closeEvent
      (emit (updateAccount s uid (fun r => { r with status := false })) (Event.closeAllTrades uid))
      (AccountServer.accountLocked ca s uid) := by
    unfold AccountServer.accountLocked
    exact (hca _).chain (appends_broadcastJson _ _ uid Payload.accountLocked (fun _ => rfl))
  obtain ⟨new, hout, -⟩ := h
  rw [hout]
  simp [lockCount, List.count_append]

/-! ## The session registry of the hub -/

theorem QMap.value_remove {V : Type} (m : List (Int × V)) (k k1 : Int) (d : V) :
    QMap.value (QMap.remove m k) k1 d = if k = k1 then d else QMap.value m k1 d := by
  induction m with
  | nil => simp [QMap.remove, QMap.value]
  | cons hd tl ih =>
    obtain ⟨k0, v0⟩ := hd
    unfold QMap.remove at ih ⊢
    by_cases h0 : k0 = k
    · subst h0
      rw [List.filter_cons_of_neg (by simp), ih]
      by_cases h1 : k0 = k1
      · simp [h1]
      · simp [QMap.value, h1]
    · rw [List.filter_cons_of_pos (by simpa using h0)]
      by_cases h1 : k0 = k1
      · have h2 : k ≠ k1 := fun h => h0 (h1.trans h.symm)
        simp [QMap.value, h1, h2]
      · simp only [QMap.value, h1, if_false, ih]

theorem out_broadcastJson (s : State) (uid : Int) (obj : Payload) :
    (AccountServer.broadcastJson s uid obj).out =
      s.out ++ (fanOut s uid).map (fun ws => Event.hubSend ws obj) := by
  unfold AccountServer.broadcastJson fanOut
  by_cases h : QMap.contains s.hubSessions uid = true
  · simp [h]
  · have h1 : QMap.contains s.hubSessions uid = false := by simpa using h
    simp [h1, QMap.value_of_not_contains _ _ _ h1]

theorem fanOut_registerSocket (s : State) (sock : Nat) (uid u : Int) :
    fanOut (registerSocket s sock uid) u =
      if uid = u then fanOut s uid ++ [sock] else fanOut s u := by
  unfold registerSocket AccountServer.onTextMessageReceived fanOut
  simp [QMap.value_insert]

theorem hubSocketUser_registerSocket (s : State) (sock : Nat) (uid : Int) :
    (registerSocket s sock uid).hubSocketUser =
      Function.update s.hubSocketUser sock (some uid) := by
  unfold registerSocket AccountServer.onTextMessageReceived
  simp

theorem out_registerSocket (s : State) (sock : Nat) (uid : Int) :
    (registerSocket s sock uid).out = s.out := by
  unfold registerSocket AccountServer.onTextMessageReceived
  simp

theorem fanOut_onSocketDisconnected (s : State) (sock : Nat) (u : Int) :
    fanOut (AccountServer.onSocketDisconnected s sock) u =
      if (s.hubSocketUser sock).getD 0 ≠ 0 ∧ (s.hubSocketUser sock).getD 0 = u then
        (fanOut s u).erase sock
      else fanOut s u := by
  unfold AccountServer.onSocketDisconnected fanOut
  simp only
  generalize (s.hubSocketUser sock).getD 0 = uid
  by_cases h0 : uid = 0
  · simp [h0]
  · simp only [ne_eq, h0, not_false_eq_true, if_true, true_and]
    by_cases hl : ((QMap.value s.hubSessions uid []).erase sock).isEmpty = true
    · simp only [hl, if_true, QMap.value_remove]
      by_cases hu : uid = u
      · subst hu
        simp only [if_true]
        exact (List.isEmpty_iff.1 hl).symm
      · simp [hu]
    · simp only [hl, if_false]
      by_cases hu : uid = u
      · subst hu
        simp [QMap.value_insert]
      · simp [QMap.value_insert, hu]

/-! ## The regression of `AlphaCalculator::computeAlpha` -/

theorem foldl_add_map {α : Type} (f : α → ℚ) (l : List α) (a : ℚ) :
    l.foldl (fun s x => s + f x) a = a + (l.map f).sum := by
  induction l generalizing a with
  | nil => simp
  | cons x l ih => simp [ih, add_assoc]

theorem mean_eq_sampleMean (v : List ℚ) : AlphaCalculator.mean v = sampleMean v := by
  unfold AlphaCalculator.mean sampleMean
  rw [foldl_add_eq_sum, zero_add]

theorem cast_length_pred {α : Type} (l : List α) (h : 1 ≤ l.length) :
    ((l.length - 1 : Nat) : ℚ) = (l.length : ℚ) - 1 := by
  rw [Nat.cast_sub h, Nat.cast_one]

theorem variance_eq_sampleVariance (x : List ℚ) (h : 1 ≤ x.length) :
    AlphaCalculator.variance x (AlphaCalculator.mean x) = sampleVariance x := by
  unfold AlphaCalculator.variance sampleVariance
  rw [foldl_add_map (fun v => (v - AlphaCalculator.mean x) * (v - AlphaCalculator.mean x)),
    zero_add, cast_length_pred x h, mean_eq_sampleMean]
  congr 2
  apply List.map_congr_left
  intro v _
  ring

theorem covariance_eq_sampleCovariance (x y : List ℚ) (h : 1 ≤ x.length) :
    AlphaCalculator.covariance x y (AlphaCalculator.mean x) (AlphaCalculator.mean y) =
      sampleCovariance x y := by
  unfold AlphaCalculator.covariance sampleCovariance
  rw [foldl_add_map
      (fun p : ℚ × ℚ => (p.1 - AlphaCalculator.mean x) * (p.2 - AlphaCalculator.mean y)),
    zero_add, cast_length_pred x h, mean_eq_sampleMean, mean_eq_sampleMean]

theorem sum_sq_nonneg (l : List ℚ) (m : ℚ) : 0 ≤ (l.map (fun v => (v - m) ^ 2)).sum := by
  induction l with
  | nil => simp
  | cons a l ih =>
    simp only [List.map_cons, List.sum_cons]
    exact add_nonneg (sq_nonneg _) ih

theorem eq_of_sum_sq_eq_zero (l : List ℚ) (m : ℚ)
    (h : (l.map (fun v => (v - m) ^ 2)).sum = 0) : ∀ v ∈ l, v = m := by
  induction l with
  | nil => intro v hv; cases hv
  | cons a l ih =>
    simp only [List.map_cons, List.sum_cons] at h
    have h1 : 0 ≤ (a - m) ^ 2 := sq_nonneg _
    have h2 : 0 ≤ (l.map (fun v => (v - m) ^ 2)).sum := sum_sq_nonneg l m
    have ha : (a - m) ^ 2 = 0 := by linarith
    have hl : (l.map (fun v => (v - m) ^ 2)).sum = 0 := by linarith
    intro v hv
    rcases List.mem_cons.1 hv with rfl | hv
    · exact sub_eq_zero.1 (pow_eq_zero_iff (by decide) |>.1 ha)
    · exact ih hl v hv

theorem sampleVariance_ne_zero (x : List ℚ) (h : 2 ≤ x.length)
    (hvar : ∃ a ∈ x, ∃ b ∈ x, a ≠ b) : sampleVariance x ≠ 0 := by
  unfold sampleVariance
  have hden : (x.length : ℚ) - 1 ≠ 0 := by
    have : (2 : ℚ) ≤ (x.length : ℚ) := by exact_mod_cast h
    intro h0
    linarith
  intro h0
  rcases div_eq_zero_iff.1 h0 with hnum | hd
  · obtain ⟨a, ha, b, hb, hne⟩ := hvar
    have hall := eq_of_sum_sq_eq_zero x (sampleMean x) hnum
    exact hne ((hall a ha).trans (hall b hb).symm)
  · exact hden hd

theorem computeAlpha_emits (c : AlphaCalculator.Calc) (u : Int)
    (hN : 3 ≤ (AlphaCalculator.window (QMap.value c.buckets u [])).length) :
    (AlphaCalculator.computeAlpha c u).alphaUpdated =
      c.alphaUpdated ++
        [(u, (AlphaCalculator.fdiv
          (sampleCovariance
            ((AlphaCalculator.window (QMap.value c.buckets u [])).map AlphaCalculator.Pair.rp)
            ((AlphaCalculator.window (QMap.value c.buckets u [])).map AlphaCalculator.Pair.rb))
          (sampleVariance
            ((AlphaCalculator.window (QMap.value c.buckets u [])).map
              AlphaCalculator.Pair.rb))).map
          (fun b =>
            sampleMean
              ((AlphaCalculator.window (QMap.value c.buckets u [])).map AlphaCalculator.Pair.rp) -
            b * sampleMean
              ((AlphaCalculator.window (QMap.value c.buckets u [])).map
                AlphaCalculator.Pair.rb)))] := by
  unfold AlphaCalculator.computeAlpha
  simp only
  rw [if_neg (by omega)]
  have h1 : 1 ≤ ((AlphaCalculator.window (QMap.value c.buckets u [])).map
      AlphaCalculator.Pair.rp).length := by rw [List.length_map]; omega
  have h2 : 1 ≤ ((AlphaCalculator.window (QMap.value c.buckets u [])).map
      AlphaCalculator.Pair.rb).length := by rw [List.length_map]; omega
  rw [covariance_eq_sampleCovariance _ _ h1, variance_eq_sampleVariance _ h2,
    mean_eq_sampleMean, mean_eq_sampleMean]

/-! ## Emission of `alphaUpdated` -/

theorem computeAlpha_short (c : AlphaCalculator.Calc) (u : Int)
    (h : (AlphaCalculator.window (QMap.value c.buckets u [])).length < 3) :
    (AlphaCalculator.computeAlpha c u).alphaUpdated = c.alphaUpdated := by
  unfold AlphaCalculator.computeAlpha
  simp only
  rw [if_pos h]

theorem computeAlpha_long (c : AlphaCalculator.Calc) (u : Int)
    (h : 3 ≤ (AlphaCalculator.window (QMap.value c.buckets u [])).length) :
    (AlphaCalculator.computeAlpha c u).alphaUpdated =
      c.alphaUpdated ++ [(u, windowAlpha (AlphaCalculator.window (QMap.value c.buckets u [])))] := by
  unfold AlphaCalculator.computeAlpha
  simp only
  rw [if_neg (by omega)]
  rfl

theorem value_buckets_computeAlpha (c : AlphaCalculator.Calc) (u v : Int) :
    QMap.value (AlphaCalculator.computeAlpha c u).buckets v [] = QMap.value c.buckets v [] := by
  unfold AlphaCalculator.computeAlpha
  simp only
  split <;> exact QMap.value_touch _ _ _ _

theorem addBenchmark_emits (c : AlphaCalculator.Calc) (u d : Int) (rb w : ℚ) :
    ((AlphaCalculator.window
        (QMap.value (AlphaCalculator.addBenchmark c u d rb w).buckets u [])).length < 3 →
      (AlphaCalculator.addBenchmark c u d rb w).alphaUpdated = c.alphaUpdated) ∧
    ((AlphaCalculator.addBenchmark c u d rb w).alphaUpdated = c.alphaUpdated ∨
      (AlphaCalculator.addBenchmark c u d rb w).alphaUpdated =
        c.alphaUpdated ++
          [(u, windowAlpha (AlphaCalculator.window
            (QMap.value (AlphaCalculator.addBenchmark c u d rb w).buckets u [])))]) := by
  unfold AlphaCalculator.addBenchmark
  simp only
  split
  · rw [value_buckets_computeAlpha]
    constructor
    · intro h
      exact computeAlpha_short _ u h
    · by_cases h : (AlphaCalculator.window (QMap.value
          (AlphaCalculator.setBucket c u d
            { wRp := (AlphaCalculator.bucketAt c u d).wRp,
              wRb := (AlphaCalculator.bucketAt c u d).wRb + w * rb,
              w := (AlphaCalculator.bucketAt c u d).w + w }).buckets u [])).length < 3
      · exact Or.inl (computeAlpha_short _ u h)
      · exact Or.inr (computeAlpha_long _ u (by omega))
  · exact ⟨fun _ => rfl, Or.inl rfl⟩

/-! ## A window on a line -/

theorem sum_map_affine {α : Type} (f : α → ℚ) (a b : ℚ) (l : List α) :
    (l.map (fun p => a + b * f p)).sum = (l.length : ℚ) * a + b * (l.map f).sum := by
  induction l with
  | nil => simp
  | cons x l ih =>
    simp only [List.map_cons, List.sum_cons, List.length_cons, ih]
    push_cast
    ring

theorem sampleMean_on_line (pts : List AlphaCalculator.Pair) (a b : ℚ) (hlen : 1 ≤ pts.length)
    (hline : ∀ p ∈ pts, p.rp = a + b * p.rb) :
    sampleMean (pts.map AlphaCalculator.Pair.rp) =
      a + b * sampleMean (pts.map AlphaCalculator.Pair.rb) := by
  have hmap : pts.map AlphaCalculator.Pair.rp = pts.map (fun p => a + b * p.rb) :=
    List.map_congr_left hline
  have hN : (pts.length : ℚ) ≠ 0 := by
    have : (1 : ℚ) ≤ (pts.length : ℚ) := by exact_mod_cast hlen
    intro h0
    linarith
  unfold sampleMean
  rw [hmap, sum_map_affine, List.length_map, List.length_map]
  field_simp
  ring

theorem sampleCovariance_on_line (pts : List AlphaCalculator.Pair) (a b : ℚ)
    (hlen : 1 ≤ pts.length) (hline : ∀ p ∈ pts, p.rp = a + b * p.rb) :
    sampleCovariance (pts.map AlphaCalculator.Pair.rp) (pts.map AlphaCalculator.Pair.rb) =
      b * sampleVariance (pts.map AlphaCalculator.Pair.rb) := by
  have hmean := sampleMean_on_line pts a b hlen hline
  unfold sampleCovariance sampleVariance
  rw [List.zip_map', List.map_map, List.map_map, hmean, List.length_map, List.length_map,
    ← mul_div_assoc, ← List.sum_map_mul_left]
  congr 2
  apply List.map_congr_left
  intro p hp
  simp only [Function.comp]
  rw [hline p hp]
  ring

theorem window_on_line (pts : List AlphaCalculator.Pair) (a b : ℚ) (hlen : 2 ≤ pts.length)
    (hvar : ∃ p ∈ pts, ∃ q ∈ pts, p.rb ≠ q.rb) (hline : ∀ p ∈ pts, p.rp = a + b * p.rb) :
    windowBeta pts = some b ∧ windowAlpha pts = some a := by
  have hne : sampleVariance (pts.map AlphaCalculator.Pair.rb) ≠ 0 := by
    apply sampleVariance_ne_zero
    · rw [List.length_map]
      exact hlen
    · obtain ⟨p, hp, q, hq, hpq⟩ := hvar
      exact ⟨p.rb, List.mem_map.2 ⟨p, hp, rfl⟩, q.rb, List.mem_map.2 ⟨q, hq, rfl⟩, hpq⟩
  have h1 : 1 ≤ (pts.map AlphaCalculator.Pair.rp).length := by rw [List.length_map]; omega
  have h2 : 1 ≤ (pts.map AlphaCalculator.Pair.rb).length := by rw [List.length_map]; omega
  have hbeta : windowBeta pts = some b := by
    unfold windowBeta
    simp only
    rw [covariance_eq_sampleCovariance _ _ h1, variance_eq_sampleVariance _ h2,
      sampleCovariance_on_line pts a b (by omega) hline]
    unfold AlphaCalculator.fdiv
    rw [if_neg hne, mul_div_assoc, div_self hne, mul_one]
  refine ⟨hbeta, ?_⟩
  have hbeta1 : AlphaCalculator.fdiv
      (AlphaCalculator.covariance (pts.map AlphaCalculator.Pair.rp)
        (pts.map AlphaCalculator.Pair.rb)
        (AlphaCalculator.mean (pts.map AlphaCalculator.Pair.rp))
        (AlphaCalculator.mean (pts.map AlphaCalculator.Pair.rb)))
      (AlphaCalculator.variance (pts.map AlphaCalculator.Pair.rb)
        (AlphaCalculator.mean (pts.map AlphaCalculator.Pair.rb))) = some b := hbeta
  unfold windowAlpha
  simp only
  rw [hbeta1, mean_eq_sampleMean, mean_eq_sampleMean, sampleMean_on_line pts a b (by omega) hline]
  simp

/-! ## Buckets under repeated calls of `addTrade` -/

theorem QMap.insert_insert {V : Type} (m : List (Int × V)) (k : Int) (v1 v2 : V) :
    QMap.insert (QMap.insert m k v1) k v2 = QMap.insert m k v2 := by
  induction m with
  | nil => simp [QMap.insert]
  | cons hd tl ih =>
    obtain ⟨k0, v0⟩ := hd
    by_cases h0 : k0 = k
    · simp [QMap.insert, h0]
    · by_cases h1 : k < k0
      · simp [QMap.insert, h0, h1]
      · simp [QMap.insert, h0, h1, ih]

theorem QMap.insert_touch {V : Type} (m : List (Int × V)) (k : Int) (d v : V) :
    QMap.insert (QMap.touch m k d) k v = QMap.insert m k v := by
  unfold QMap.touch
  split
  · rfl
  · exact QMap.insert_insert m k d v

theorem QMap.contains_of_value_contains {V : Type} (m : List (Int × List (Int × V))) (u d : Int)
    (h : QMap.contains (QMap.value m u []) d = true) : QMap.contains m u = true := by
  by_contra hc
  have hc1 : QMap.contains m u = false := by simpa using hc
  rw [QMap.value_of_not_contains m u [] hc1] at h
  simp [QMap.contains] at h

theorem bucketAt_setBucket (c : AlphaCalculator.Calc) (u d : Int) (b : AlphaCalculator.Bucket) :
    AlphaCalculator.bucketAt (AlphaCalculator.setBucket c u d b) u d = b := by
  unfold AlphaCalculator.bucketAt AlphaCalculator.setBucket
  simp [QMap.value_insert]

theorem setBucket_setBucket (c : AlphaCalculator.Calc) (u d : Int)
    (b1 b2 : AlphaCalculator.Bucket) :
    AlphaCalculator.setBucket (AlphaCalculator.setBucket c u d b1) u d b2 =
      AlphaCalculator.setBucket c u d b2 := by
  unfold AlphaCalculator.setBucket
  simp [QMap.value_insert, QMap.insert_insert]

theorem setBucket_touch (c : AlphaCalculator.Calc) (u d : Int) (b : AlphaCalculator.Bucket) :
    AlphaCalculator.setBucket { c with buckets := QMap.touch c.buckets u [] } u d b =
      AlphaCalculator.setBucket c u d b := by
  unfold AlphaCalculator.setBucket
  simp [QMap.value_touch, QMap.insert_touch]

theorem bucketAt_touch (c : AlphaCalculator.Calc) (u d : Int) :
    AlphaCalculator.bucketAt { c with buckets := QMap.touch c.buckets u [] } u d =
      AlphaCalculator.bucketAt c u d := by
  unfold AlphaCalculator.bucketAt
  simp [QMap.value_touch]

theorem addTrade_touch (c : AlphaCalculator.Calc) (u d : Int) (rp w : ℚ) :
    AlphaCalculator.addTrade { c with buckets := QMap.touch c.buckets u [] } u d rp w =
      AlphaCalculator.addTrade c u d rp w := by
  unfold AlphaCalculator.addTrade
  simp only [bucketAt_touch, setBucket_touch]

theorem addBenchmark_touch (c : AlphaCalculator.Calc) (u d : Int) (rb w : ℚ) :
    AlphaCalculator.addBenchmark { c with buckets := QMap.touch c.buckets u [] } u d rb w =
      AlphaCalculator.addBenchmark c u d rb w := by
  unfold AlphaCalculator.addBenchmark
  simp only [bucketAt_touch, setBucket_touch]

theorem foldl_addTrade_setBucket (u d : Int) (obs : List (ℚ × ℚ)) (c : AlphaCalculator.Calc)
    (b0 : AlphaCalculator.Bucket) :
    obs.foldl (fun st o => AlphaCalculator.addTrade st u d o.1 o.2)
        (AlphaCalculator.setBucket c u d b0) =
      AlphaCalculator.setBucket c u d
        { wRp := b0.wRp + (obs.map (fun o => o.2 * o.1)).sum
          wRb := b0.wRb
          w := b0.w + (obs.map (fun o => o.2)).sum } := by
  induction obs generalizing b0 with
  | nil => simp
  | cons o rest ih =>
    have hstep : AlphaCalculator.addTrade (AlphaCalculator.setBucket c u d b0) u d o.1 o.2 =
        AlphaCalculator.setBucket c u d
          { wRp := b0.wRp + o.2 * o.1, wRb := b0.wRb, w := b0.w + o.2 } := by
      unfold AlphaCalculator.addTrade
      simp only [bucketAt_setBucket, setBucket_setBucket]
    rw [List.foldl_cons, hstep, ih]
    simp [add_assoc]

theorem foldl_addTrade_cons (u d : Int) (o : ℚ × ℚ) (rest : List (ℚ × ℚ))
    (c : AlphaCalculator.Calc) :
    (o :: rest).foldl (fun st o => AlphaCalculator.addTrade st u d o.1 o.2) c =
      AlphaCalculator.setBucket c u d
        { wRp := (AlphaCalculator.bucketAt c u d).wRp + ((o :: rest).map (fun o => o.2 * o.1)).sum
          wRb := (AlphaCalculator.bucketAt c u d).wRb
          w := (AlphaCalculator.bucketAt c u d).w + ((o :: rest).map (fun o => o.2)).sum } := by
  have hstep : AlphaCalculator.addTrade c u d o.1 o.2 =
      AlphaCalculator.setBucket c u d
        { wRp := (AlphaCalculator.bucketAt c u d).wRp + o.2 * o.1
          wRb := (AlphaCalculator.bucketAt c u d).wRb
          w := (AlphaCalculator.bucketAt c u d).w + o.2 } := rfl
  rw [List.foldl_cons, hstep, foldl_addTrade_setBucket]
  simp [add_assoc]

/-- Recording the same observations in another order gives the same state,
up to the key that the first access of `buckets[u]` creates. -/
theorem foldl_addTrade_perm (u d : Int) (obs1 obs2 : List (ℚ × ℚ)) (hperm : obs1.Perm obs2)
    (c : AlphaCalculator.Calc) (rb v : ℚ) :
    AlphaCalculator.addBenchmark
        (obs1.foldl (fun st o => AlphaCalculator.addTrade st u d o.1 o.2)
          { c with buckets := QMap.touch c.buckets u [] }) u d rb v =
      AlphaCalculator.addBenchmark
        (obs2.foldl (fun st o => AlphaCalculator.addTrade st u d o.1 o.2) c) u d rb v := by
  cases obs1 with
  | nil =>
    have h2 : obs2 = [] := List.Perm.eq_nil (hperm.symm)
    subst h2
    exact addBenchmark_touch c u d rb v
  | cons o1 rest1 =>
    cases obs2 with
    | nil => exact absurd hperm.length_eq (by simp)
    | cons o2 rest2 =>
      rw [foldl_addTrade_cons, foldl_addTrade_cons, bucketAt_touch, setBucket_touch,
        (hperm.map (fun o => o.2 * o.1)).sum_eq, (hperm.map (fun o => o.2)).sum_eq]

/-! ## Orders that passed the validation of the dashboard -/

theorem placed_order_ordered (equity maxLoss sl tp size : ℚ) (asset : Int) (ref : ℚ)
    (type position : String)
    (h : DisplayManager.Signal.placeTrade sl tp size asset ref type position ∈
      DisplayManager.inputTrade equity maxLoss sl tp size asset ref type position) :
    (position = "long" ∧ sl < ref ∧ ref < tp) ∨ (position = "short" ∧ tp < ref ∧ ref < sl) := by
  unfold DisplayManager.inputTrade at h
  by_cases hl : position = "long"
  · by_cases hbad : sl ≥ ref ∨ tp ≤ ref
    · simp [hl, hbad] at h
    · push_neg at hbad
      exact Or.inl ⟨hl, hbad.1, hbad.2⟩
  · by_cases hs : position = "short"
    · by_cases hbad : sl ≤ ref ∨ tp ≥ ref
      · simp [hl, hs, hbad] at h
      · push_neg at hbad
        exact Or.inr ⟨hs, hbad.2, hbad.1⟩
    · simp [hl, hs] at h

theorem newTrade_opens_trade (s : State) (sock : Nat) (o : TradeServer.Msg)
    (slot : Nat) (hobj : o.isObject = true) (hconn : o.connection ≠ "tradeDashboard")
    (hnew : o.newTrade = true) :
    trades (TradeServer.onTextMessageReceived s sock o slot) o.userID =
      insertAt slot (openedTrade s o, 0) (trades s o.userID) :=
  (newTrade_opens s sock o slot hobj hconn hnew).1

/-- The validation over exact numbers: `DisplayManager.inputTrade` accepts an
order, emitting exactly one `placeTrade` with the unchanged parameters (followed by the success report), if and only if the
position is `"long"` with stopLoss < openPrice < takeProfit or `"short"` with
takeProfit < openPrice < stopLoss, and size·openPrice ≤ equity, and
|openPrice − stopLoss|·size ≤ equity − maxLoss; in every other case it emits
no `placeTrade` and reports the rejection. -/
theorem inputTrade_exact_accepts_iff (equity maxLoss stopLoss takeProfit size : ℚ) (asset : Int)
    (openPrice : ℚ) (type position : String) :
    (orderAcceptable equity maxLoss stopLoss takeProfit size openPrice position →
      DisplayManager.inputTrade equity maxLoss stopLoss takeProfit size asset openPrice type
          position =
        [DisplayManager.Signal.placeTrade stopLoss takeProfit size asset openPrice type position,
          DisplayManager.Signal.orderSuccesful true]) ∧
    (¬ orderAcceptable equity maxLoss stopLoss takeProfit size openPrice position →
      DisplayManager.inputTrade equity maxLoss stopLoss takeProfit size asset openPrice type
          position =
        [DisplayManager.Signal.orderSuccesful false]) := by
  unfold orderAcceptable DisplayManager.inputTrade
  by_cases hl : position = "long"
  · have hs : position ≠ "short" := by rw [hl]; decide
    by_cases hord : stopLoss < openPrice ∧ openPrice < takeProfit
    · have habs : |openPrice - stopLoss| = openPrice - stopLoss :=
        abs_of_pos (sub_pos.2 hord.1)
      have h1 : ¬ (stopLoss ≥ openPrice ∨ takeProfit ≤ openPrice) := by
        intro h
        rcases h with h | h
        · exact absurd hord.1 (not_lt.2 h)
        · exact absurd hord.2 (not_lt.2 h)
      simp only [hl, hs, hord, habs, h1, if_true, if_false, true_and, and_true, false_and,
        or_false, and_self]
      by_cases hrisk : size * openPrice ≤ equity ∧ (openPrice - stopLoss) * size ≤ equity - maxLoss
      · have h2 : ¬ (size * openPrice > equity ∨ (openPrice - stopLoss) * size > equity - maxLoss) := by
          intro h
          rcases h with h | h
          · exact absurd hrisk.1 (not_le.2 h)
          · exact absurd hrisk.2 (not_le.2 h)
        simp [hrisk, h2]
      · have h2 : size * openPrice > equity ∨ (openPrice - stopLoss) * size > equity - maxLoss := by
          by_contra h
          push_neg at h
          exact hrisk h
        simp [hrisk, h2]
    · have h1 : stopLoss ≥ openPrice ∨ takeProfit ≤ openPrice := by
        by_contra h
        push_neg at h
        exact hord h
      simp [hl, hs, hord, h1]
  · by_cases hsh : position = "short"
    · by_cases hord : takeProfit < openPrice ∧ openPrice < stopLoss
      · have habs : |openPrice - stopLoss| = stopLoss - openPrice := by
          rw [abs_sub_comm]
          exact abs_of_pos (sub_pos.2 hord.2)
        have h1 : ¬ (stopLoss ≤ openPrice ∨ takeProfit ≥ openPrice) := by
          intro h
          rcases h with h | h
          · exact absurd hord.2 (not_lt.2 h)
          · exact absurd hord.1 (not_lt.2 h)
        simp only [hl, hsh, hord, habs, h1, if_true, if_false, true_and, and_true, false_and,
          false_or, and_self]
        by_cases hrisk : size * openPrice ≤ equity ∧ (stopLoss - openPrice) * size ≤ equity - maxLoss
        · have h2 : ¬ (size * openPrice > equity ∨ (stopLoss - openPrice) * size > equity - maxLoss) := by
            intro h
            rcases h with h | h
            · exact absurd hrisk.1 (not_le.2 h)
            · exact absurd hrisk.2 (not_le.2 h)
          simp [hrisk, h2]
        · have h2 : size * openPrice > equity ∨ (stopLoss - openPrice) * size > equity - maxLoss := by
            by_contra h
            push_neg at h
            exact hrisk h
          simp [hrisk, h2]
      · have h1 : stopLoss ≤ openPrice ∨ takeProfit ≥ openPrice := by
          by_contra h
          push_neg at h
          exact hord ⟨h.2, h.1⟩
        simp [hl, hsh, hord, h1]
    · simp [hl, hsh]


/-! ## Binary64 values -/

theorem pow2_nonneg (e : Int) : 0 ≤ Binary64.pow2 e := by
  unfold Binary64.pow2
  split <;> positivity

theorem roundMagnitude_nonneg (q m : ℚ) (h : Binary64.roundMagnitude q = some m) : 0 ≤ m := by
  unfold Binary64.roundMagnitude at h
  dsimp only at h
  split at h
  · injection h with h1
    rw [← h1]
    exact mul_nonneg (Nat.cast_nonneg _) (pow2_nonneg _)
  · exact absurd h (by simp)

theorem abs_round (q : ℚ) : Binary64.abs (Binary64.round q) = Binary64.round |q| := by
  rcases lt_trichotomy q 0 with hq | hq | hq
  · have h1 : ¬ q = 0 := ne_of_lt hq
    have h2 : ¬ 0 < q := not_lt.2 (le_of_lt hq)
    have h3 : ¬ -q = 0 := fun h => h1 (neg_eq_zero.1 h)
    have h4 : 0 < -q := neg_pos.2 hq
    rw [abs_of_neg hq]
    unfold Binary64.round
    simp only [h1, h2, h3, h4, if_true, if_false]
    cases hm : Binary64.roundMagnitude (-q) with
    | none => rfl
    | some m =>
      simp only [Binary64.abs]
      rw [abs_neg, abs_of_nonneg (roundMagnitude_nonneg _ _ hm)]
  · subst hq
    simp [Binary64.round, Binary64.abs]
  · have h1 : ¬ q = 0 := ne_of_gt hq
    rw [abs_of_pos hq]
    unfold Binary64.round
    simp only [h1, hq, if_true, if_false]
    cases hm : Binary64.roundMagnitude q with
    | none => rfl
    | some m =>
      simp only [Binary64.abs]
      rw [abs_of_nonneg (roundMagnitude_nonneg _ _ hm)]

theorem abs_sub_swap (a b : Binary64.Double) :
    Binary64.abs (Binary64.sub a b) = Binary64.abs (Binary64.sub b a) := by
  cases a <;> cases b <;> try rfl
  simp only [Binary64.sub]
  rw [abs_round, abs_round, abs_sub_comm]

theorem abs_sub_of_below (a b : Binary64.Double) (h : Binary64.ge b a = false) :
    Binary64.abs (Binary64.sub a b) = Binary64.sub a b := by
  cases a <;> cases b <;>
    first | rfl | (exfalso; simp [Binary64.ge, Binary64.le] at h; done) | skip
  rename_i x y
  simp only [Binary64.ge, Binary64.le, decide_eq_false_iff_not, not_le] at h
  simp only [Binary64.sub]
  rw [abs_round, abs_of_pos (sub_pos.2 h)]

theorem abs_sub_of_above (a b : Binary64.Double) (h : Binary64.le b a = false) :
    Binary64.abs (Binary64.sub a b) = Binary64.sub b a := by
  rw [abs_sub_swap]
  exact abs_sub_of_below b a h

theorem round_ne_nan (q : ℚ) : Binary64.round q ≠ Binary64.Double.nan := by
  unfold Binary64.round
  split
  · simp
  · split
    · split <;> simp
    · split <;> simp

theorem not_gt_iff_le (a b : Binary64.Double) (ha : a ≠ Binary64.Double.nan)
    (hb : b ≠ Binary64.Double.nan) : Binary64.gt a b = false ↔ Binary64.le a b = true := by
  cases a <;> cases b <;> simp [Binary64.gt, Binary64.lt, Binary64.le] at ha hb ⊢

theorem inputTrade_of_acceptable (equity maxLoss stopLoss takeProfit size : Binary64.Double)
    (asset : Int) (openPrice : Binary64.Double) (type position : String)
    (h : orderAcceptableRounded equity maxLoss stopLoss takeProfit size openPrice position) :
    Binary64.inputTrade equity maxLoss stopLoss takeProfit size asset openPrice type position =
      [Binary64.Signal.placeTrade stopLoss takeProfit size asset openPrice type position,
        Binary64.Signal.orderSuccesful true] := by
  obtain ⟨hside, hcost, hloss⟩ := h
  unfold Binary64.inputTrade
  rcases hside with ⟨hl, h1, h2⟩ | ⟨hs, h1, h2⟩
  · rw [abs_sub_of_below _ _ h1] at hloss
    simp [hl, h1, h2, hcost, hloss]
  · have hl : position ≠ "long" := by rw [hs]; decide
    rw [abs_sub_of_above _ _ h1] at hloss
    simp [hl, hs, h1, h2, hcost, hloss]

theorem inputTrade_of_not_acceptable (equity maxLoss stopLoss takeProfit size : Binary64.Double)
    (asset : Int) (openPrice : Binary64.Double) (type position : String)
    (h : ¬ orderAcceptableRounded equity maxLoss stopLoss takeProfit size openPrice position) :
    Binary64.inputTrade equity maxLoss stopLoss takeProfit size asset openPrice type position =
      [Binary64.Signal.orderSuccesful false] := by
  unfold orderAcceptableRounded at h
  unfold Binary64.inputTrade
  by_cases hl : position = "long"
  · have hs : position ≠ "short" := by rw [hl]; decide
    by_cases h1 : Binary64.ge stopLoss openPrice = false
    · by_cases h2 : Binary64.le takeProfit openPrice = false
      · by_cases hc : Binary64.gt (Binary64.mul size openPrice) equity = false
        · have hloss : Binary64.gt (Binary64.mul (Binary64.sub openPrice stopLoss) size)
              (Binary64.sub equity maxLoss) = true := by
            by_contra hlo
            simp only [Bool.not_eq_true] at hlo
            exact h ⟨Or.inl ⟨hl, h1, h2⟩, hc, by rw [abs_sub_of_below _ _ h1]; exact hlo⟩
          simp [hl, h1, h2, hc, hloss]
        · simp only [Bool.not_eq_false] at hc
          simp [hl, h1, h2, hc]
      · simp only [Bool.not_eq_false] at h2
        simp [hl, h2]
    · simp only [Bool.not_eq_false] at h1
      simp [hl, h1]
  · by_cases hs : position = "short"
    · by_cases h1 : Binary64.le stopLoss openPrice = false
      · by_cases h2 : Binary64.ge takeProfit openPrice = false
        · by_cases hc : Binary64.gt (Binary64.mul size openPrice) equity = false
          · have hloss : Binary64.gt (Binary64.mul (Binary64.sub stopLoss openPrice) size)
                (Binary64.sub equity maxLoss) = true := by
              by_contra hlo
              simp only [Bool.not_eq_true] at hlo
              exact h ⟨Or.inr ⟨hs, h1, h2⟩, hc, by rw [abs_sub_of_above _ _ h1]; exact hlo⟩
            simp [hl, hs, h1, h2, hc, hloss]
          · simp only [Bool.not_eq_false] at hc
            simp [hl, hs, h1, h2, hc]
        · simp only [Bool.not_eq_false] at h2
          simp [hl, hs, h2]
      · simp only [Bool.not_eq_false] at h1
        simp [hl, hs, h1]
    · simp [hl, hs]

theorem acceptableRounded_finite (e m sl tp sz op : ℚ) (position : String)
    (hnum : Binary64.mul (Binary64.round |op - sl|) (Binary64.Double.finite sz) ≠
      Binary64.Double.nan) :
    orderAcceptableRounded (Binary64.Double.finite e) (Binary64.Double.finite m)
        (Binary64.Double.finite sl) (Binary64.Double.finite tp) (Binary64.Double.finite sz)
        (Binary64.Double.finite op) position ↔
      ((position = "long" ∧ sl < op ∧ op < tp) ∨ (position = "short" ∧ tp < op ∧ op < sl)) ∧
      Binary64.le (Binary64.round (sz * op)) (Binary64.Double.finite e) = true ∧
      Binary64.le (Binary64.mul (Binary64.round |op - sl|) (Binary64.Double.finite sz))
        (Binary64.round (e - m)) = true := by
  have hsub : Binary64.abs (Binary64.sub (Binary64.Double.finite op) (Binary64.Double.finite sl)) =
      Binary64.round |op - sl| := abs_round (op - sl)
  have hcost : Binary64.gt (Binary64.round (sz * op)) (Binary64.Double.finite e) = false ↔
      Binary64.le (Binary64.round (sz * op)) (Binary64.Double.finite e) = true :=
    not_gt_iff_le _ _ (round_ne_nan _) (by simp)
  have hloss : Binary64.gt (Binary64.mul (Binary64.round |op - sl|) (Binary64.Double.finite sz))
        (Binary64.round (e - m)) = false ↔
      Binary64.le (Binary64.mul (Binary64.round |op - sl|) (Binary64.Double.finite sz))
        (Binary64.round (e - m)) = true :=
    not_gt_iff_le _ _ hnum (round_ne_nan _)
  unfold orderAcceptableRounded
  rw [hsub]
  have hmul : Binary64.mul (Binary64.Double.finite sz) (Binary64.Double.finite op) =
      Binary64.round (sz * op) := rfl
  have hhead : Binary64.sub (Binary64.Double.finite e) (Binary64.Double.finite m) =
      Binary64.round (e - m) := rfl
  rw [hmul, hhead, hcost, hloss]
  simp only [Binary64.ge, Binary64.le, decide_eq_false_iff_not, not_le]
  constructor
  · rintro ⟨hside, hc, hl⟩
    refine ⟨?_, hc, hl⟩
    rcases hside with ⟨hp, h1, h2⟩ | ⟨hp, h1, h2⟩
    · exact Or.inl ⟨hp, h1, h2⟩
    · exact Or.inr ⟨hp, h2, h1⟩
  · rintro ⟨hside, hc, hl⟩
    refine ⟨?_, hc, hl⟩
    rcases hside with ⟨hp, h1, h2⟩ | ⟨hp, h1, h2⟩
    · exact Or.inl ⟨hp, h1, h2⟩
    · exact Or.inr ⟨hp, h2, h1⟩

theorem acceptableRounded_exact (e m sl tp sz op : ℚ) (position : String)
    (hcost : Binary64.round (sz * op) = Binary64.Double.finite (sz * op))
    (hdiff : Binary64.round |op - sl| = Binary64.Double.finite |op - sl|)
    (hloss : Binary64.round (|op - sl| * sz) = Binary64.Double.finite (|op - sl| * sz))
    (hhead : Binary64.round (e - m) = Binary64.Double.finite (e - m)) :
    orderAcceptableRounded (Binary64.Double.finite e) (Binary64.Double.finite m)
        (Binary64.Double.finite sl) (Binary64.Double.finite tp) (Binary64.Double.finite sz)
        (Binary64.Double.finite op) position ↔
      orderAcceptable e m sl tp sz op position := by
  have hmul : Binary64.mul (Binary64.round |op - sl|) (Binary64.Double.finite sz) =
      Binary64.Double.finite (|op - sl| * sz) := by
    rw [hdiff]
    exact hloss
  rw [acceptableRounded_finite e m sl tp sz op position (by rw [hmul]; simp), hmul, hcost, hhead]
  unfold orderAcceptable
  simp [Binary64.le]

/-! ## The window holds the earliest complete days -/

theorem window_foldl_eq (dayMap : List (Int × AlphaCalculator.Bucket))
    (acc : List AlphaCalculator.Pair) :
    dayMap.foldl (fun dq e =>
        if dq.length < AlphaCalculator.BUCKET_WINDOW then
          if e.2.w = 0 then dq
          else { rp := e.2.wRp / e.2.w, rb := e.2.wRb / e.2.w } :: dq
        else dq) acc =
      (((dayMap.filter (fun e => decide (e.2.w ≠ 0))).take
        (AlphaCalculator.BUCKET_WINDOW - acc.length)).map (fun e => dayPoint e.2)).reverse ++
        acc := by
  induction dayMap generalizing acc with
  | nil => simp
  | cons e m ih =>
    rw [List.foldl_cons, ih]
    by_cases hlen : acc.length < AlphaCalculator.BUCKET_WINDOW
    · by_cases hw : e.2.w = 0
      · simp [hlen, hw]
      · have hsub : AlphaCalculator.BUCKET_WINDOW - acc.length =
            (AlphaCalculator.BUCKET_WINDOW - (acc.length + 1)) + 1 := by omega
        rw [if_pos hlen, if_neg hw, List.filter_cons_of_pos (by simpa using hw), hsub,
          List.take_succ_cons]
        simp [dayPoint]
    · have h0 : AlphaCalculator.BUCKET_WINDOW - acc.length = 0 := by omega
      simp [hlen, h0]

theorem window_eq_oldest (dayMap : List (Int × AlphaCalculator.Bucket)) :
    AlphaCalculator.window dayMap =
      (((dayMap.filter (fun e => decide (e.2.w ≠ 0))).take AlphaCalculator.BUCKET_WINDOW).map
        (fun e => dayPoint e.2)).reverse := by
  unfold AlphaCalculator.window
  rw [window_foldl_eq]
  simp

/-! ## The balance after a lock by an equity update -/

theorem balance_foldl_hubClose (l : List ℚ) (row : AccountRow) :
    (l.foldl hubClose row).balance = row.balance + l.sum := by
  induction l generalizing row with
  | nil => simp
  | cons p l ih =>
    rw [List.foldl_cons, ih]
    simp [hubClose, add_assoc]

theorem balance_after_equity_lock (s : State) (uid : Int) (totalPnL : ℚ) (row : AccountRow)
    (hrow : s.account uid = some row) (hle : row.balance + totalPnL ≤ row.max_loss) :
    ((AccountServer.onEquityUpdate TradeServer.onCloseAllTrades s uid totalPnL).account uid).map
        AccountRow.balance =
      some (row.balance + totalPnL + (livePnls s uid).sum) := by
  have heq : AccountServer.onEquityUpdate TradeServer.onCloseAllTrades s uid totalPnL =
      AccountServer.accountLocked TradeServer.onCloseAllTrades
        (updateAccount s uid (fun r => { r with balance := row.balance + totalPnL })) uid := by
    unfold AccountServer.onEquityUpdate
    rw [hrow]
    simp only
    rw [if_pos hle]
  have hc := (cascade_onCloseAllTrades
    (emit (updateAccount
        (updateAccount s uid (fun r => { r with balance := row.balance + totalPnL })) uid
        (fun r => { r with status := false }))
      (Event.closeAllTrades uid)) uid).silent_right
    (silent_broadcastJson _ uid Payload.accountLocked)
  have hacc : (AccountServer.accountLocked TradeServer.onCloseAllTrades
      (updateAccount s uid (fun r => { r with balance := row.balance + totalPnL })) uid).account
      uid = _ := hc.account
  rw [heq, hacc]
  have hlive : livePnls (emit (updateAccount
        (updateAccount s uid (fun r => { r with balance := row.balance + totalPnL })) uid
        (fun r => { r with status := false }))
      (Event.closeAllTrades uid)) uid = livePnls s uid := by
    simp [livePnls]
  rw [hlive]
  simp [hrow, balance_foldl_hubClose]

/-! ## Benchmark observations name account 0 -/

theorem marketBenchmark_of_closeEvent (e : Event) (h : closeEvent e = true) :
    marketBenchmark e = true := by
  cases e <;> first | rfl | simp [closeEvent] at h

theorem appends_market_closeTrade (s : State) (uid : Int) (tid : String) :
    Appends marketBenchmark s (TradeServer.closeTrade s uid tid) :=
  (appends_closeTrade s uid tid).weaken marketBenchmark_of_closeEvent

theorem appends_market_dashboard (s : State) (sock : Nat) (o : TradeServer.Msg) (slot : Nat) :
    Appends marketBenchmark s (TradeServer.onTextMessageReceived s sock o slot) := by
  unfold TradeServer.onTextMessageReceived
  split
  · exact Appends.nothing _ _
  · split
    · exact appends_of_out_eq _ rfl
    · split
      · exact ⟨_, rfl, by simp [marketBenchmark]⟩
      · split
        · exact appends_market_closeTrade _ _ _
        · exact Appends.nothing _ _

theorem appends_market_riskPhase (s : State) (asset : Asset) (msg : TradeServer.TickMsg) :
    Appends marketBenchmark s (TradeServer.riskPhase s asset msg) := by
  unfold TradeServer.riskPhase
  simp only
  refine Appends.chain ?_ ((appends_riskLoop _ asset).weaken marketBenchmark_of_closeEvent)
  split
  · unfold TradeServer.benchmarkTick
    simp only
    split <;> split
    · exact ⟨_, rfl, by simp [marketBenchmark]⟩
    · exact appends_of_out_eq _ rfl
    · exact ⟨_, rfl, by simp [marketBenchmark]⟩
    · exact appends_of_out_eq _ rfl
  · exact appends_of_out_eq _ rfl

theorem appends_market_onEquityUpdate (s : State) (uid : Int) (totalPnL : ℚ) :
    Appends marketBenchmark s
      (AccountServer.onEquityUpdate TradeServer.onCloseAllTrades s uid totalPnL) := by
  unfold AccountServer.onEquityUpdate
  cases hrow : s.account uid with
  | none => exact Appends.nothing _ _
  | some row =>
    simp only
    split
    · exact ((appends_updateAccount _ s uid _).chain
        (appends_accountLocked _ uid (fun st => appends_onCloseAllTrades st uid) _)).weaken
        marketBenchmark_of_closeEvent
    · exact appends_broadcastJson _ _ uid _ (fun _ => rfl)

theorem appends_market_tradeDashboardUpdate (s : State) (uid : Int) (asset : Asset) :
    Appends marketBenchmark s (TradeServer.tradeDashboardUpdate s uid asset) := by
  unfold TradeServer.tradeDashboardUpdate
  refine (appends_touchUser _ s uid).chain (appends_foldl _ _ ?_ _ _)
  intro st e
  split
  · exact Appends.nothing _ _
  · refine ⟨_, rfl, ?_⟩
    intro x hx
    obtain ⟨ws, -, rfl⟩ := List.mem_map.1 hx
    rfl

theorem appends_market_equityRound (asset : Asset) (st : State) (uid : Int) :
    Appends marketBenchmark st (TradeServer.equityRound asset st uid) := by
  unfold TradeServer.equityRound
  exact (((appends_touchUser _ st uid).chain (appends_emit _ _ _ rfl)).chain
    (appends_market_onEquityUpdate _ uid _)).chain (appends_market_tradeDashboardUpdate _ uid asset)

theorem appends_market_step (s : State) (i : Clock × Input) :
    Appends marketBenchmark s (step s i) := by
  unfold step
  simp only
  refine Appends.chain (appends_of_out_eq _ (rfl : (setClock s i.1).out = s.out)) ?_
  cases i.2 with
  | dashboardText sock o slot => exact appends_market_dashboard _ sock o slot
  | dashboardDisconnected sock =>
    simp only
    unfold TradeServer.onSocketDisconnected
    simp only
    split <;> exact appends_of_out_eq _ rfl
  | accountText sock obj =>
    simp only
    unfold AccountServer.onTextMessageReceived
    split
    · exact Appends.nothing _ _
    · split
      · exact appends_of_out_eq _ rfl
      · exact Appends.nothing _ _
  | accountDisconnected sock =>
    simp only
    unfold AccountServer.onSocketDisconnected
    simp only
    split
    · split <;> exact appends_of_out_eq _ rfl
    · exact appends_of_out_eq _ rfl
  | assetTick asset msg =>
    simp only
    unfold TradeServer.onAssetTick
    exact (appends_market_riskPhase _ asset msg).chain
      (appends_foldl _ _ (appends_market_equityRound asset) _ _)

theorem market_run (s : State) (inputs : List (Clock × Input))
    (h : ∀ e ∈ s.out, marketBenchmark e = true) :
    ∀ e ∈ (run s inputs).out, marketBenchmark e = true := by
  unfold run
  induction inputs generalizing s with
  | nil => exact h
  | cons i rest ih =>
    rw [List.foldl_cons]
    apply ih
    obtain ⟨new, hout, hnew⟩ := appends_market_step s i
    intro e he
    rw [hout] at he
    rcases List.mem_append.1 he with h1 | h1
    · exact h e h1
    · exact hnew e h1

theorem engineFeed_users (c : AlphaCalculator.Calc) (e : Event)
    (he : marketBenchmark e = true) (hc : ∀ x ∈ c.alphaUpdated, x.1 = 0) :
    ∀ x ∈ (engineFeed c e).alphaUpdated, x.1 = 0 := by
  cases e with
  | addBenchmark u d rb w =>
    have hu : u = 0 := by simpa [marketBenchmark] using he
    subst hu
    unfold engineFeed
    rcases (addBenchmark_emits c 0 d rb w).2 with h | h
    · rw [h]
      exact hc
    · rw [h]
      intro x hx
      rcases List.mem_append.1 hx with h1 | h1
      · exact hc x h1
      · rw [List.mem_singleton.1 h1]
  | _ => exact hc

theorem foldl_engineFeed_users (log : List Event) (c : AlphaCalculator.Calc)
    (hlog : ∀ e ∈ log, marketBenchmark e = true) (hc : ∀ x ∈ c.alphaUpdated, x.1 = 0) :
    ∀ x ∈ (log.foldl engineFeed c).alphaUpdated, x.1 = 0 := by
  induction log generalizing c with
  | nil => exact hc
  | cons e rest ih =>
    rw [List.foldl_cons]
    exact ih _ (fun x hx => hlog x (List.mem_cons_of_mem _ hx))
      (engineFeed_users c e (hlog e (List.mem_cons_self _ _)) hc)

theorem foldl_hubFeed_silent (log : List Event) (c : AlphaCalculator.Calc) :
    (log.foldl hubFeed c).alphaUpdated = c.alphaUpdated := by
  induction log generalizing c with
  | nil => rfl
  | cons e rest ih =>
    rw [List.foldl_cons, ih]
    cases e <;> rfl

theorem no_alpha_outside_market (accounts : Int → Option AccountRow) (start : Clock)
    (inputs : List (Clock × Input)) :
    (∀ x ∈ (engineAlpha (run (init accounts start) inputs).out).alphaUpdated, x.1 = 0) ∧
    (hubAlpha (run (init accounts start) inputs).out).alphaUpdated = [] := by
  constructor
  · unfold engineAlpha
    apply foldl_engineFeed_users
    · apply market_run
      intro e he
      simp [init] at he
    · intro x hx
      simp [AlphaCalculator.empty] at hx
  · unfold hubAlpha
    rw [foldl_hubFeed_silent]
    rfl

/-- What the calls emit, by the window of the code: in the state `c` that a
calculator reaches from any state by any sequence of calls of `addTrade` and `addBenchmark`, a further call of `addTrade`
emits nothing; no call emits an alpha when the window rebuilt for its account
has fewer than three points; a call emits at most one alpha, for its own
account, and that alpha is computed from the window rebuilt from the buckets
of the account after the call.  A recomputation (`computeAlpha`) emits nothing
on a window of fewer than three points and exactly one alpha, computed from the
buckets alone, on a window of at least three points. -/
theorem record_emits_by_window (c0 : AlphaCalculator.Calc) (calls : List Observation)
    (call : Observation) (u : Int) :
    (∀ d rp w, (record (calls.foldl record c0) (Observation.trade u d rp w)).alphaUpdated =
      (calls.foldl record c0).alphaUpdated) ∧
    ((AlphaCalculator.window
        (QMap.value (record (calls.foldl record c0) call).buckets call.account [])).length < 3 →
      (record (calls.foldl record c0) call).alphaUpdated = (calls.foldl record c0).alphaUpdated) ∧
    ((record (calls.foldl record c0) call).alphaUpdated = (calls.foldl record c0).alphaUpdated ∨
      (record (calls.foldl record c0) call).alphaUpdated =
        (calls.foldl record c0).alphaUpdated ++
          [(call.account, windowAlpha (AlphaCalculator.window
            (QMap.value (record (calls.foldl record c0) call).buckets call.account [])))]) ∧
    ((AlphaCalculator.window (QMap.value (calls.foldl record c0).buckets u [])).length < 3 →
      (AlphaCalculator.computeAlpha (calls.foldl record c0) u).alphaUpdated =
        (calls.foldl record c0).alphaUpdated) ∧
    (3 ≤ (AlphaCalculator.window (QMap.value (calls.foldl record c0).buckets u [])).length →
      (AlphaCalculator.computeAlpha (calls.foldl record c0) u).alphaUpdated =
        (calls.foldl record c0).alphaUpdated ++
          [(u, windowAlpha
            (AlphaCalculator.window (QMap.value (calls.foldl record c0).buckets u [])))]) := by
  generalize calls.foldl record c0 = c
  refine ⟨fun _ _ _ => rfl, ?_, ?_, computeAlpha_short c u, computeAlpha_long c u⟩
  · cases call with
    | trade v d rp w => exact fun _ => rfl
    | benchmark v d rb w => exact (addBenchmark_emits c v d rb w).1
  · cases call with
    | trade v d rp w => exact Or.inl rfl
    | benchmark v d rb w => exact (addBenchmark_emits c v d rb w).2

/-- The round trip on closed positions: for a user `u` and a day `d` without
bucket, rebuilding the bucket from rows that are the history rows of positions
closed on that day (in whatever order the
query delivers them) and then recording a benchmark observation leaves the
calculator in the same state, bucket and emitted alpha included, as recording
the live observations of `closeTrade` for these positions and then the same
benchmark observation.  When a bucket for the day exists, `rebuildBucketFromDb`
changes nothing.  The live observation and the history row are those that
`closeTrade` produces: its log entries feed `liveObservation` into the
calculator of the engine and carry the closing price of `closedRow`. -/
theorem rebuild_of_closed_rows (c : AlphaCalculator.Calc) (u d : Int) (closed : List (Trade × ℚ))
    (rows : List AlphaCalculator.HistoryRow) (rb v : ℚ)
    (hfresh : QMap.contains (QMap.value c.buckets u []) d = false)
    (hrows : rows.Perm (closed.map (fun x => closedRow x.1 x.2))) :
    AlphaCalculator.addBenchmark (AlphaCalculator.rebuildBucketFromDb c u d (some rows)) u d rb v =
      AlphaCalculator.addBenchmark (closed.foldl (liveObservation u d) c) u d rb v ∧
    (∀ (c2 : AlphaCalculator.Calc) (result : Option (List AlphaCalculator.HistoryRow)),
      QMap.contains (QMap.value c2.buckets u []) d = true →
      AlphaCalculator.rebuildBucketFromDb c2 u d result = c2) ∧
    (∀ (s : State) (tid : String) (t : Trade) (rest : TradeMap) (c1 : AlphaCalculator.Calc),
      ((TradeServer.closeRecord s u tid t rest).out.drop s.out.length).foldl engineFeed c1 =
        liveObservation u s.now.date c1 (t, s.livePrices t.asset) ∧
      Event.historyUpdate tid (closedRow t (s.livePrices t.asset)).closingPrice
        (pnlAt (s.livePrices t.asset) t) s.now ∈ (TradeServer.closeRecord s u tid t rest).out) := by
  refine ⟨?_, ?_, ?_⟩
  · have hobs : (rows.map (fun row : AlphaCalculator.HistoryRow =>
          ((row.closingPrice - row.openPrice) / row.openPrice, |row.size * row.openPrice|))).Perm
        (closed.map (fun x : Trade × ℚ =>
          ((x.2 - x.1.openPrice) / x.1.openPrice, |x.1.size * x.1.openPrice|))) := by
      have h1 := hrows.map (fun row : AlphaCalculator.HistoryRow =>
        ((row.closingPrice - row.openPrice) / row.openPrice, |row.size * row.openPrice|))
      rw [List.map_map] at h1
      exact h1
    have hlive : closed.foldl (liveObservation u d) c =
        (closed.map (fun x : Trade × ℚ =>
          ((x.2 - x.1.openPrice) / x.1.openPrice, |x.1.size * x.1.openPrice|))).foldl
          (fun st o => AlphaCalculator.addTrade st u d o.1 o.2) c := by
      rw [List.foldl_map]
      rfl
    have hrebuild : AlphaCalculator.rebuildBucketFromDb c u d (some rows) =
        (rows.map (fun row : AlphaCalculator.HistoryRow =>
          ((row.closingPrice - row.openPrice) / row.openPrice, |row.size * row.openPrice|))).foldl
          (fun st o => AlphaCalculator.addTrade st u d o.1 o.2)
          { c with buckets := QMap.touch c.buckets u [] } := by
      unfold AlphaCalculator.rebuildBucketFromDb
      simp only [QMap.value_touch, hfresh, Bool.false_eq_true, if_false]
      rw [List.foldl_map]
    rw [hrebuild, hlive]
    exact foldl_addTrade_perm u d _ _ hobs c rb v
  · intro c2 result h
    have hu : QMap.contains c2.buckets u = true := QMap.contains_of_value_contains _ u d h
    unfold AlphaCalculator.rebuildBucketFromDb
    simp only [QMap.value_touch, h, if_true]
    unfold QMap.touch
    rw [if_pos hu]
  · intro s tid t rest c1
    rw [out_closeRecord]
    constructor
    · simp [engineFeed, liveObservation]
    · simp [closedRow]


/-! ## One round of the equity loop -/

@[simp] theorem equitySends_map_tradeSend (l : List Nat) (obj : Payload) :
    equitySends (l.map (fun ws => Event.tradeSend ws obj)) = [] := by
  induction l with
  | nil => rfl
  | cons a l ih => simp [equitySends]

theorem equitySends_foldl_keep {α : Type} (f : State → α → State)
    (hf : ∀ st a, equitySends (f st a).out = equitySends st.out) (l : List α) (s : State) :
    equitySends (l.foldl f s).out = equitySends s.out := by
  induction l generalizing s with
  | nil => rfl
  | cons a l ih => exact (ih _).trans (hf s a)

theorem equitySends_tradeDashboardUpdate (s : State) (uid : Int) (asset : Asset) :
    equitySends (TradeServer.tradeDashboardUpdate s uid asset).out = equitySends s.out := by
  unfold TradeServer.tradeDashboardUpdate
  refine (equitySends_foldl_keep _ ?_ _ _).trans rfl
  intro st e
  split
  · rfl
  · simp [emitAll]

theorem appends_round_tradeDashboardUpdate (s : State) (uid : Int) (asset : Asset) :
    Appends roundEvent s (TradeServer.tradeDashboardUpdate s uid asset) := by
  unfold TradeServer.tradeDashboardUpdate
  refine (appends_touchUser _ s uid).chain (appends_foldl _ _ ?_ _ _)
  intro st e
  split
  · exact Appends.nothing _ _
  · refine ⟨_, rfl, ?_⟩
    intro x hx
    obtain ⟨ws, -, rfl⟩ := List.mem_map.1 hx
    rfl

theorem lockCount_of_round {s s1 : State} (uid : Int) (h : Appends roundEvent s s1) :
    lockCount uid s1.out = lockCount uid s.out := by
  obtain ⟨new, e, p⟩ := h
  have hnew : new.count (Event.closeAllTrades uid) = 0 := by
    rw [List.count_eq_zero]
    intro hmem
    have := p _ hmem
    simp [roundEvent] at this
  rw [e]
  simp [lockCount, List.count_append, hnew]

theorem onEquityUpdate_above (s : State) (uid : Int) (totalPnL : ℚ) (row : AccountRow)
    (hrow : s.account uid = some row) (hgt : row.max_loss < row.balance + totalPnL) :
    AccountServer.onEquityUpdate TradeServer.onCloseAllTrades s uid totalPnL =
      AccountServer.broadcastJson s uid (Payload.equity (row.balance + totalPnL)) := by
  unfold AccountServer.onEquityUpdate
  rw [hrow]
  simp only
  rw [if_neg (not_le.2 hgt)]

theorem onEquityUpdate_below (s : State) (uid : Int) (totalPnL : ℚ) (row : AccountRow)
    (hrow : s.account uid = some row) (hle : row.balance + totalPnL ≤ row.max_loss) :
    AccountServer.onEquityUpdate TradeServer.onCloseAllTrades s uid totalPnL =
      AccountServer.accountLocked TradeServer.onCloseAllTrades
        (updateAccount s uid (fun r => { r with balance := row.balance + totalPnL })) uid := by
  unfold AccountServer.onEquityUpdate
  rw [hrow]
  simp only
  rw [if_pos hle]

theorem out_accountLocked (uid : Int) (s : State) :
    ∃ more, (AccountServer.accountLocked TradeServer.onCloseAllTrades s uid).out =
      s.out ++ Event.closeAllTrades uid :: more := by
  have h : Appends closeEvent
      (emit (updateAccount s uid (fun r => { r with status := false })) (Event.closeAllTrades uid))
      (AccountServer.accountLocked TradeServer.onCloseAllTrades s uid) := by
    unfold AccountServer.accountLocked
    exact (appends_onCloseAllTrades _ uid).chain
      (appends_broadcastJson _ _ uid Payload.accountLocked (fun _ => rfl))
  obtain ⟨new, hout, -⟩ := h
  exact ⟨new, by rw [hout]; simp [emit, updateAccount]⟩

/-- One round of the equity loop for an account with a row, when the total
P&L read by the round is `pnl`. -/
theorem equityRound_hub (asset : Asset) (st : State) (uid : Int) (pnl : ℚ) (row : AccountRow)
    (hpnl : TradeServer.getTotalPnL (touchUser st uid) uid = pnl)
    (hrow : st.account uid = some row) :
    (row.max_loss < row.balance + pnl →
      equitySends (TradeServer.equityRound asset st uid).out =
        equitySends st.out ++ (fanOut st uid).map (fun ws => (ws, row.balance + pnl)) ∧
      lockCount uid (TradeServer.equityRound asset st uid).out = lockCount uid st.out) ∧
    (row.balance + pnl ≤ row.max_loss →
      (∃ more, (TradeServer.equityRound asset st uid).out =
        st.out ++ Event.equityUpdate uid pnl :: Event.closeAllTrades uid :: more) ∧
      equitySends (TradeServer.equityRound asset st uid).out = equitySends st.out) := by
  have hrow1 : (emit (touchUser st uid) (Event.equityUpdate uid pnl)).account uid = some row := hrow
  constructor
  · intro hgt
    unfold TradeServer.equityRound
    simp only [hpnl]
    rw [onEquityUpdate_above _ uid pnl row hrow1 hgt]
    constructor
    · rw [equitySends_tradeDashboardUpdate, equitySends_broadcast_equity]
      simp [emit, touchUser, fanOut, equitySends]
    · rw [lockCount_of_round uid (appends_round_tradeDashboardUpdate _ uid asset),
        lockCount_of_round uid (appends_broadcastJson roundEvent _ uid _ (fun _ => rfl))]
      simp [emit, touchUser, lockCount, List.count_append]
  · intro hle
    unfold TradeServer.equityRound
    simp only [hpnl]
    rw [onEquityUpdate_below _ uid pnl row hrow1 hle]
    constructor
    · obtain ⟨more, hmore⟩ := out_accountLocked uid
        (updateAccount (emit (touchUser st uid) (Event.equityUpdate uid pnl)) uid
          (fun r => { r with balance := row.balance + pnl }))
      obtain ⟨new, hnew, -⟩ := appends_round_tradeDashboardUpdate
        (AccountServer.accountLocked TradeServer.onCloseAllTrades
          (updateAccount (emit (touchUser st uid) (Event.equityUpdate uid pnl)) uid
            (fun r => { r with balance := row.balance + pnl })) uid) uid asset
      refine ⟨more ++ new, ?_⟩
      rw [hnew, hmore]
      simp [emit, touchUser, updateAccount]
    · rw [equitySends_tradeDashboardUpdate]
      rw [equitySends_of_appends ((appends_updateAccount _ _ uid _).chain
        (appends_accountLocked _ uid (fun st => appends_onCloseAllTrades st uid) _))]
      simp [emit, touchUser, equitySends]

/-! ## The bucket of a day as sums over the calls -/

theorem QMap.mem_insert {V : Type} (m : List (Int × V)) (k : Int) (v : V) (e : Int × V)
    (h : e ∈ QMap.insert m k v) : e = (k, v) ∨ e ∈ m := by
  induction m with
  | nil =>
    simp only [QMap.insert, List.mem_singleton] at h
    exact Or.inl h
  | cons hd tl ih =>
    obtain ⟨k0, v0⟩ := hd
    simp only [QMap.insert] at h
    by_cases h0 : k0 = k
    · simp only [h0, if_true, List.mem_cons] at h
      rcases h with h | h
      · exact Or.inl h
      · exact Or.inr (List.mem_cons_of_mem _ h)
    · simp only [h0, if_false] at h
      by_cases h1 : k < k0
      · simp only [h1, if_true, List.mem_cons] at h
        rcases h with h | h | h
        · exact Or.inl h
        · exact Or.inr (h ▸ List.mem_cons_self _ _)
        · exact Or.inr (List.mem_cons_of_mem _ h)
      · simp only [h1, if_false, List.mem_cons] at h
        rcases h with h | h
        · exact Or.inr (h ▸ List.mem_cons_self _ _)
        · rcases ih h with h2 | h2
          · exact Or.inl h2
          · exact Or.inr (List.mem_cons_of_mem _ h2)

theorem QMap.ascending_insert {V : Type} (m : List (Int × V)) (k : Int) (v : V)
    (h : QMap.Ascending m) : QMap.Ascending (QMap.insert m k v) := by
  unfold QMap.Ascending at h ⊢
  induction m with
  | nil => simp [QMap.insert]
  | cons hd tl ih =>
    obtain ⟨k0, v0⟩ := hd
    obtain ⟨hhd, htl⟩ := List.pairwise_cons.1 h
    simp only [QMap.insert]
    by_cases h0 : k0 = k
    · simp only [h0, if_true]
      exact List.pairwise_cons.2 ⟨fun e he => h0 ▸ hhd e he, htl⟩
    · simp only [h0, if_false]
      by_cases h1 : k < k0
      · simp only [h1, if_true]
        refine List.pairwise_cons.2 ⟨?_, h⟩
        intro e he
        rcases List.mem_cons.1 he with rfl | he1
        · exact h1
        · exact lt_trans h1 (hhd e he1)
      · simp only [h1, if_false]
        refine List.pairwise_cons.2 ⟨?_, ih htl⟩
        intro e he
        rcases QMap.mem_insert tl k v e he with rfl | he1
        · exact lt_of_le_of_ne (not_lt.1 h1) h0
        · exact hhd e he1

theorem QMap.value_of_mem {V : Type} (m : List (Int × V)) (h : QMap.Ascending m) (k : Int)
    (v d : V) (hm : (k, v) ∈ m) : QMap.value m k d = v := by
  unfold QMap.Ascending at h
  induction m with
  | nil => exact absurd hm (List.not_mem_nil _)
  | cons hd tl ih =>
    obtain ⟨k0, v0⟩ := hd
    obtain ⟨hhd, htl⟩ := List.pairwise_cons.1 h
    rcases List.mem_cons.1 hm with heq | hm1
    · injection heq with hk hv
      simp [QMap.value, hk, hv]
    · have hlt : k0 < k := hhd (k, v) hm1
      simp only [QMap.value, ne_of_lt hlt, if_false]
      exact ih htl hm1

theorem ascendingDays_empty : AscendingDays AlphaCalculator.empty := by
  intro u
  simp [AlphaCalculator.empty, QMap.value, QMap.Ascending]

theorem ascendingDays_setBucket (c : AlphaCalculator.Calc) (u d : Int)
    (b : AlphaCalculator.Bucket) (h : AscendingDays c) :
    AscendingDays (AlphaCalculator.setBucket c u d b) := by
  intro u1
  unfold AlphaCalculator.setBucket
  simp only [QMap.value_insert]
  split
  · exact QMap.ascending_insert _ d b (h u)
  · exact h u1

theorem buckets_computeAlpha (c : AlphaCalculator.Calc) (u : Int) :
    (AlphaCalculator.computeAlpha c u).buckets = QMap.touch c.buckets u [] := by
  unfold AlphaCalculator.computeAlpha
  simp only
  split <;> rfl

theorem ascendingDays_computeAlpha (c : AlphaCalculator.Calc) (u : Int) (h : AscendingDays c) :
    AscendingDays (AlphaCalculator.computeAlpha c u) := by
  intro u1
  rw [buckets_computeAlpha, QMap.value_touch]
  exact h u1

theorem ascendingDays_record (c : AlphaCalculator.Calc) (o : Observation) (h : AscendingDays c) :
    AscendingDays (record c o) := by
  cases o with
  | trade v e rp w => exact ascendingDays_setBucket c v e _ h
  | benchmark v e rb w =>
    simp only [record, AlphaCalculator.addBenchmark]
    split
    · exact ascendingDays_computeAlpha _ v (ascendingDays_setBucket c v e _ h)
    · exact ascendingDays_setBucket c v e _ h

theorem ascendingDays_foldl (calls : List Observation) (c : AlphaCalculator.Calc)
    (h : AscendingDays c) : AscendingDays (calls.foldl record c) := by
  induction calls generalizing c with
  | nil => exact h
  | cons o rest ih => exact ih _ (ascendingDays_record c o h)

theorem bucketAt_setBucket_other (c : AlphaCalculator.Calc) (u d u1 d1 : Int)
    (b : AlphaCalculator.Bucket) (h : ¬ (u = u1 ∧ d = d1)) :
    AlphaCalculator.bucketAt (AlphaCalculator.setBucket c u d b) u1 d1 =
      AlphaCalculator.bucketAt c u1 d1 := by
  unfold AlphaCalculator.bucketAt AlphaCalculator.setBucket
  simp only [QMap.value_insert]
  by_cases hu : u = u1
  · have hd : d ≠ d1 := fun hd => h ⟨hu, hd⟩
    simp [hu, hd, QMap.value_insert]
  · simp [hu]

theorem bucketAt_computeAlpha (c : AlphaCalculator.Calc) (u u1 d1 : Int) :
    AlphaCalculator.bucketAt (AlphaCalculator.computeAlpha c u) u1 d1 =
      AlphaCalculator.bucketAt c u1 d1 := by
  unfold AlphaCalculator.bucketAt
  rw [buckets_computeAlpha, QMap.value_touch]

theorem bucketAt_addTrade (c : AlphaCalculator.Calc) (v e u d : Int) (rp w : ℚ) :
    AlphaCalculator.bucketAt (AlphaCalculator.addTrade c v e rp w) u d =
      if v = u ∧ e = d then
        { wRp := (AlphaCalculator.bucketAt c u d).wRp + w * rp,
          wRb := (AlphaCalculator.bucketAt c u d).wRb,
          w := (AlphaCalculator.bucketAt c u d).w + w }
      else AlphaCalculator.bucketAt c u d := by
  unfold AlphaCalculator.addTrade
  by_cases h : v = u ∧ e = d
  · obtain ⟨rfl, rfl⟩ := h
    simp [bucketAt_setBucket]
  · simp only [h, if_false]
    exact bucketAt_setBucket_other c v e u d _ h

theorem bucketAt_addBenchmark (c : AlphaCalculator.Calc) (v e u d : Int) (rb w : ℚ) :
    AlphaCalculator.bucketAt (AlphaCalculator.addBenchmark c v e rb w) u d =
      if v = u ∧ e = d then
        { wRp := (AlphaCalculator.bucketAt c u d).wRp,
          wRb := (AlphaCalculator.bucketAt c u d).wRb + w * rb,
          w := (AlphaCalculator.bucketAt c u d).w + w }
      else AlphaCalculator.bucketAt c u d := by
  have hset : AlphaCalculator.bucketAt (AlphaCalculator.setBucket c v e
      { wRp := (AlphaCalculator.bucketAt c v e).wRp,
        wRb := (AlphaCalculator.bucketAt c v e).wRb + w * rb,
        w := (AlphaCalculator.bucketAt c v e).w + w }) u d =
      if v = u ∧ e = d then
        { wRp := (AlphaCalculator.bucketAt c u d).wRp,
          wRb := (AlphaCalculator.bucketAt c u d).wRb + w * rb,
          w := (AlphaCalculator.bucketAt c u d).w + w }
      else AlphaCalculator.bucketAt c u d := by
    by_cases h : v = u ∧ e = d
    · obtain ⟨rfl, rfl⟩ := h
      simp [bucketAt_setBucket]
    · simp only [h, if_false]
      exact bucketAt_setBucket_other c v e u d _ h
  unfold AlphaCalculator.addBenchmark
  simp only
  split
  · rw [bucketAt_computeAlpha]
    exact hset
  · exact hset

theorem bucketAt_foldl_record (calls : List Observation) (c : AlphaCalculator.Calc) (u d : Int) :
    AlphaCalculator.bucketAt (calls.foldl record c) u d =
      { wRp := (AlphaCalculator.bucketAt c u d).wRp +
          ((tradeLeg calls u d).map (fun o => o.2 * o.1)).sum,
        wRb := (AlphaCalculator.bucketAt c u d).wRb +
          ((benchmarkLeg calls u d).map (fun o => o.2 * o.1)).sum,
        w := (AlphaCalculator.bucketAt c u d).w +
          (((tradeLeg calls u d).map (fun o => o.2)).sum +
            ((benchmarkLeg calls u d).map (fun o => o.2)).sum) } := by
  induction calls generalizing c with
  | nil => simp [tradeLeg, benchmarkLeg]
  | cons o rest ih =>
    rw [List.foldl_cons, ih]
    cases o with
    | trade v e rp w =>
      simp only [record, bucketAt_addTrade]
      by_cases h : v = u ∧ e = d
      · simp only [tradeLeg, benchmarkLeg, List.filterMap_cons, h, and_self, if_true,
          List.map_cons, List.sum_cons]
        congr 1 <;> ring
      · simp only [tradeLeg, benchmarkLeg, List.filterMap_cons, h, if_false]
    | benchmark v e rb w =>
      simp only [record, bucketAt_addBenchmark]
      by_cases h : v = u ∧ e = d
      · simp only [tradeLeg, benchmarkLeg, List.filterMap_cons, h, and_self, if_true,
          List.map_cons, List.sum_cons]
        congr 1 <;> ring
      · simp only [tradeLeg, benchmarkLeg, List.filterMap_cons, h, if_false]

theorem bucketAt_empty (u d : Int) :
    AlphaCalculator.bucketAt AlphaCalculator.empty u d = { wRp := 0, wRb := 0, w := 0 } := rfl

theorem bucket_of_calls (calls : List Observation) (u d : Int) :
    AlphaCalculator.bucketAt (calls.foldl record AlphaCalculator.empty) u d =
      { wRp := ((tradeLeg calls u d).map (fun o => o.2 * o.1)).sum,
        wRb := ((benchmarkLeg calls u d).map (fun o => o.2 * o.1)).sum,
        w := ((tradeLeg calls u d).map (fun o => o.2)).sum +
          ((benchmarkLeg calls u d).map (fun o => o.2)).sum } := by
  rw [bucketAt_foldl_record, bucketAt_empty]
  simp

theorem bucket_of_entry (calls : List Observation) (u : Int) (e : Int × AlphaCalculator.Bucket)
    (he : e ∈ QMap.value (calls.foldl record AlphaCalculator.empty).buckets u []) :
    e.2 = AlphaCalculator.bucketAt (calls.foldl record AlphaCalculator.empty) u e.1 := by
  unfold AlphaCalculator.bucketAt
  exact (QMap.value_of_mem _ (ascendingDays_foldl calls _ ascendingDays_empty u) e.1 e.2 _ he).symm

/-! ## Results -/

/-- C2, evaluated where the lock decision of the hub differs from the
equity test.  (1) Balance 10000, floor 9000, position `"A"` flat and position
`"B"` with an unrealised loss of 2000: closing `"A"` realises 0, the equity
after the event is 10000 - 2000 = 8000 ≤ 9000, and `onCloseTrade` does not
lock.  (2) Balance 9500, floor 9000, `"A"` at -1000 and `"B"` at +1000: the
equity is 9500 before the close request for `"A"` and, a close at the live
price moving P&L from unrealised to realised, 8500 + 1000 = 9500 > 9000 at the
close event; `onCloseTrade` locks, since it compares the new balance alone
with the floor, and the cascade then closes `"B"`. -/
theorem close_event_lock_ignores_unrealised :
    (trades lossOpen 1 = [(positionA, 0), (positionB, -2000)] ∧
      lockCount 1 lossOpen.out = 0 ∧
      lockCount 1 (step lossOpen (closeMsg "A")).out = 0 ∧
      (step lossOpen (closeMsg "A")).account 1 =
        some { balance := 10000, max_loss := 9000, status := true } ∧
      trades (step lossOpen (closeMsg "A")) 1 = [(positionB, -2000)] ∧
      unrealizedPnL (step lossOpen (closeMsg "A")) 1 = -2000 ∧
      (10000 : ℚ) + unrealizedPnL (step lossOpen (closeMsg "A")) 1 ≤ 9000) ∧
    (trades gainOpen 1 = [(positionA, -1000), (positionB, 1000)] ∧
      gainOpen.account 1 = some { balance := 9500, max_loss := 9000, status := true } ∧
      (9000 : ℚ) < 9500 + unrealizedPnL gainOpen 1 ∧
      lockCount 1 gainOpen.out = 0 ∧
      lockCount 1 (step gainOpen (closeMsg "A")).out = 1 ∧
      closedPnls 1 (step gainOpen (closeMsg "A")).out = [-1000, 1000] ∧
      (step gainOpen (closeMsg "A")).account 1 =
        some { balance := 9500, max_loss := 9000, status := false }) := by
  decide!

/-- C3: in the scenario (balance 10000, floor 9000, one LONG BTCUSDT position
of size 1 opened at 50000 with stop-loss 49000 and take-profit 52000) the tick
at 49000 closes the position with realised P&L -1000, the balance becomes 9000
and the account is locked; with or without a connected account dashboard. -/
theorem scenario_stop_loss_locks (dash : Bool) :
    trades (scenarioOpened dash) 1 = [(scenarioTrade, 0)] ∧
    (scenarioOpened dash).account 1 = some { balance := 10000, max_loss := 9000, status := true } ∧
    trades (scenarioTicked dash) 1 = [] ∧
    closedPnls 1 (scenarioTicked dash).out = [-1000] ∧
    (scenarioTicked dash).account 1 = some { balance := 9000, max_loss := 9000, status := false } ∧
    Event.closeAllTrades 1 ∈ (scenarioTicked dash).out := by
  cases dash <;> decide!

/-- C4, evaluated after a lock: the stop-loss scenario has locked account 1
(status cleared, `closeAllTrades` emitted, no open position left); the next
new-order message for account 1 opens a position, because
`TradeServer::onTextMessageReceived` never reads the status of the account. -/
theorem locked_account_opens_position :
    (scenarioTicked true).account 1 = some { balance := 9000, max_loss := 9000, status := false } ∧
    Event.closeAllTrades 1 ∈ (scenarioTicked true).out ∧
    trades (scenarioTicked true) 1 = [] ∧
    trades (step (scenarioTicked true) (orderMsg "T2" Asset.BTCUSDT "long" 1 40000 60000)) 1 =
      [({ tradeID := "T2", stopLoss := 40000, takeProfit := 60000, size := 1,
          asset := Asset.BTCUSDT, openPrice := 49000, type := "market", position := "long" }, 0)] ∧
    (step (scenarioTicked true) (orderMsg "T2" Asset.BTCUSDT "long" 1 40000 60000)).account 1 =
      some { balance := 9000, max_loss := 9000, status := false } := by
  decide!

/-- C5, evaluated on a lock with two open positions: user 1 (balance 10000,
floor 9000, account dashboard connected) holds `"A"` in BTCUSDT and `"B"` in
ETHUSDT, both with distinct trade ids.  The BTCUSDT tick at 48000 hits no limit
and marks `"A"` at -2000; the equity update (8000 ≤ 9000) locks the account, and
`onCloseAllTrades` copies the keys `"A"`, `"B"`.  The close of `"A"` makes the hub
lock again, the nested cascade closes and deletes `"B"`, and the outer loop then
calls `getTradeID()` on the deleted `"B"`: the lock handling does not complete
as a defined run of the program.  The same happens when the key of `"B"` is the
first of the two (the close of `"B"` locks again, and the deleted `"A"` is
read).  One open position is handled without such a read. -/
theorem lock_cascade_reads_deleted_position :
    trades watchedPair 1 = [(positionA, 0), (positionB, 0)] ∧
    fanOut watchedPair 1 = [7] ∧
    watchedPair.dangling = false ∧
    trades watchedPairMarked 1 = [(positionA, -2000), (positionB, 0)] ∧
    watchedPairMarked.account 1 = some { balance := 10000, max_loss := 9000, status := true } ∧
    lockCount 1 watchedPairMarked.out = 0 ∧
    watchedPairMarked.dangling = false ∧
    (AccountServer.accountLocked TradeServer.onCloseAllTrades watchedPairMarked 1).dangling = true ∧
    (AccountServer.onEquityUpdate TradeServer.onCloseAllTrades watchedPairMarked 1
      (TradeServer.getTotalPnL watchedPairMarked 1)).dangling = true ∧
    (step watchedPair (tickAt Asset.BTCUSDT 48000)).dangling = true ∧
    trades watchedPairSwapped 1 = [(positionB, 0), (positionA, 0)] ∧
    watchedPairSwapped.dangling = false ∧
    (step watchedPairSwapped (tickAt Asset.BTCUSDT 48000)).dangling = true ∧
    (step watchedPosition (tickAt Asset.BTCUSDT 48000)).dangling = false := by
  decide!

/-- C6, as stated, fails: user 1 (balance 10000, floor 9000) holds one LONG
BTCUSDT position opened at 50000, and the account dashboard is connected.  The
tick at 48000 hits no limit; the equity update (8000 ≤ 9000) locks the account
once, and the close that the cascade performs makes the hub run its lock check
again and invoke `accountLocked` a second time. -/
theorem cascade_triggers_second_lock :
    trades watchedPosition 1 = [(positionA, 0)] ∧
    lockCount 1 watchedPosition.out = 0 ∧
    (step watchedPosition (tickAt Asset.BTCUSDT 48000)).out.filter
        (fun e => decide (e = Event.equityUpdate 1 (-2000) ∨ e = Event.closeAllTrades 1 ∨
          e = Event.tradeClosed 1 (-2000))) =
      [Event.equityUpdate 1 (-2000), Event.closeAllTrades 1, Event.tradeClosed 1 (-2000),
        Event.closeAllTrades 1] ∧
    lockCount 1 (step watchedPosition (tickAt Asset.BTCUSDT 48000)).out = 2 := by
  decide!

/-- C6, amended: the cascade triggers no lock check on an account without open
positions or without a row; otherwise the hub handles the `tradeClosed` of
every close of the cascade with its lock check `newBal ≤ maxL`, and runs
`accountLocked` again after each close that leaves the balance at or below the
floor: the number of further runs is `relocks` of the P&L values of the closed
positions.  In particular a first close that breaches the floor locks again. -/
theorem cascade_lock_checks (s : State) (uid : Int) :
    (lockCount uid (TradeServer.onCloseAllTrades s uid).out =
      lockCount uid s.out +
        match s.account uid with
        | none => 0
        | some row => relocks row.balance row.max_loss
            ((trades s uid).map (fun e => pnlAt (s.livePrices e.1.asset) e.1))) ∧
    (trades s uid = [] →
      lockCount uid (TradeServer.onCloseAllTrades s uid).out = lockCount uid s.out) ∧
    (∀ row t p rest, s.account uid = some row → trades s uid = (t, p) :: rest →
      row.balance + pnlAt (s.livePrices t.asset) t ≤ row.max_loss →
      lockCount uid s.out < lockCount uid (TradeServer.onCloseAllTrades s uid).out) := by
  have hc := (cascade_onCloseAllTrades s uid).locks
  refine ⟨hc, ?_, ?_⟩
  · intro h
    rw [hc]
    cases s.account uid <;> simp [livePnls, h, relocks]
  · intro row t p rest hrow ht hb
    rw [hc, hrow]
    simp [livePnls, ht, relocks, hb]

/-- C7: on an account without open positions `onCloseAllTrades`, called once
or twice in a row, emits nothing at all (no `tradeClosed`, no alpha
observation: the log is unchanged) and leaves the open positions of every
account, the prices and the accounts as they are. -/
theorem closeAll_flat_is_noop (s : State) (uid : Int) (h : trades s uid = []) :
    (TradeServer.onCloseAllTrades s uid).out = s.out ∧
    (TradeServer.onCloseAllTrades (TradeServer.onCloseAllTrades s uid) uid).out = s.out ∧
    (∀ u, trades (TradeServer.onCloseAllTrades s uid) u = trades s u) ∧
    (∀ u, trades (TradeServer.onCloseAllTrades (TradeServer.onCloseAllTrades s uid) uid) u =
      trades s u) ∧
    (TradeServer.onCloseAllTrades (TradeServer.onCloseAllTrades s uid) uid).account = s.account ∧
    (TradeServer.onCloseAllTrades (TradeServer.onCloseAllTrades s uid) uid).livePrices =
      s.livePrices := by
  have h1 : TradeServer.onCloseAllTrades s uid = touchUser s uid := onCloseAllTrades_flat s uid h
  have h2 : TradeServer.onCloseAllTrades (touchUser s uid) uid = touchUser (touchUser s uid) uid :=
    onCloseAllTrades_flat _ uid (by simpa using h)
  rw [h1, h2]
  simp

/-- Witness for `closeAll_flat_is_noop`: account 1 after the stop-loss
scenario has closed its only position. -/
theorem closeAll_flat_is_noop_witness :
    trades (scenarioTicked false) 1 = [] ∧
    ((TradeServer.onCloseAllTrades (scenarioTicked false) 1).out = (scenarioTicked false).out ∧
    (TradeServer.onCloseAllTrades (TradeServer.onCloseAllTrades (scenarioTicked false) 1) 1).out =
      (scenarioTicked false).out ∧
    (∀ u, trades (TradeServer.onCloseAllTrades (scenarioTicked false) 1) u =
      trades (scenarioTicked false) u) ∧
    (∀ u, trades (TradeServer.onCloseAllTrades
        (TradeServer.onCloseAllTrades (scenarioTicked false) 1) 1) u =
      trades (scenarioTicked false) u) ∧
    (TradeServer.onCloseAllTrades (TradeServer.onCloseAllTrades (scenarioTicked false) 1) 1).account =
      (scenarioTicked false).account ∧
    (TradeServer.onCloseAllTrades (TradeServer.onCloseAllTrades (scenarioTicked false) 1) 1).livePrices =
      (scenarioTicked false).livePrices) :=
  ⟨by decide!, closeAll_flat_is_noop (scenarioTicked false) 1 (by decide!)⟩

/-- C8, as stated, fails: user 1 (balance 9500, floor 9000) holds `"A"` in
BTCUSDT with stop-loss 40000 and `"B"` in ETHUSDT, whose limits 500 and 5000 are
not touched at the ETHUSDT price 3000.  In the handler of the BTCUSDT tick at
40000 the limit check closes `"A"` with P&L -10000; the hub locks, and the
cascade closes `"B"` inside `checkLimits`: a position in another asset, whose
trigger does not hold, is closed during the limit check. -/
theorem limit_check_closes_other_asset :
    trades (twoPositions 9500 9000) 1 = [(positionA, 0), (positionB, 0)] ∧
    (twoPositions 9500 9000).livePrices Asset.ETHUSDT = 3000 ∧
    ¬ touchTriggered 3000 positionB ∧
    trades (TradeServer.checkLimits
      (setPrice (twoPositions 9500 9000) Asset.BTCUSDT 40000) 1 Asset.BTCUSDT) 1 = [] ∧
    trades (step (twoPositions 9500 9000) (tickAt Asset.BTCUSDT 40000)) 1 = [] ∧
    closedPnls 1 (step (twoPositions 9500 9000) (tickAt Asset.BTCUSDT 40000)).out =
      [-10000, 0] := by
  decide!

/-- C8, amended: for an account whose open positions have distinct trade ids,
`checkLimits(uid, asset)` at `p = livePrices[asset]` closes every open position
of the asset whose trigger holds at `p` (touch semantics).  If the hub does not
lock the account during the check, exactly these positions are closed: the
positions whose trigger does not hold and the positions in other assets stay
open, unchanged and in order.  If one of the closes locks the account, the
lock cascade closes all remaining positions of the account.  Positions of
other accounts are never affected. -/
theorem limit_check_touch (s : State) (uid : Int) (asset : Asset)
    (hnd : ((trades s uid).map (fun e => e.1.tradeID)).Nodup) :
    (∀ e ∈ trades s uid, e.1.asset = asset → touchTriggered (s.livePrices asset) e.1 →
      e ∉ trades (TradeServer.checkLimits s uid asset) uid) ∧
    (lockCount uid (TradeServer.checkLimits s uid asset).out = lockCount uid s.out →
      trades (TradeServer.checkLimits s uid asset) uid =
        (trades s uid).filter
          (fun e => decide (¬ (e.1.asset = asset ∧ touchTriggered (s.livePrices asset) e.1)))) ∧
    (lockCount uid (TradeServer.checkLimits s uid asset).out ≠ lockCount uid s.out →
      trades (TradeServer.checkLimits s uid asset) uid = []) ∧
    (∀ u, u ≠ uid → trades (TradeServer.checkLimits s uid asset) u = trades s u) := by
  have hfold := foldl_limitStep uid asset s.livePrices (lockCount uid s.out) (trades s uid) []
    (touchUser s uid) (by simpa using hnd) rfl rfl (by simp)
  rw [← checkLimits_eq] at hfold
  simp only [List.nil_append] at hfold
  refine ⟨?_, ?_, ?_, fun u hu => (frame_checkLimits s uid asset).tradesOther u hu⟩
  · intro e he ha htr hmem
    rcases hfold with ⟨-, ht⟩ | ⟨-, ht⟩
    · rw [ht] at hmem
      have := (List.mem_filter.1 hmem).2
      simp only [decide_eq_true_eq] at this
      exact this ⟨ha, htr⟩
    · rw [ht] at hmem
      exact absurd hmem (List.not_mem_nil _)
  · intro hc
    rcases hfold with ⟨-, ht⟩ | ⟨hlt, -⟩
    · exact ht
    · omega
  · intro hc
    rcases hfold with ⟨heq, -⟩ | ⟨-, ht⟩
    · exact absurd heq hc
    · exact ht

/-- Witness for `limit_check_touch`: with balance 100000 the close of `"A"` at
40000 does not lock, and the ETHUSDT position stays open. -/
theorem limit_check_touch_witness :
    ((trades (setPrice (twoPositions 100000 9000) Asset.BTCUSDT 40000) 1).map
      (fun e => e.1.tradeID)).Nodup ∧
    trades (TradeServer.checkLimits
      (setPrice (twoPositions 100000 9000) Asset.BTCUSDT 40000) 1 Asset.BTCUSDT) 1 =
      [(positionB, 0)] :=
  ⟨by decide!,
    ((limit_check_touch (setPrice (twoPositions 100000 9000) Asset.BTCUSDT 40000) 1
      Asset.BTCUSDT (by decide!)).2.1 (by decide!)).trans (by decide!)⟩

/-- C9, as stated, fails: user 1 (balance 9500, floor 9000, no account
dashboard connected) holds `"A"` with an unrealised loss of 1000 and `"B"`
flat, so the equity of the account is 8500.  The close request for `"A"`
realises -1000; the equity of the account, 8500 before and after the close, is
at or below the floor, the hub locks on the `tradeClosed` event, and the
cascade closes `"B"` inside the same call: the other open position does not
stay open.  No deleted position is read in this run. -/
theorem close_removes_other_position :
    trades floorBreached 1 = [(positionA, -1000), (positionB, 0)] ∧
    floorBreached.account 1 = some { balance := 9500, max_loss := 9000, status := true } ∧
    (9500 : ℚ) + unrealizedPnL floorBreached 1 = 8500 ∧
    lockCount 1 floorBreached.out = 0 ∧
    trades (TradeServer.closeTrade floorBreached 1 "A") 1 = [] ∧
    closedPnls 1 (TradeServer.closeTrade floorBreached 1 "A").out = [-1000, 0] ∧
    0 < lockCount 1 (TradeServer.closeTrade floorBreached 1 "A").out ∧
    (TradeServer.closeTrade floorBreached 1 "A").dangling = false := by
  decide!

/-- C9, amended: `closeTrade(uid, tid)` on an open position (the first key
whose id is `tid`) emits `tradeClosed(uid, pnl)` with
`pnl = (live − openPrice)·size` for a `"long"` position and
`(openPrice − live)·size` otherwise, `live` the live price of the asset of the
position at the call, and leaves the positions of all other accounts unchanged.
If the hub does not lock the account while it handles that event, exactly that
position is removed and the other positions of the account are unchanged.  If
the hub locks the account, its lock handling runs inside the call, and when
that handling has read no deleted position it has closed the other positions of
the account as well, each with one `tradeClosed`. -/
theorem closeTrade_on_open_position (s : State) (uid : Int) (tid : String) (pre : TradeMap)
    (t : Trade) (p : ℚ) (post : TradeMap) (h : trades s uid = pre ++ (t, p) :: post)
    (hid : t.tradeID = tid) (hpre : ∀ e ∈ pre, e.1.tradeID ≠ tid) :
    (∃ more, (TradeServer.closeTrade s uid tid).out =
      s.out ++ [Event.historyUpdate tid (s.livePrices t.asset)
          (if t.position = "long" then (s.livePrices t.asset - t.openPrice) * t.size
            else (t.openPrice - s.livePrices t.asset) * t.size) s.now,
        Event.addTrade uid s.now.date ((s.livePrices t.asset - t.openPrice) / t.openPrice)
          |t.size * t.openPrice|,
        Event.tradeClosed uid
          (if t.position = "long" then (s.livePrices t.asset - t.openPrice) * t.size
            else (t.openPrice - s.livePrices t.asset) * t.size)] ++ more) ∧
    (∀ u, u ≠ uid → trades (TradeServer.closeTrade s uid tid) u = trades s u) ∧
    (lockCount uid (TradeServer.closeTrade s uid tid).out = lockCount uid s.out →
      trades (TradeServer.closeTrade s uid tid) uid = pre ++ post ∧
      closedPnls uid (TradeServer.closeTrade s uid tid).out =
        closedPnls uid s.out ++
          [if t.position = "long" then (s.livePrices t.asset - t.openPrice) * t.size
            else (t.openPrice - s.livePrices t.asset) * t.size]) ∧
    (lockCount uid (TradeServer.closeTrade s uid tid).out ≠ lockCount uid s.out →
      (TradeServer.closeTrade s uid tid).dangling = false →
      trades (TradeServer.closeTrade s uid tid) uid = [] ∧
      (closedPnls uid (TradeServer.closeTrade s uid tid).out).length =
        (closedPnls uid s.out).length + 1 + (pre ++ post).length) := by
  have hpnl : (if t.position = "long" then (s.livePrices t.asset - t.openPrice) * t.size
      else (t.openPrice - s.livePrices t.asset) * t.size) = pnlAt (s.livePrices t.asset) t := by
    unfold pnlAt
    split <;> rfl
  rw [hpnl]
  have hcases : (∀ row, s.account uid = some row →
      ¬ row.balance + pnlAt (s.livePrices t.asset) t ≤ row.max_loss) ∨
      ∃ row, s.account uid = some row ∧
        row.balance + pnlAt (s.livePrices t.asset) t ≤ row.max_loss := by
    by_cases hex : ∃ row, s.account uid = some row ∧
        row.balance + pnlAt (s.livePrices t.asset) t ≤ row.max_loss
    · exact Or.inr hex
    · exact Or.inl (fun row hrow hb => hex ⟨row, hrow, hb⟩)
  refine ⟨closeTrade_out s uid tid pre t p post h hid hpre,
    fun u hu => (frame_closeTrade s uid tid).tradesOther u hu, ?_, ?_⟩
  · intro hsame
    rcases hcases with hfree | ⟨row, hrow, hb⟩
    · have hf := closeTrade_open_free s uid tid pre t p post h hid hpre hfree
      exact ⟨hf.1, hf.2.1⟩
    · have hl := closeTrade_open_locked s uid tid pre t p post h hid hpre row hrow hb
      rw [hl.2.2.1] at hsame
      omega
  · intro hdiff _
    rcases hcases with hfree | ⟨row, hrow, hb⟩
    · have hf := closeTrade_open_free s uid tid pre t p post h hid hpre hfree
      exact absurd hf.2.2.1 hdiff
    · have hl := closeTrade_open_locked s uid tid pre t p post h hid hpre row hrow hb
      refine ⟨hl.1, ?_⟩
      rw [hl.2.1]
      simp
      omega

/-- Witness for `closeTrade_on_open_position`: the close request for `"A"`
with balance 100000, where the hub does not lock and `"B"` stays open, and in
the run `floorBreached`, where the hub locks and the cascade closes `"B"`. -/
theorem closeTrade_on_open_position_witness :
    (trades (twoPositions 100000 9000) 1 = [] ++ (positionA, 0) :: [(positionB, 0)] ∧
      trades (TradeServer.closeTrade (twoPositions 100000 9000) 1 "A") 1 = [(positionB, 0)]) ∧
    (trades floorBreached 1 = [] ++ (positionA, -1000) :: [(positionB, 0)] ∧
      trades (TradeServer.closeTrade floorBreached 1 "A") 1 = []) :=
  ⟨⟨by decide!,
    ((closeTrade_on_open_position (twoPositions 100000 9000) 1 "A" [] positionA 0
      [(positionB, 0)] (by decide!) rfl (by simp)).2.2.1 (by decide!)).1⟩,
   ⟨by decide!,
    ((closeTrade_on_open_position floorBreached 1 "A" [] positionA (-1000)
      [(positionB, 0)] (by decide!) rfl (by simp)).2.2.2 (by decide!) (by decide!)).1⟩⟩

/-- C10, evaluated on a SHORT position: opened at 50000 with size 1 and closed
at 49000, the position gains 1000, and the claim asks for the return fraction
(50000 − 49000)/50000 = 1/50; the engine sends `addTrade` with
(49000 − 50000)/50000 = -1/50, the formula of a LONG position.  The weight
|1·50000| is as claimed. -/
theorem short_return_not_signed :
    trades shortOpen 1 = [(positionS, 1000)] ∧
    shortOpen.livePrices Asset.BTCUSDT = 49000 ∧
    (step shortOpen (closeMsg "S")).out =
      shortOpen.out ++
        [Event.historyUpdate "S" 49000 1000 noon,
          Event.addTrade 1 20000 (-1 / 50) 50000,
          Event.tradeClosed 1 1000,
          Event.hubAddTrade 1 20000 1 1000] ∧
    (positionS.openPrice - 49000) / positionS.openPrice = 1 / 50 := by
  decide!

/-- C13, as stated, fails: the arithmetic of `inputTrade` is that of `double`.
(1) A LONG order with size and reference price `1 + 2^-52`, stop-loss 0 and
take-profit 2, on an account with equity `1 + 2^-51` and floor 0, all of them
binary64 numbers: the notional cost `(1 + 2^-52)²` is greater than the equity,
and so is the potential loss, but both products are rounded to `1 + 2^-51`, and
the order is accepted.  (2) A LONG order whose stop-loss is NaN: no comparison
with it holds, the order passes the side test without `stopLoss < openPrice`,
and it is accepted. -/
theorem rounded_order_accepted :
    Binary64.representable (Binary64.Double.finite nextAboveOne) = true ∧
    Binary64.representable (Binary64.Double.finite secondAboveOne) = true ∧
    Binary64.inputTrade (Binary64.Double.finite secondAboveOne) (Binary64.Double.finite 0)
        (Binary64.Double.finite 0) (Binary64.Double.finite 2) (Binary64.Double.finite nextAboveOne)
        0 (Binary64.Double.finite nextAboveOne) "market" "long" =
      [Binary64.Signal.placeTrade (Binary64.Double.finite 0) (Binary64.Double.finite 2)
          (Binary64.Double.finite nextAboveOne) 0 (Binary64.Double.finite nextAboveOne)
          "market" "long",
        Binary64.Signal.orderSuccesful true] ∧
    secondAboveOne < nextAboveOne * nextAboveOne ∧
    secondAboveOne - 0 < |nextAboveOne - 0| * nextAboveOne ∧
    ¬ orderAcceptable secondAboveOne 0 0 2 nextAboveOne nextAboveOne "long" ∧
    Binary64.mul (Binary64.Double.finite nextAboveOne) (Binary64.Double.finite nextAboveOne) =
      Binary64.Double.finite secondAboveOne ∧
    Binary64.inputTrade (Binary64.Double.finite 10) (Binary64.Double.finite 0)
        Binary64.Double.nan (Binary64.Double.finite 2) (Binary64.Double.finite 1)
        0 (Binary64.Double.finite 1) "market" "long" =
      [Binary64.Signal.placeTrade Binary64.Double.nan (Binary64.Double.finite 2)
          (Binary64.Double.finite 1) 0 (Binary64.Double.finite 1) "market" "long",
        Binary64.Signal.orderSuccesful true] := by
  refine ⟨by decide!, by decide!, by decide!, by decide!, by decide!, ?_, by decide!, by decide!⟩
  intro h
  exact absurd h.2.1 (by decide!)

/-- C13, amended: `inputTrade` accepts an order, emitting exactly one
`placeTrade` with the unchanged parameters (followed by the success report), if
and only if the position is `"long"` and neither `stopLoss >= openPrice` nor
`takeProfit <= openPrice` holds, or `"short"` and neither
`stopLoss <= openPrice` nor `takeProfit >= openPrice` holds, and neither
`fl(size·openPrice) > equity` nor
`fl(fl(|openPrice − stopLoss|)·size) > fl(equity − maxLoss)` holds, where `fl`
rounds to binary64 and a comparison with a NaN operand does not hold; in every
other case it emits no `placeTrade` and reports the rejection.  For finite
operands whose rounded potential loss is a number, the condition is
stopLoss < openPrice < takeProfit (`"long"`) or takeProfit < openPrice <
stopLoss (`"short"`), `fl(size·openPrice) ≤ equity` and
`fl(fl(|openPrice − stopLoss|)·size) ≤ fl(equity − maxLoss)`; when none of the
four results is changed by the rounding, it is the condition on the exact
values. -/
theorem inputTrade_accepts_rounded (equity maxLoss stopLoss takeProfit size : Binary64.Double)
    (asset : Int) (openPrice : Binary64.Double) (type position : String) :
    (orderAcceptableRounded equity maxLoss stopLoss takeProfit size openPrice position →
      Binary64.inputTrade equity maxLoss stopLoss takeProfit size asset openPrice type position =
        [Binary64.Signal.placeTrade stopLoss takeProfit size asset openPrice type position,
          Binary64.Signal.orderSuccesful true]) ∧
    (¬ orderAcceptableRounded equity maxLoss stopLoss takeProfit size openPrice position →
      Binary64.inputTrade equity maxLoss stopLoss takeProfit size asset openPrice type position =
        [Binary64.Signal.orderSuccesful false]) ∧
    (∀ e m sl tp sz op : ℚ,
      Binary64.mul (Binary64.round |op - sl|) (Binary64.Double.finite sz) ≠ Binary64.Double.nan →
      (orderAcceptableRounded (Binary64.Double.finite e) (Binary64.Double.finite m)
          (Binary64.Double.finite sl) (Binary64.Double.finite tp) (Binary64.Double.finite sz)
          (Binary64.Double.finite op) position ↔
        ((position = "long" ∧ sl < op ∧ op < tp) ∨ (position = "short" ∧ tp < op ∧ op < sl)) ∧
        Binary64.le (Binary64.round (sz * op)) (Binary64.Double.finite e) = true ∧
        Binary64.le (Binary64.mul (Binary64.round |op - sl|) (Binary64.Double.finite sz))
          (Binary64.round (e - m)) = true)) ∧
    (∀ e m sl tp sz op : ℚ,
      Binary64.round (sz * op) = Binary64.Double.finite (sz * op) →
      Binary64.round |op - sl| = Binary64.Double.finite |op - sl| →
      Binary64.round (|op - sl| * sz) = Binary64.Double.finite (|op - sl| * sz) →
      Binary64.round (e - m) = Binary64.Double.finite (e - m) →
      (orderAcceptableRounded (Binary64.Double.finite e) (Binary64.Double.finite m)
          (Binary64.Double.finite sl) (Binary64.Double.finite tp) (Binary64.Double.finite sz)
          (Binary64.Double.finite op) position ↔
        orderAcceptable e m sl tp sz op position)) :=
  ⟨inputTrade_of_acceptable equity maxLoss stopLoss takeProfit size asset openPrice type position,
    inputTrade_of_not_acceptable equity maxLoss stopLoss takeProfit size asset openPrice type
      position,
    fun e m sl tp sz op => acceptableRounded_finite e m sl tp sz op position,
    fun e m sl tp sz op => acceptableRounded_exact e m sl tp sz op position⟩

/-- C11, evaluated on a feed message that does not parse: user 1 holds the LONG
BTCUSDT position of the stop-loss scenario (opened at 50000, stop-loss 49000)
and no price has moved.  The tick handler takes the `0.0` of `extractClose` as
the new price: the live price of BTCUSDT becomes 0, the stop-loss triggers, the
position is closed with a P&L of −50000 and the account is locked. -/
theorem bad_tick_overwrites_price :
    (scenarioOpened false).livePrices Asset.BTCUSDT = 50000 ∧
    trades (scenarioOpened false) 1 = [(scenarioTrade, 0)] ∧
    (step (scenarioOpened false) (badTick Asset.BTCUSDT)).livePrices Asset.BTCUSDT = 0 ∧
    trades (step (scenarioOpened false) (badTick Asset.BTCUSDT)) 1 = [] ∧
    closedPnls 1 (step (scenarioOpened false) (badTick Asset.BTCUSDT)).out = [-50000] ∧
    (step (scenarioOpened false) (badTick Asset.BTCUSDT)).account 1 =
      some { balance := -40000, max_loss := 9000, status := false } := by
  decide!

/-- C12, as stated, fails: user 1 holds `"B"` in ETHUSDT and has no account
dashboard connected to the hub; the ETHUSDT tick at 1000 marks the position at
−2000 and emits no `equityUpdate` at all. -/
theorem tick_skips_account_without_session :
    lossOpen = step (twoPositions 10000 9000) (tickAt Asset.ETHUSDT 1000) ∧
    (positionB, -2000) ∈ trades lossOpen 1 ∧
    fanOut lossOpen 1 = [] ∧
    equityUpdates lossOpen.out = [] := by
  refine ⟨rfl, ?_, ?_, ?_⟩ <;> decide!

/-- C15, evaluated on two handshakes of one connection: socket 7 registers for
account 1 and then for account 2.  It is in the fan-out of both accounts while
the reverse index names account 2 only; after its disconnect it is still in the
fan-out of account 1, and a broadcast for account 1 is written to it. -/
theorem socket_in_two_fan_outs :
    fanOut (run hubIdle [hubHandshake 7 1, hubHandshake 7 2]) 1 = [7] ∧
    fanOut (run hubIdle [hubHandshake 7 1, hubHandshake 7 2]) 2 = [7] ∧
    (run hubIdle [hubHandshake 7 1, hubHandshake 7 2]).hubSocketUser 7 = some 2 ∧
    fanOut (run hubIdle [hubHandshake 7 1, hubHandshake 7 2, hubDisconnect 7]) 1 = [7] ∧
    fanOut (run hubIdle [hubHandshake 7 1, hubHandshake 7 2, hubDisconnect 7]) 2 = [] ∧
    (AccountServer.broadcastJson
      (run hubIdle [hubHandshake 7 1, hubHandshake 7 2, hubDisconnect 7]) 1
      Payload.tradeClosed).out = [Event.hubSend 7 Payload.tradeClosed] := by
  decide!

/-- C16, as stated, fails: after the same handshake (socket 7, account 1) has
been handled twice, the socket occurs twice in the fan-out of the account, where
one handshake leaves it once, and one broadcast is written to it twice. -/
theorem second_handshake_duplicates :
    fanOut (run hubIdle [hubHandshake 7 1]) 1 = [7] ∧
    fanOut (run hubIdle [hubHandshake 7 1, hubHandshake 7 1]) 1 = [7, 7] ∧
    (AccountServer.broadcastJson (run hubIdle [hubHandshake 7 1, hubHandshake 7 1]) 1
      Payload.tradeClosed).out =
      [Event.hubSend 7 Payload.tradeClosed, Event.hubSend 7 Payload.tradeClosed] := by
  decide!

/-- C17, evaluated on a connection registered under account 0: socket 7 sends
the handshake with `userID` 0 and disconnects.  The disconnect handler clears
the reverse index, reads the 0 as "not found" and leaves the socket in the
fan-out of account 0, where the next broadcast is written to it.  Likewise a
socket that has sent its handshake for account 1 twice is still in the fan-out
of account 1 after its disconnect, which removes one occurrence. -/
theorem disconnect_skips_account_zero :
    fanOut (run hubIdle [hubHandshake 7 0]) 0 = [7] ∧
    (run hubIdle [hubHandshake 7 0]).hubSocketUser 7 = some 0 ∧
    fanOut (run hubIdle [hubHandshake 7 0, hubDisconnect 7]) 0 = [7] ∧
    (run hubIdle [hubHandshake 7 0, hubDisconnect 7]).hubSocketUser 7 = none ∧
    (AccountServer.broadcastJson (run hubIdle [hubHandshake 7 0, hubDisconnect 7]) 0
      Payload.tradeClosed).out = [Event.hubSend 7 Payload.tradeClosed] ∧
    fanOut (run hubIdle [hubHandshake 7 1, hubHandshake 7 1, hubDisconnect 7]) 1 = [7] := by
  decide!

/-- C20, evaluated on a window with coinciding benchmark returns: three
complete days of user 1 with portfolio returns 3, 1, 5 and benchmark return 0
on each day.  The window has three points with benchmark return 0, the sample
variance of the benchmark is 0, and the third call of `addBenchmark` emits
`alphaUpdated` for the user with the non-finite result of the division by
that variance. -/
theorem zero_variance_divides :
    (AlphaCalculator.window (QMap.value (threeDays 0 0 0).buckets 1 [])).map
      AlphaCalculator.Pair.rb = [0, 0, 0] ∧
    AlphaCalculator.variance [0, 0, 0] (AlphaCalculator.mean [0, 0, 0]) = 0 ∧
    (alphaDay (alphaDay AlphaCalculator.empty 1 3 0) 2 1 0).alphaUpdated = [] ∧
    (threeDays 0 0 0).alphaUpdated = [(1, none)] := by
  decide!

/-- C12, amended: after a tick for an asset has been processed, exactly one
`equityUpdate` has been emitted for every account that has a session
registered at the hub (every key of the session map of the hub, in key order),
whether or not the account holds a position in that asset, and none for any
other account. -/
theorem tick_equity_updates_follow_sessions (s : State) (asset : Asset)
    (msg : TradeServer.TickMsg) :
    equityUpdates (TradeServer.onAssetTick s asset msg).out =
      equityUpdates s.out ++ QMap.keys s.hubSessions := by
  unfold TradeServer.onAssetTick
  simp only
  rw [equityUpdates_rounds, equityUpdates_riskPhase, hubSessions_riskPhase]

/-- C16, amended: the hub appends on every handshake.  Handling a handshake
(socket `sock`, account `uid`) adds one occurrence of the socket at the end of
the fan-out of the account; handling the same handshake again adds a second
occurrence, so a broadcast for the account is then written to the socket twice.
The fan-out of every other account and the log are unchanged, and the reverse
index is the same after the second handshake as after the first. -/
theorem handshake_appends_connection (s : State) (sock : Nat) (uid : Int) (obj : Payload) :
    fanOut (registerSocket s sock uid) uid = fanOut s uid ++ [sock] ∧
    fanOut (registerSocket (registerSocket s sock uid) sock uid) uid =
      fanOut s uid ++ [sock, sock] ∧
    (∀ u, u ≠ uid →
      fanOut (registerSocket (registerSocket s sock uid) sock uid) u = fanOut s u) ∧
    (registerSocket (registerSocket s sock uid) sock uid).hubSocketUser =
      (registerSocket s sock uid).hubSocketUser ∧
    (AccountServer.broadcastJson (registerSocket (registerSocket s sock uid) sock uid) uid obj).out =
      s.out ++ (fanOut s uid ++ [sock, sock]).map (fun ws => Event.hubSend ws obj) := by
  have h1 : fanOut (registerSocket s sock uid) uid = fanOut s uid ++ [sock] := by
    rw [fanOut_registerSocket, if_pos rfl]
  have h2 : fanOut (registerSocket (registerSocket s sock uid) sock uid) uid =
      fanOut s uid ++ [sock, sock] := by
    rw [fanOut_registerSocket, if_pos rfl, h1, List.append_assoc]
    rfl
  refine ⟨h1, h2, ?_, ?_, ?_⟩
  · intro u hu
    have hne : ¬ uid = u := fun h => hu h.symm
    rw [fanOut_registerSocket, if_neg hne, fanOut_registerSocket, if_neg hne]
  · rw [hubSocketUser_registerSocket, hubSocketUser_registerSocket]
    simp
  · rw [out_broadcastJson, h2, out_registerSocket, out_registerSocket]

/-- C19: when the window of user `u` has `N ≥ 3` daily points whose benchmark
returns do not all coincide, `computeAlpha` emits for `u` exactly the value
`mean(rp) − beta · mean(rb)` with
`beta = [Σ (rp_i − mean rp)(rb_i − mean rb) / (N − 1)] / [Σ (rb_i − mean rb)² / (N − 1)]`,
in exact arithmetic; the sample variance of the benchmark is not zero, so the
value is finite. -/
theorem computeAlpha_is_ols (c : AlphaCalculator.Calc) (u : Int)
    (hN : 3 ≤ (AlphaCalculator.window (QMap.value c.buckets u [])).length)
    (hvar : ∃ p ∈ AlphaCalculator.window (QMap.value c.buckets u []),
      ∃ q ∈ AlphaCalculator.window (QMap.value c.buckets u []), p.rb ≠ q.rb) :
    sampleVariance
      ((AlphaCalculator.window (QMap.value c.buckets u [])).map AlphaCalculator.Pair.rb) ≠ 0 ∧
    (AlphaCalculator.computeAlpha c u).alphaUpdated =
      c.alphaUpdated ++
        [(u, some (olsAlpha (AlphaCalculator.window (QMap.value c.buckets u []))))] := by
  have hne : sampleVariance
      ((AlphaCalculator.window (QMap.value c.buckets u [])).map AlphaCalculator.Pair.rb) ≠ 0 := by
    apply sampleVariance_ne_zero
    · rw [List.length_map]
      omega
    · obtain ⟨p, hp, q, hq, hpq⟩ := hvar
      exact ⟨p.rb, List.mem_map.2 ⟨p, hp, rfl⟩, q.rb, List.mem_map.2 ⟨q, hq, rfl⟩, hpq⟩
  refine ⟨hne, ?_⟩
  rw [computeAlpha_emits c u hN]
  unfold AlphaCalculator.fdiv
  rw [if_neg hne]
  rfl

/-- Witness for `computeAlpha_is_ols`: three consecutive complete days of user 1
with portfolio returns 3, 1, 5 and benchmark returns 1, 2, 4, each leg with
weight 100.  The daily points are (5/2, 2), (1/2, 1), (3/2, 1/2); the slope is
6/7 and the alpha 1/2, which is also what the third call of `addBenchmark` has
emitted. -/
theorem computeAlpha_is_ols_witness :
    AlphaCalculator.window (QMap.value (threeDays 1 2 4).buckets 1 []) =
      [{ rp := 5 / 2, rb := 2 }, { rp := 1 / 2, rb := 1 }, { rp := 3 / 2, rb := 1 / 2 }] ∧
    olsBeta (AlphaCalculator.window (QMap.value (threeDays 1 2 4).buckets 1 [])) = 6 / 7 ∧
    (threeDays 1 2 4).alphaUpdated = [(1, some (1 / 2))] ∧
    (AlphaCalculator.computeAlpha (threeDays 1 2 4) 1).alphaUpdated =
      (threeDays 1 2 4).alphaUpdated ++ [(1, some (1 / 2))] :=
  ⟨by decide!, by decide!, by decide!,
    ((computeAlpha_is_ols (threeDays 1 2 4) 1 (by decide!)
      ⟨{ rp := 5 / 2, rb := 2 }, by decide!, { rp := 1 / 2, rb := 1 }, by decide!,
        by decide!⟩).2).trans (by decide!)⟩

/-- C22, evaluated on 31 complete days: user 1 has the complete days 1 … 31
(day `d` with portfolio return `d`).  The rebuilt window holds 30 points, those
of the days 30, 29, …, 1 (portfolio returns `d / 2`): the latest day 31, whose
bucket is complete, is the one that is left out.  For every day map the window
is made of the first `BUCKET_WINDOW` days with a non-zero weight sum in
ascending order of the dates, the latest of them in front. -/
theorem window_keeps_oldest_days :
    (∀ dayMap : List (Int × AlphaCalculator.Bucket),
      AlphaCalculator.window dayMap =
        (((dayMap.filter (fun e => decide (e.2.w ≠ 0))).take AlphaCalculator.BUCKET_WINDOW).map
          (fun e => dayPoint e.2)).reverse) ∧
    QMap.keys (QMap.value (completeDays 31).buckets 1 []) =
      (List.range 31).map (fun i => (i : Int) + 1) ∧
    AlphaCalculator.bucketAt (completeDays 31) 1 31 = { wRp := 3100, wRb := 96100, w := 200 } ∧
    (AlphaCalculator.window (QMap.value (completeDays 31).buckets 1 [])).map
      AlphaCalculator.Pair.rp = (List.range 30).reverse.map (fun i => ((i : ℚ) + 1) / 2) ∧
    dayPoint (AlphaCalculator.bucketAt (completeDays 31) 1 31) ∉
      AlphaCalculator.window (QMap.value (completeDays 31).buckets 1 []) ∧
    dayPoint (AlphaCalculator.bucketAt (completeDays 31) 1 1) ∈
      AlphaCalculator.window (QMap.value (completeDays 31).buckets 1 []) := by
  refine ⟨window_eq_oldest, ?_, ?_, ?_, ?_, ?_⟩ <;> decide!

/-- C23, evaluated on a day without benchmark: user 1 has a trade on day 1 and
no benchmark observation for that day, and the complete days 2 and 3.  The day
map has two complete days, but the window has three points, the point (3, 0) of
day 1 among them, and an alpha is emitted from it.  In the same way a day with
a benchmark observation only contributes the point (0, 2). -/
theorem incomplete_day_contributes_point :
    AlphaCalculator.bucketAt tradeOnlyDay 1 1 = { wRp := 300, wRb := 0, w := 100 } ∧
    AlphaCalculator.window (QMap.value tradeOnlyDay.buckets 1 []) =
      [{ rp := 5 / 2, rb := 2 }, { rp := 1 / 2, rb := 1 }, { rp := 3, rb := 0 }] ∧
    tradeOnlyDay.alphaUpdated = [(1, some (9 / 4))] ∧
    AlphaCalculator.window
      (QMap.value (AlphaCalculator.addBenchmark AlphaCalculator.empty 1 1 2 100).buckets 1 []) =
      [{ rp := 0, rb := 2 }] := by
  decide!

/-- C24, as stated, fails: for user 1 and day 1 one trade observation
(return 3, weight 100) and one benchmark observation (return 2, weight 100) are
recorded.  The bucket holds the sums 300 and 200 and the one weight sum 200, so
the window point of the day is (3/2, 1), where the weighted means of the two
legs are 3 and 2. -/
theorem day_point_shares_weight :
    AlphaCalculator.bucketAt (alphaDay AlphaCalculator.empty 1 3 2) 1 1 =
      { wRp := 300, wRb := 200, w := 200 } ∧
    AlphaCalculator.window (QMap.value (alphaDay AlphaCalculator.empty 1 3 2).buckets 1 []) =
      [{ rp := 3 / 2, rb := 1 }] ∧
    weightedMean [(3, 100)] = 3 ∧
    weightedMean [(2, 100)] = 2 := by
  decide!

/-- C24, amended: a bucket keeps one weight sum for both legs.  After any
sequence of calls on a fresh calculator, the bucket of account `u` and day `d`
holds `Σ(w_i·r_i)` over the trade observations of the day, `Σ(v_j·b_j)` over its
benchmark observations and `W = Σ(w_i) + Σ(v_j)`, and the point of the day is
the pair `Σ(w_i·r_i)/W`, `Σ(v_j·b_j)/W`.  The window of the account is made of
these points: those of the first `BUCKET_WINDOW` days with `W ≠ 0` in ascending
order of the dates, the latest of them in front. -/
theorem day_point_over_combined_weight (calls : List Observation) (u : Int) :
    (∀ d, AlphaCalculator.bucketAt (calls.foldl record AlphaCalculator.empty) u d =
      { wRp := ((tradeLeg calls u d).map (fun o => o.2 * o.1)).sum,
        wRb := ((benchmarkLeg calls u d).map (fun o => o.2 * o.1)).sum,
        w := ((tradeLeg calls u d).map (fun o => o.2)).sum +
          ((benchmarkLeg calls u d).map (fun o => o.2)).sum }) ∧
    (∀ d, dayPoint (AlphaCalculator.bucketAt (calls.foldl record AlphaCalculator.empty) u d) =
      combinedWeightPoint (tradeLeg calls u d) (benchmarkLeg calls u d)) ∧
    (∀ e ∈ QMap.value (calls.foldl record AlphaCalculator.empty).buckets u [],
      e.2 = AlphaCalculator.bucketAt (calls.foldl record AlphaCalculator.empty) u e.1) ∧
    AlphaCalculator.window (QMap.value (calls.foldl record AlphaCalculator.empty).buckets u []) =
      ((((QMap.value (calls.foldl record AlphaCalculator.empty).buckets u []).filter
          (fun e => decide (e.2.w ≠ 0))).take AlphaCalculator.BUCKET_WINDOW).map
        (fun e => combinedWeightPoint (tradeLeg calls u e.1) (benchmarkLeg calls u e.1))).reverse := by
  have hpoint : ∀ d,
      dayPoint (AlphaCalculator.bucketAt (calls.foldl record AlphaCalculator.empty) u d) =
        combinedWeightPoint (tradeLeg calls u d) (benchmarkLeg calls u d) := by
    intro d
    rw [bucket_of_calls]
    rfl
  refine ⟨bucket_of_calls calls u, hpoint, bucket_of_entry calls u, ?_⟩
  rw [window_eq_oldest]
  congr 1
  apply List.map_congr_left
  intro e he
  have hmem : e ∈ QMap.value (calls.foldl record AlphaCalculator.empty).buckets u [] :=
    List.mem_of_mem_filter (List.mem_of_mem_take he)
  rw [bucket_of_entry calls u e hmem]
  exact hpoint e.1

/-- C26, evaluated on the day of the start: the engine starts at midday of day
20000, the benchmark feed ticks at 50000 and, at 23:59, at 51000.  The first
tick of the day does not set `benchOpen`, which is still 0 at the cutover: the
return forwarded for account 0 is `(51000 − 0) / 0`, not
`(51000 − 50000) / 50000`.  On the next day the first tick sets `benchOpen` and
the forwarded return is `(51000 − 50000) / 50000`. -/
theorem first_day_benchmark_open_unset :
    (step (init (oneAccount 10000 9000) noon) (tickAt Asset.BTCUSDT 50000)).livePrices
      Asset.BTCUSDT = 50000 ∧
    (step (init (oneAccount 10000 9000) noon) (tickAt Asset.BTCUSDT 50000)).benchOpen = 0 ∧
    benchmarkCalls firstDay.out = [(0, 20000, (51000 - 0) / 0, 1)] ∧
    benchmarkCalls firstDay.out ≠ [(0, 20000, (51000 - 50000) / 50000, 1)] ∧
    benchmarkCalls secondDay.out =
      benchmarkCalls firstDay.out ++ [(0, 20001, (51000 - 50000) / 50000, 1)] := by
  decide!

/-- C28, evaluated on three trading days: user 1 closes a position with a
return of 2 %, 4 % and −2 % on the days 20001, 20002 and 20003, and the
benchmark cutover fires on each of these days with the returns 1 %, 2 % and 3 %.
The trades are in the buckets of account 1, the benchmark returns in those of
account 0, and neither the calculator of the engine nor that of the hub has
emitted an alpha.  After every sequence of inputs the calculator of the engine
has emitted alphas for account 0 only and the calculator of the hub none. -/
theorem no_alpha_for_trading_account :
    (∀ (accounts : Int → Option AccountRow) (start : Clock) (inputs : List (Clock × Input))
      (u : Int) (a : Option ℚ), u ≠ 0 →
      (u, a) ∉ (engineAlpha (run (init accounts start) inputs).out).alphaUpdated ∧
      (hubAlpha (run (init accounts start) inputs).out).alphaUpdated = []) ∧
    (QMap.value (engineAlpha threeTradingDays.out).buckets 1 []).map
      (fun e => (e.1, e.2.wRp, e.2.wRb)) =
      [(20001, 1000, 0), (20002, 2000, 0), (20003, -1000, 0)] ∧
    benchmarkCalls threeTradingDays.out =
      [(0, 20001, 1 / 100, 1), (0, 20002, 1 / 50, 1), (0, 20003, 3 / 100, 1)] ∧
    (engineAlpha threeTradingDays.out).alphaUpdated = [] ∧
    (hubAlpha threeTradingDays.out).alphaUpdated = [] := by
  refine ⟨?_, by decide!, by decide!, by decide!, by decide!⟩
  intro accounts start inputs u a hu
  have h := no_alpha_outside_market accounts start inputs
  exact ⟨fun hmem => hu (h.1 (u, a) hmem), h.2⟩

/-- C29, as stated, fails: the dashboard validates a LONG order with stop-loss
49000 and take-profit 52000 against the reference price 50000 and sends it; the
engine, whose live price of BTCUSDT is 48000 by then, opens the position at
48000, below its stop-loss. -/
theorem stale_reference_breaks_ordering :
    DisplayManager.inputTrade 100000 9000 49000 52000 1 0 50000 "market" "long" =
      [DisplayManager.Signal.placeTrade 49000 52000 1 0 50000 "market" "long",
        DisplayManager.Signal.orderSuccesful true] ∧
    trades staleOrder 1 = [(stalePosition, 0)] ∧
    stalePosition.openPrice = 48000 ∧
    stalePosition.stopLoss = 49000 ∧
    ¬ sideOrdered stalePosition := by
  decide!

/-- C30, evaluated on a lock by an equity update: account 1 (balance 10000,
floor 9000, nothing closed so far, account dashboard connected) holds one LONG
BTCUSDT position of size 1 opened at 50000; the tick at 48900 gives a total
unrealised P&L of −1100 and an equity of 8900.  The hub writes 8900 as balance
and locks, the cascade closes the position with a realised P&L of −1100, which
is added again: the final balance is 7800, not 10000 − 1100 = 8900.  In general
a lock by an equity update with total P&L `T` on balance `b` leaves the balance
`b + T` plus the P&L at the live prices of the positions that the cascade
closes. -/
theorem equity_lock_counts_loss_twice :
    (∀ (s : State) (uid : Int) (totalPnL : ℚ) (row : AccountRow),
      s.account uid = some row → row.balance + totalPnL ≤ row.max_loss →
      ((AccountServer.onEquityUpdate TradeServer.onCloseAllTrades s uid totalPnL).account
          uid).map AccountRow.balance =
        some (row.balance + totalPnL + (livePnls s uid).sum)) ∧
    watchedPosition.account 1 = some { balance := 10000, max_loss := 9000, status := true } ∧
    closedPnls 1 watchedPosition.out = [] ∧
    trades watchedPosition 1 = [(positionA, 0)] ∧
    trades (step watchedPosition (tickAt Asset.BTCUSDT 48900)) 1 = [] ∧
    closedPnls 1 (step watchedPosition (tickAt Asset.BTCUSDT 48900)).out = [-1100] ∧
    (step watchedPosition (tickAt Asset.BTCUSDT 48900)).account 1 =
      some { balance := 7800, max_loss := 9000, status := false } := by
  refine ⟨balance_after_equity_lock, ?_, ?_, ?_, ?_, ?_, ?_⟩ <;> decide!

/-- C21, evaluated on two complete daily pairs: user 1 has a trade
observation on day 1 without benchmark observation and the complete days 2 and
3, all weights positive.  The account has two complete daily pairs (days 2 and
3), fewer than three; the last call, the benchmark observation of day 3, emits
an alpha all the same (9/4), because the day with a trade only is counted as a
point of the window. -/
theorem alpha_emitted_with_two_pairs :
    completePairs twoPairCalls 1 = [2, 3] ∧
    (completePairs twoPairCalls 1).length < 3 ∧
    twoPairCalls.foldl record AlphaCalculator.empty = tradeOnlyDay ∧
    (twoPairCalls.dropLast.foldl record AlphaCalculator.empty).alphaUpdated = [] ∧
    (twoPairCalls.foldl record AlphaCalculator.empty).alphaUpdated = [(1, some (9 / 4))] ∧
    (AlphaCalculator.window
      (QMap.value (twoPairCalls.foldl record AlphaCalculator.empty).buckets 1 [])).length = 3 := by
  decide!

/-- C27: when the window of user `u` has `N ≥ 3` points whose benchmark returns
are not all equal and whose portfolio returns lie on the line
`rp = a + b · rb`, the slope that `computeAlpha` computes is `b` and the alpha
it emits is `a`, in exact arithmetic; the same values result from the points
in any other order. -/
theorem alpha_is_ols_intercept (c : AlphaCalculator.Calc) (u : Int) (a b : ℚ)
    (hN : 3 ≤ (AlphaCalculator.window (QMap.value c.buckets u [])).length)
    (hvar : ∃ p ∈ AlphaCalculator.window (QMap.value c.buckets u []),
      ∃ q ∈ AlphaCalculator.window (QMap.value c.buckets u []), p.rb ≠ q.rb)
    (hline : ∀ p ∈ AlphaCalculator.window (QMap.value c.buckets u []), p.rp = a + b * p.rb) :
    windowBeta (AlphaCalculator.window (QMap.value c.buckets u [])) = some b ∧
    (AlphaCalculator.computeAlpha c u).alphaUpdated = c.alphaUpdated ++ [(u, some a)] ∧
    ∀ pts, pts.Perm (AlphaCalculator.window (QMap.value c.buckets u [])) →
      windowBeta pts = some b ∧ windowAlpha pts = some a := by
  have h := window_on_line _ a b (by omega) hvar hline
  refine ⟨h.1, ?_, ?_⟩
  · rw [computeAlpha_long c u hN, h.2]
  · intro pts hperm
    apply window_on_line pts a b
    · rw [hperm.length_eq]
      omega
    · obtain ⟨p, hp, q, hq, hpq⟩ := hvar
      exact ⟨p, hperm.mem_iff.2 hp, q, hperm.mem_iff.2 hq, hpq⟩
    · intro p hp
      exact hline p (hperm.mem_iff.1 hp)

/-- Witness for `alpha_is_ols_intercept`: three complete days of user 1 with
the daily points (5/2, 2), (1/2, 0), (3/2, 1), which lie on the line
`rp = 1/2 + 1 · rb`. -/
theorem alpha_is_ols_intercept_witness :
    AlphaCalculator.window (QMap.value (threeDays 2 0 4).buckets 1 []) =
      [{ rp := 5 / 2, rb := 2 }, { rp := 1 / 2, rb := 0 }, { rp := 3 / 2, rb := 1 }] ∧
    windowBeta (AlphaCalculator.window (QMap.value (threeDays 2 0 4).buckets 1 [])) = some 1 ∧
    (AlphaCalculator.computeAlpha (threeDays 2 0 4) 1).alphaUpdated =
      (threeDays 2 0 4).alphaUpdated ++ [(1, some (1 / 2))] ∧
    (threeDays 2 0 4).alphaUpdated = [(1, some (1 / 2))] :=
  ⟨by decide!,
    (alpha_is_ols_intercept (threeDays 2 0 4) 1 (1 / 2) 1 (by decide!)
      ⟨{ rp := 5 / 2, rb := 2 }, by decide!, { rp := 1 / 2, rb := 0 }, by decide!, by decide!⟩
      (by decide!)).1,
    (alpha_is_ols_intercept (threeDays 2 0 4) 1 (1 / 2) 1 (by decide!)
      ⟨{ rp := 5 / 2, rb := 2 }, by decide!, { rp := 1 / 2, rb := 0 }, by decide!, by decide!⟩
      (by decide!)).2.1,
    by decide!⟩

/-- C25, evaluated on a day with an open position: on day 20000 user 1 opens
`"A"` (BTCUSDT at 50000) and `"B"` (ETHUSDT at 3000), both of size 1, and closes
`"A"` at 51000; `"B"` stays open.  The one live observation of the day (return
1/50, weight 50000) leaves the bucket {1000, 0, 50000} in the calculator of the
engine.  The table holds two rows of the user dated on that day, the row of
`"A"` and the skeleton row of `"B"` with `closingPrice` 0, and the query of
`rebuildBucketFromDb`, which has no condition on the closing, selects both: the
rebuilt bucket is {-2000, 0, 53000}, the open position counted as a trade with
return -1.  The buckets still differ after the same benchmark observation. -/
theorem rebuild_counts_open_position :
    trades oneClosedOneOpen 1 = [(positionB, 0)] ∧
    oneClosedOneOpen.now.date = 20000 ∧
    historyTable oneClosedOneOpen.out =
      [{ trade_id := "A", user_id := 1, size := 1, asset := Asset.BTCUSDT, openPrice := 50000,
          closingPrice := 51000, pnl := 1000, date := noon },
        { trade_id := "B", user_id := 1, size := 1, asset := Asset.ETHUSDT, openPrice := 3000,
          closingPrice := 0, pnl := 0, date := noon }] ∧
    historyQuery (historyTable oneClosedOneOpen.out) 1 20000 =
      [{ size := 1, openPrice := 50000, closingPrice := 51000 },
        { size := 1, openPrice := 3000, closingPrice := 0 }] ∧
    (engineAlpha oneClosedOneOpen.out).buckets =
      [(1, [(20000, { wRp := 1000, wRb := 0, w := 50000 })])] ∧
    AlphaCalculator.bucketAt (engineAlpha oneClosedOneOpen.out) 1 20000 =
      { wRp := 1000, wRb := 0, w := 50000 } ∧
    AlphaCalculator.bucketAt
        (AlphaCalculator.rebuildBucketFromDb AlphaCalculator.empty 1 20000
          (some (historyQuery (historyTable oneClosedOneOpen.out) 1 20000))) 1 20000 =
      { wRp := -2000, wRb := 0, w := 53000 } ∧
    AlphaCalculator.bucketAt
        (AlphaCalculator.addBenchmark (engineAlpha oneClosedOneOpen.out) 1 20000 (1 / 100) 1)
        1 20000 =
      { wRp := 1000, wRb := 1 / 100, w := 50001 } ∧
    AlphaCalculator.bucketAt
        (AlphaCalculator.addBenchmark
          (AlphaCalculator.rebuildBucketFromDb AlphaCalculator.empty 1 20000
            (some (historyQuery (historyTable oneClosedOneOpen.out) 1 20000)))
          1 20000 (1 / 100) 1) 1 20000 =
      { wRp := -2000, wRb := 1 / 100, w := 53001 } := by
  decide!

/-- C29, amended: the position that the engine opens for a new-order message
records the engine's own live price of the asset as `openPrice`, and the
stop-loss and take-profit of the message.  When the limits of the message
passed the validation of the dashboard against a reference price, the position
satisfies the side ordering relative to its recorded `openPrice` whenever the
live price of the engine equals that reference price. -/
theorem opened_position_uses_live_price (s : State) (sock : Nat) (o : TradeServer.Msg)
    (slot : Nat) (equity maxLoss ref : ℚ) (assetIndex : Int)
    (hobj : o.isObject = true) (hconn : o.connection ≠ "tradeDashboard")
    (hnew : o.newTrade = true)
    (hvalid : DisplayManager.Signal.placeTrade o.stopLoss o.takeProfit o.size assetIndex ref
        o.type o.position ∈
      DisplayManager.inputTrade equity maxLoss o.stopLoss o.takeProfit o.size assetIndex ref
        o.type o.position) :
    trades (TradeServer.onTextMessageReceived s sock o slot) o.userID =
      insertAt slot (openedTrade s o, 0) (trades s o.userID) ∧
    (openedTrade s o).openPrice = s.livePrices o.asset ∧
    (openedTrade s o).stopLoss = o.stopLoss ∧
    (openedTrade s o).takeProfit = o.takeProfit ∧
    (s.livePrices o.asset = ref → sideOrdered (openedTrade s o)) := by
  refine ⟨newTrade_opens_trade s sock o slot hobj hconn hnew, rfl, rfl, rfl, ?_⟩
  intro href
  have h := placed_order_ordered equity maxLoss o.stopLoss o.takeProfit o.size assetIndex ref
    o.type o.position hvalid
  unfold sideOrdered openedTrade
  simp only [href]
  exact h

/-- Witness for `opened_position_uses_live_price`: the order of the stop-loss
scenario, validated against 50000 with an equity of 100000, reaches the engine
while its live price of BTCUSDT is 50000. -/
theorem opened_position_uses_live_price_witness :
    trades (TradeServer.onTextMessageReceived
        (run (init (oneAccount 100000 9000) noon) [tickAt Asset.BTCUSDT 50000]) 5
        scenarioOrder 9) 1 = [(scenarioTrade, 0)] ∧
    sideOrdered scenarioTrade :=
  ⟨(opened_position_uses_live_price
      (run (init (oneAccount 100000 9000) noon) [tickAt Asset.BTCUSDT 50000]) 5 scenarioOrder 9
      100000 9000 50000 0 rfl (by decide) rfl (by decide!)).1.trans (by decide!),
    (opened_position_uses_live_price
      (run (init (oneAccount 100000 9000) noon) [tickAt Asset.BTCUSDT 50000]) 5 scenarioOrder 9
      100000 9000 50000 0 rfl (by decide) rfl (by decide!)).2.2.2.2 (by decide!)⟩

end TradingPlatform
